import Mathlib

/-!
Verification development for `zipls`, an `ls`-like viewer for the member list
of a zip archive (source: `zipls.py`).

The embedding models the Python strings that the program manipulates as lists
of characters (`Str`), Python dictionaries as insertion-ordered association
lists, and every fallible or possibly non-terminating piece of code as an
`Except`-valued (respectively fuel-indexed) function.  Each definition mirrors
one Python function of `zipls.py` and is named after it.

One representation choice deserves a note.  In the Python code the objects of
class `FileDirNode` are shared: `zipinfo_dict[path]` and
`node_parent.children[leaf]` are the same mutable object.  The code only ever
reads the *keys* of a `children` mapping and reaches the child node itself
through `zipinfo_dict`, and every assignment into a `children` mapping is
immediately mirrored by an assignment `zipinfo_dict[this_filedir] = ...`
(lines 489-490 and 536/540/542 followed by 544).  We therefore model a node's
`children` as the list of its keys and keep every node in the dictionary.
For member names without a leading `/` (the only names a zip tool produces,
and the shape the specification's data model prescribes) `this_filedir`
coincides with `path_join(parent, leaf)` and the model is observationally
exact; the single place where a broken aliasing could be observed (the
`zipinfo` update on line 540 when the dictionary lacks the joined key) is
modelled as an error.
-/

set_option maxHeartbeats 1000000

namespace Zipls

/-- Python strings, modelled as lists of characters. -/
abbrev Str := List Char

/-- The part of a `zipfile.ZipInfo` that `zipls` reads: the member name and
its metadata (`file_size`, `date_time`, `external_attr` are summarised by
natural numbers; only their equality matters to the claims). -/
structure ZipInfo where
  filename : Str
  fileSize : Nat := 0
  dateTime : Nat := 0
  externalAttr : Nat := 0
  deriving DecidableEq, Repr, Inhabited

/-- `zipfile.ZipInfo.is_dir`: the name ends with a slash.  (Python raises
`IndexError` on an empty name; entries whose name is empty are excluded by
the hypotheses of every theorem that builds a tree.) -/
def ZipInfo.isDir (zi : ZipInfo) : Bool :=
  zi.filename.getLast? = some '/'

/-- Python `str.split("/")`:  `"" ↦ [""]`, separators produce empty parts. -/
def splitSlash : Str → List Str
  | [] => [[]]
  | c :: rest =>
    if c = '/' then [] :: splitSlash rest
    else
      match splitSlash rest with
      | [] => [[c]]
      | h :: t => (c :: h) :: t

/-- Python `"/".join` on a list of nonempty parts. -/
def joinNE : List Str → Str
  | [] => []
  | [p] => p
  | p :: q :: rest => p ++ '/' :: joinNE (q :: rest)

/-- `path_join` (zipls.py:332): join parts with `/`, ignoring empty parts. -/
def pathJoin (parts : List Str) : Str :=
  joinNE (parts.filter (fun p => p ≠ []))

/-- Python `str.rstrip("/")`: drop every trailing slash. -/
def rstripSlash (s : Str) : Str :=
  (s.reverse.dropWhile (fun c => c = '/')).reverse

/-- Python `str.rpartition("/")`, keeping the two interesting components:
the part before the last slash and the part after it; when the string has
no slash the result is `("", s)`. -/
def rpartitionSlash (s : Str) : Str × Str :=
  let revLeaf := s.reverse.takeWhile (fun c => c ≠ '/')
  let rest := s.reverse.dropWhile (fun c => c ≠ '/')
  match rest with
  | [] => ([], s)
  | _ :: restParent => (restParent.reverse, revLeaf.reverse)

/-- Python `str.startswith` on our string model. -/
def strStartsWith (s pre : Str) : Bool :=
  decide (s.take pre.length = pre)

/-- `FileDirNode` (zipls.py:457): the zipinfo attached to a path and, when
the node is a directory, the keys of its children mapping (in insertion
order).  `children = none` means the node is a file. -/
structure FileDirNode where
  zipinfo : Option ZipInfo
  children : Option (List Str)
  deriving DecidableEq, Repr, Inhabited

/-- `zipinfo_dict`: a Python dict from path to node, as an insertion-ordered
association list. -/
abbrev ZDict := List (Str × FileDirNode)

/-- Dictionary lookup (first matching key; keys are unique by construction). -/
def dlookup (d : ZDict) (k : Str) : Option FileDirNode :=
  match d with
  | [] => none
  | (k', v) :: t => if k' = k then some v else dlookup t k

/-- Dictionary store: replace the value of an existing key in place, or
append a new key at the end — Python dict assignment. -/
def dictSet (d : ZDict) (k : Str) (v : FileDirNode) : ZDict :=
  match d with
  | [] => [(k, v)]
  | (k', v') :: t => if k' = k then (k', v) :: t else (k', v') :: dictSet t k v

/-- Python `children[leaf] = node` on the key list: an existing key keeps its
position, a new key is appended. -/
def kidsAdd (kids : List Str) (c : Str) : List Str :=
  if c ∈ kids then kids else kids ++ [c]

/-- The command-line switches that the core logic reads. -/
structure Args where
  all : Bool := false
  directory : Bool := false
  hideMacosx : Bool := false
  deriving DecidableEq, Repr

/-- Errors of the core: `noSuchFileDir` models `NoSuchFileDirError`,
`crash` models an uncaught Python exception (`KeyError` outside the guarded
lookup, or `TypeError` from using `None` as a mapping). -/
inductive LsError where
  | noSuchFileDir
  | crash
  deriving DecidableEq, Repr

/-- The loop body of `create_node_and_ancestors` (zipls.py:468-490):
`pre` is the list of already-handled components, `rest` the remaining ones.
For each component: if no node exists at `me`, create a directory node
carrying the *current entry's* zipinfo and register it in its parent. -/
def cnaaLoop (zi : ZipInfo) : ZDict → List Str → List Str → Except LsError ZDict
  | d, _, [] => Except.ok d
  | d, pre, c :: rest =>
    let me := pathJoin (pre ++ [c])
    match dlookup d me with
    | some _ => cnaaLoop zi d (pre ++ [c]) rest
    | none =>
      let myParent := pathJoin pre
      match dlookup d myParent with
      | none => Except.error LsError.crash
      | some pn =>
        match pn.children with
        | none => Except.error LsError.crash
        | some kids =>
          let d1 := dictSet d myParent ⟨pn.zipinfo, some (kidsAdd kids c)⟩
          let d2 := dictSet d1 me ⟨some zi, some []⟩
          cnaaLoop zi d2 (pre ++ [c]) rest

/-- `create_node_and_ancestors` (zipls.py:468): walk `[""] + name.split("/")`. -/
def createNodeAndAncestors (nodeName : Str) (zi : ZipInfo) (d : ZDict) :
    Except LsError ZDict :=
  cnaaLoop zi d [] ([] :: splitSlash nodeName)

/-- One iteration of the entry loop of `get_zipinfo` (zipls.py:514-544). -/
def stepEntry (args : Args) (d : ZDict) (zi : ZipInfo) : Except LsError ZDict :=
  if args.hideMacosx ∧ strStartsWith zi.filename "__MACOSX/".toList then
    Except.ok d
  else
    let thisFiledir := rstripSlash zi.filename
    let pl := rpartitionSlash thisFiledir
    let parentName := pl.1
    let leafName := pl.2
    let dAfter :=
      match dlookup d parentName with
      | some _ => Except.ok d
      | none => createNodeAndAncestors parentName zi d
    match dAfter with
    | Except.error e => Except.error e
    | Except.ok d1 =>
      match dlookup d1 parentName with
      | none => Except.error LsError.crash
      | some pn =>
        match pn.children with
        | none => Except.error LsError.crash
        | some kids =>
          if zi.isDir then
            if leafName ∈ kids then
              match dlookup d1 thisFiledir with
              | some n => Except.ok (dictSet d1 thisFiledir ⟨some zi, n.children⟩)
              | none => Except.error LsError.crash
            else
              let d2 := dictSet d1 parentName ⟨pn.zipinfo, some (kids ++ [leafName])⟩
              Except.ok (dictSet d2 thisFiledir ⟨some zi, some []⟩)
          else
            let d2 := dictSet d1 parentName ⟨pn.zipinfo, some (kidsAdd kids leafName)⟩
            Except.ok (dictSet d2 thisFiledir ⟨some zi, none⟩)

/-- The initial dictionary of `get_zipinfo` (zipls.py:512): the tree root. -/
def initDict : ZDict := [([], ⟨none, some []⟩)]

/-- `get_zipinfo` (zipls.py:493): fold the entry list over the tree builder.
The archive reading itself is a collaborator; its output is `entries`. -/
def getZipinfo (args : Args) (entries : List ZipInfo) : Except LsError ZDict :=
  entries.foldlM (stepEntry args) initDict

/-- `ls_filter` (zipls.py:345): list a pathspec.  Missing path raises
`NoSuchFileDirError`; a directory (unless `-d`) lists its children,
skipping dot-names unless `-a`; otherwise the pathspec itself is returned. -/
def lsFilter (d : ZDict) (pathspec : Str) (args : Args) :
    Except LsError (List (Str × Option ZipInfo)) :=
  match dlookup d pathspec with
  | none => Except.error LsError.noSuchFileDir
  | some node =>
    match node.children with
    | some kids =>
      if ¬ args.directory then
        (kids.filter (fun c => ¬ strStartsWith c ['.'] ∨ args.all)).mapM
          (fun c =>
            match dlookup d (pathJoin [pathspec, c]) with
            | some cn => Except.ok (c, cn.zipinfo)
            | none => Except.error LsError.crash)
      else
        Except.ok [(pathspec, node.zipinfo)]
    | none => Except.ok [(pathspec, node.zipinfo)]

/-- The paths visited by the loop of `create_node_and_ancestors` after the
already-handled components `pre`: the join of `pre ++ [c]` for each further
component, shallowest first. -/
def loopChain : List Str → List Str → List Str
  | _, [] => []
  | pre, c :: rest => pathJoin (pre ++ [c]) :: loopChain (pre ++ [c]) rest

/-- The ancestor chain of a path name: the joins of its first `i` segments
for `i = 1, …, #segments`, shallowest first. -/
def ancChain (name : Str) : List Str :=
  loopChain [[]] (splitSlash name)


/-! ### The glob matcher: `glob_to_re` (zipls.py:314) and the `re` collaborator

`glob_to_re` builds a Python regular expression string from the glob via
`re.escape` and four `re.sub` rewrites, and the matcher is
`compiled.search(candidate)`.  We model `re.escape` and the substitutions
exactly, and model the `re` engine on the fragment of regexes that this
pipeline can produce: literals, backslash escapes, character classes,
the `*` quantifier, and the `^`/`$` anchors (with Python's semantics that
`$` also matches just before a final newline).  Inside a class we treat
`\x` as the literal member `x` and a bare `-` as a literal; a bare `-`
cannot occur in a generated class because `re.escape` escapes `-`.
Inputs outside the fragment (e.g. a quantifier with nothing to repeat or an
unterminated class) make the parse fail, exactly where `re.compile` raises.
-/

/-- The characters Python 3.7+ `re.escape` prefixes with a backslash. -/
def pySpecialChars : List Char :=
  ['(', ')', '[', ']', '{', '}', '?', '*', '+', '-', '|', '^', '$', '\\',
   '.', '&', '~', '#', ' ', '\t', '\n', '\r', '\x0b', '\x0c']

/-- Python `re.escape` on one character. -/
def escChar (c : Char) : Str :=
  if c ∈ pySpecialChars then ['\\', c] else [c]

/-- Python `re.escape`. -/
def reEscape (s : Str) : Str :=
  List.flatten (s.map escChar)

/-- Helper for `re.search(r"\[.+\]", s)`: from the current position, can we
read one or more non-newline characters followed by `]`?  `seen` records
whether at least one character of the `.+` has been consumed. -/
def plusThenRB : Str → Bool → Bool
  | [], _ => false
  | c :: rest, seen =>
    (seen && (c == ']')) || ((c != '\n') && plusThenRB rest true)

/-- `re.search(r"\[.+\]", s)` as a Boolean. -/
def bracketClassTrigger : Str → Bool
  | [] => false
  | c :: rest => ((c == '[') && plusThenRB rest false) || bracketClassTrigger rest

/-- The glob test used by `glob_to_re` and `glob_recurse` (zipls.py:318,395):
the string contains `*`, `?`, or a `[...]` bracket with at least one
character inside. -/
def containsGlobChar (s : Str) : Bool :=
  s.contains '*' || s.contains '?' || bracketClassTrigger s

/-- Leftmost non-overlapping replacement of the two-character pattern
`\t` by `repl`: Python `re.sub("\\\\" + t, repl, s)` for a single literal
character `t`. -/
def subEsc (t : Char) (repl : Str) : Str → Str
  | [] => []
  | [c] => [c]
  | c1 :: c2 :: rest =>
    if c1 = '\\' ∧ c2 = t then repl ++ subEsc t repl rest
    else c1 :: subEsc t repl (c2 :: rest)

/-- The regex source string `glob_to_re` compiles (zipls.py:317-327). -/
def globToReStr (g : Str) : Str :=
  let base := '^' :: reEscape g ++ ['$']
  if containsGlobChar g then
    subEsc ']' [']'] (subEsc '[' ['['] (subEsc '?' "[^/]".toList
      (subEsc '*' "[^/]*".toList base)))
  else base

/-- An atom of the generated regex fragment: a literal character or a
character class (possibly negated). -/
inductive RAtom where
  | lit (c : Char)
  | cls (neg : Bool) (members : List Char)
  deriving DecidableEq, Repr

/-- A token of the generated regex fragment. -/
inductive RTok where
  | atom (a : RAtom)
  | star (a : RAtom)
  | caret
  | dollar
  deriving DecidableEq, Repr

/-- Parser modes for the regex fragment. -/
inductive PMode where
  | norm
  | esc
  | clsStart (neg : Bool)
  | clsBody (neg : Bool) (mem : List Char)
  | clsEsc (neg : Bool) (mem : List Char)
  deriving DecidableEq, Repr

/-- Parser state: tokens so far (reversed), current mode, error flag. -/
structure PState where
  toksRev : List RTok
  mode : PMode
  ok : Bool
  deriving DecidableEq, Repr

def pInit : PState := ⟨[], PMode.norm, true⟩

def pFail (s : PState) : PState := ⟨s.toksRev, s.mode, false⟩

/-- One character of regex parsing, mirroring Python `re.compile` on the
generated fragment (`*` attaches to the previous atom; `^` negates only as
the first class character; a leading `]` in a class is a literal member). -/
def pstep (s : PState) (c : Char) : PState :=
  if s.ok = false then s else
  match s.mode with
  | PMode.norm =>
    if c = '^' then ⟨RTok.caret :: s.toksRev, PMode.norm, true⟩
    else if c = '$' then ⟨RTok.dollar :: s.toksRev, PMode.norm, true⟩
    else if c = '\\' then ⟨s.toksRev, PMode.esc, true⟩
    else if c = '[' then ⟨s.toksRev, PMode.clsStart false, true⟩
    else if c = '*' then
      match s.toksRev with
      | RTok.atom a :: rest => ⟨RTok.star a :: rest, PMode.norm, true⟩
      | _ => pFail s
    else ⟨RTok.atom (RAtom.lit c) :: s.toksRev, PMode.norm, true⟩
  | PMode.esc =>
    if c.isAlphanum then pFail s
    else ⟨RTok.atom (RAtom.lit c) :: s.toksRev, PMode.norm, true⟩
  | PMode.clsStart neg =>
    if c = '^' ∧ neg = false then ⟨s.toksRev, PMode.clsStart true, true⟩
    else if c = '\\' then ⟨s.toksRev, PMode.clsEsc neg [], true⟩
    else ⟨s.toksRev, PMode.clsBody neg [c], true⟩
  | PMode.clsBody neg mem =>
    if c = ']' then ⟨RTok.atom (RAtom.cls neg mem) :: s.toksRev, PMode.norm, true⟩
    else if c = '\\' then ⟨s.toksRev, PMode.clsEsc neg mem, true⟩
    else ⟨s.toksRev, PMode.clsBody neg (mem ++ [c]), true⟩
  | PMode.clsEsc neg mem =>
    if c.isAlphanum then pFail s
    else ⟨s.toksRev, PMode.clsBody neg (mem ++ [c]), true⟩

/-- Parse a regex source string of the generated fragment into tokens;
`none` models a `re.compile` error. -/
def parseToks (cs : Str) : Option (List RTok) :=
  let s := cs.foldl pstep pInit
  match s.mode, s.ok with
  | PMode.norm, true => some s.toksRev.reverse
  | _, _ => none

/-- Does an atom match one character? -/
def atomMatch : RAtom → Char → Bool
  | RAtom.lit c, x => x == c
  | RAtom.cls neg mem, x => if neg then !(mem.contains x) else mem.contains x

/-- Does the token list match the part of `s` that starts at position `p`
(leaving any suffix unconstrained, as `re.search` does)?  `$` matches at the
end of the string or just before a final newline — Python semantics. -/
def matchToks : List RTok → Str → Nat → Bool
  | [], _, _ => true
  | RTok.caret :: ts, s, p => (p == 0) && matchToks ts s p
  | RTok.dollar :: ts, s, p =>
    ((p == s.length) || ((p + 1 == s.length) && (s.getD p ' ' == '\n')))
      && matchToks ts s p
  | RTok.atom a :: ts, s, p =>
    decide (p < s.length) && atomMatch a (s.getD p ' ') && matchToks ts s (p + 1)
  | RTok.star a :: ts, s, p =>
    (List.range (s.length - p + 1)).any (fun k =>
      ((List.range k).all (fun i => atomMatch a (s.getD (p + i) ' ')))
        && matchToks ts s (p + k))

/-- `compiled.search(s)`: try every start position. -/
def reSearch (toks : List RTok) (s : Str) : Bool :=
  (List.range (s.length + 1)).any (fun p => matchToks toks s p)

/-- `glob_to_re` (zipls.py:314): the compiled matcher, `none` when
`re.compile` raises on the generated source. -/
def globToRe (g : Str) : Option (List RTok) :=
  parseToks (globToReStr g)

/-- The whole matcher: compile the glob and search the candidate.  (`false`
when compilation fails; the resolver treats that case as a crash.) -/
def globMatch (g : Str) (cand : Str) : Bool :=
  match globToRe g with
  | some toks => reSearch toks cand
  | none => false

/-! ### The glob resolver: `glob_recurse` and `glob_filter` -/

/-- Errors of the resolver: `fuelOut` models non-termination of the Python
recursion within the given fuel, `reError` a `re.compile` crash. -/
inductive GlobError where
  | fuelOut
  | reError
  deriving DecidableEq, Repr

/-- The anchor decomposition of `glob_recurse` (zipls.py:392-403): the join
of the longest wildcard-free prefix of the segments, the first wildcard
segment (if any), and the join of the remaining tail. -/
def anchorOf (path : Str) : Str × Option Str × Str :=
  let segs := splitSlash path
  let fg := (segs.takeWhile (fun s => !(containsGlobChar s))).length
  (pathJoin (segs.take fg), segs.get? fg, pathJoin (segs.drop (fg + 1)))

/-- `glob_recurse` (zipls.py:383), with fuel: if the anchor is absent the
branch yields nothing; with no wildcard left the anchor itself is the match;
otherwise every child of the anchor directory matching the wildcard segment
is recursed into, results concatenated in children order. -/
def globRecurse : Nat → Str → ZDict → Except GlobError (List Str)
  | 0, _, _ => Except.error GlobError.fuelOut
  | fuel + 1, path, d =>
    let a := anchorOf path
    match dlookup d a.1 with
    | none => Except.ok []
    | some pn =>
      match a.2.1 with
      | none => Except.ok [a.1]
      | some mid =>
        match pn.children with
        | none => Except.ok []
        | some kids =>
          match globToRe mid with
          | none => Except.error GlobError.reError
          | some toks =>
            (kids.filter (fun k => reSearch toks k)).foldlM
              (fun acc m =>
                (globRecurse fuel (pathJoin [a.1, m, a.2.2]) d).map
                  (fun r => acc ++ r))
              []

/-- `glob_filter` (zipls.py:421): per pathspec, strip trailing slashes,
resolve, and fall back to the literal stripped pathspec when the resolution
is empty. -/
def globFilter (fuel : Nat) (internalPaths : List Str) (d : ZDict) :
    Except GlobError (List Str) :=
  internalPaths.foldlM
    (fun acc p =>
      let p2 := rstripSlash p
      (globRecurse fuel p2 d).map
        (fun globPaths => acc ++ (if globPaths = [] then [p2] else globPaths)))
    []

/-! ### The specification's glob semantics (for claim C6)

`specGlobMatch` follows the specification's words, not the code: `*` is zero
or more non-`/` characters, `?` exactly one non-`/` character, a bracket
class `[...]` one character of the class, every other character itself. -/

def specStarLoop (next : Str → Bool) : Str → Bool
  | [] => next []
  | c :: cs2 => next (c :: cs2) || ((c != '/') && specStarLoop next cs2)

/-- Worker for `specGlobMatch`, structurally recursive on a fuel that is
always instantiated with the pattern length (every recursive call strictly
shrinks the pattern). -/
def specGlobMatchAux : Nat → Str → Str → Bool
  | _, [], cs => cs.isEmpty
  | 0, _ :: _, _ => false
  | fuel + 1, p :: ps, cs =>
    if p = '*' then specStarLoop (specGlobMatchAux fuel ps) cs
    else if p = '?' then
      (match cs with
       | [] => false
       | c :: cs2 => (c != '/') && specGlobMatchAux fuel ps cs2)
    else if p = '[' then
      (if ']' ∈ ps then
        (match cs with
         | [] => false
         | c :: cs2 =>
           (ps.takeWhile (fun x => x != ']')).contains c
             && specGlobMatchAux fuel ((ps.dropWhile (fun x => x != ']')).tail) cs2)
      else
        (match cs with
         | [] => false
         | c :: cs2 => (c == '[') && specGlobMatchAux fuel ps cs2))
    else
      (match cs with
       | [] => false
       | c :: cs2 => (c == p) && specGlobMatchAux fuel ps cs2)

def specGlobMatch (ps cs : Str) : Bool :=
  specGlobMatchAux ps.length ps cs

/-- The per-character image of the `glob_to_re` pipeline on patterns that
contain no backslash and no square bracket: `*` becomes `[^/]*`, `?` becomes
`[^/]`, everything else its `re.escape` image. -/
def globImage (c : Char) : Str :=
  if c = '*' then "[^/]*".toList
  else if c = '?' then "[^/]".toList
  else escChar c

/-- The per-character token of the compiled regex on such patterns. -/
def globTok (c : Char) : RTok :=
  if c = '*' then RTok.star (RAtom.cls true ['/'])
  else if c = '?' then RTok.atom (RAtom.cls true ['/'])
  else RTok.atom (RAtom.lit c)

/-! ### Concrete inputs used by witnesses and counterexamples -/

/-- Default switches: no `-a`, no `-d`, no `--hide_macosx`. -/
def args0 : Args := ⟨false, false, false⟩

/-- An explicit directory entry `a/`. -/
def ziDirA : ZipInfo := ⟨"a/".toList, 1, 0, 0⟩

/-- A file entry whose normalized path `a` collides with `ziDirA`. -/
def ziFileA : ZipInfo := ⟨"a".toList, 2, 0, 0⟩

/-- A pathological member named `/`, whose normalized path is empty. -/
def ziSlash : ZipInfo := ⟨"/".toList, 7, 0, 0⟩

/-- A deep file entry with no explicit ancestor directory entries. -/
def ziDeep : ZipInfo := ⟨"a/b/c.txt".toList, 5, 0, 0⟩

/-- The tree built from the single entry `a/`: a root and a directory `a`. -/
def exampleDictA : ZDict :=
  [([], ⟨none, some [['a']]⟩), (['a'], ⟨some ziDirA, some []⟩)]

/-- A file entry named `a*b` — glob metacharacters inside a member name. -/
def ziStarName : ZipInfo := ⟨"a*b".toList, 4, 0, 0⟩

/-- The tree built from the single file entry `a*b`. -/
def exampleDictStarName : ZDict :=
  [([], ⟨none, some ["a*b".toList]⟩),
   ("a*b".toList, ⟨some ziStarName, none⟩)]

/-- A root with the three children of the specification's hidden-name
scenario, two of them ordinary files and one dot-file. -/
def exampleDictHidden : ZDict :=
  [([], ⟨none, some ["a.txt".toList, ".hidden".toList, "b".toList]⟩),
   ("a.txt".toList, ⟨some ⟨"a.txt".toList, 1, 0, 0⟩, none⟩),
   (".hidden".toList, ⟨some ⟨".hidden".toList, 2, 0, 0⟩, none⟩),
   (['b'], ⟨some ⟨"b".toList, 3, 0, 0⟩, none⟩)]

/-- A root with one file child `a`. -/
def exampleDictFile : ZDict :=
  [([], ⟨none, some [['a']]⟩), (['a'], ⟨some ziFileA, none⟩)]

/-- A dictionary with a root and one empty directory `e`. -/
def exampleDictE : ZDict :=
  [([], ⟨none, some [['e']]⟩), (['e'], ⟨some ⟨"e/".toList, 0, 0, 0⟩, some []⟩)]

def exceptDecEq {ε α : Type} [DecidableEq ε] [DecidableEq α] :
    (a b : Except ε α) → Decidable (a = b)
  | Except.ok a, Except.ok b =>
    if h : a = b then isTrue (by rw [h])
    else isFalse (by intro hh; cases hh; exact h rfl)
  | Except.ok _, Except.error _ => isFalse (fun hh => Except.noConfusion hh)
  | Except.error _, Except.ok _ => isFalse (fun hh => Except.noConfusion hh)
  | Except.error a, Except.error b =>
    if h : a = b then isTrue (by rw [h])
    else isFalse (by intro hh; cases hh; exact h rfl)

instance {ε α : Type} [DecidableEq ε] [DecidableEq α] : DecidableEq (Except ε α) :=
  exceptDecEq

/-! ### Order-independence of the tree builder (claim C8)

`n_path` is the normalized path of an entry, `segs_of` its slash-separated
segments.  `KeyP P q` says that `q` is the join of a nonempty segment prefix
of some entry of `P` — these are exactly the non-root keys the builder
creates while processing `P`.  `ChildRel P q c` says that some entry of `P`
passes through directory `q` with next segment `c` — these are exactly the
children the builder registers under `q`.  `AtP P q e` says `e` is an entry
of `P` whose normalized path is `q`.  All three depend on `P` only through
membership, which is what makes the build order-independent. -/

def nPath (e : ZipInfo) : Str := rstripSlash e.filename

def segsOf (e : ZipInfo) : List Str := splitSlash (nPath e)

def KeyP (P : List ZipInfo) (q : Str) : Prop :=
  ∃ e, e ∈ P ∧ ∃ k, 0 < k ∧ k ≤ (segsOf e).length ∧
    pathJoin ((segsOf e).take k) = q

def ChildRel (P : List ZipInfo) (q : Str) (c : Str) : Prop :=
  ∃ e, e ∈ P ∧ ∃ k, k < (segsOf e).length ∧
    pathJoin ((segsOf e).take k) = q ∧ (segsOf e).getD k [] = c

def AtP (P : List ZipInfo) (q : Str) (e : ZipInfo) : Prop :=
  e ∈ P ∧ nPath e = q

/-- The edges that one run of the `create_node_and_ancestors` loop adds to
the dictionary `d`: walking components `rest` below prefix `pre`, the loop
registers child `c` under the node at `pathJoin pre` exactly when the node
one level down is absent from `d`. -/
def ChainEdge (d : ZDict) : List Str → List Str → Str → Str → Prop
  | _, [], _, _ => False
  | pre, c :: rest, q, x =>
      (q = pathJoin pre ∧ x = c ∧ dlookup d (pathJoin (pre ++ [c])) = none)
      ∨ ChainEdge d (pre ++ [c]) rest q x

/-- The builder invariant: after processing the entries of `P` (in any
order), the root is an entry-less directory whose children are the first
segments of the processed paths; the non-root keys are exactly `KeyP P`;
a node carries the zipinfo of the entry at its path once that entry has
been processed; a node is a file exactly when a file entry at its path has
been processed; and the children of a directory node are exactly
`ChildRel P`. -/
structure BuildInv (P : List ZipInfo) (d : ZDict) : Prop where
  root : ∃ rk, dlookup d [] = some ⟨none, some rk⟩ ∧
      ∀ c, c ∈ rk ↔ ChildRel P [] c
  keyset : ∀ q, q ≠ ([] : Str) → ((dlookup d q).isSome = true ↔ KeyP P q)
  zinfo : ∀ q n e, q ≠ ([] : Str) → dlookup d q = some n → AtP P q e →
      n.zipinfo = some e
  fileK : ∀ q n, q ≠ ([] : Str) → dlookup d q = some n →
      (n.children = none ↔ ∃ e, AtP P q e ∧ e.isDir = false)
  kids : ∀ q n cs, q ≠ ([] : Str) → dlookup d q = some n →
      n.children = some cs → ∀ c, c ∈ cs ↔ ChildRel P q c

/-- Tree isomorphism in the sense of claim C8: the same paths are present,
and corresponding nodes agree on metadata, on directory/file kind, and on
the set of children names. -/
def treeIso (d d' : ZDict) : Prop :=
  (∀ q, (dlookup d q).isSome = (dlookup d' q).isSome) ∧
  (∀ q n n', dlookup d q = some n → dlookup d' q = some n' →
     n.zipinfo = n'.zipinfo ∧
     (n.children = none ↔ n'.children = none) ∧
     (∀ cs cs', n.children = some cs → n'.children = some cs' →
        ∀ c, c ∈ cs ↔ c ∈ cs'))

/-- A file entry `a/x`; its parent directory `a` has no explicit entry. -/
def ziAX : ZipInfo := ⟨"a/x".toList, 11, 0, 0⟩

/-- A file entry `a/y`; its parent directory `a` has no explicit entry. -/
def ziAY : ZipInfo := ⟨"a/y".toList, 12, 0, 0⟩

/-! ### Dictionary lemmas -/

theorem dlookup_dictSet_self (d : ZDict) (k : Str) (v : FileDirNode) :
    dlookup (dictSet d k v) k = some v := by
  induction d with
  | nil => simp [dictSet, dlookup]
  | cons h t ih =>
    obtain ⟨k', v'⟩ := h
    by_cases hk : k' = k <;> simp [dictSet, dlookup, hk, ih]

theorem dlookup_dictSet_ne (d : ZDict) (k : Str) (v : FileDirNode) (k' : Str)
    (h : k ≠ k') : dlookup (dictSet d k v) k' = dlookup d k' := by
  induction d with
  | nil => simp [dictSet, dlookup, h]
  | cons hd t ih =>
    obtain ⟨k₀, v₀⟩ := hd
    by_cases hk : k₀ = k
    · subst hk
      simp [dictSet, dlookup, h]
    · by_cases hk' : k₀ = k'
      · subst hk'
        simp [dictSet, dlookup, hk, Ne.symm h]
      · simp [dictSet, dlookup, hk, hk', ih]

theorem dlookup_eq_none_iff (d : ZDict) (k : Str) :
    dlookup d k = none ↔ k ∉ d.map Prod.fst := by
  induction d with
  | nil => simp [dlookup]
  | cons h t ih =>
    obtain ⟨k', v'⟩ := h
    by_cases hk : k' = k
    · simp [dlookup, hk]
    · simp only [dlookup, hk, if_false, ih, List.map_cons, List.mem_cons]
      constructor
      · intro h1 h2
        rcases h2 with h2 | h2
        · exact hk h2.symm
        · exact h1 h2
      · intro h1 h2
        exact h1 (Or.inr h2)

theorem mapfst_dictSet_mem (d : ZDict) (k : Str) (v : FileDirNode)
    (h : k ∈ d.map Prod.fst) :
    (dictSet d k v).map Prod.fst = d.map Prod.fst := by
  induction d with
  | nil => simp at h
  | cons hd t ih =>
    obtain ⟨k', v'⟩ := hd
    by_cases hk : k' = k
    · simp [dictSet, hk]
    · have h2 : k = k' ∨ k ∈ t.map Prod.fst := by simpa using h
      have hkt : k ∈ t.map Prod.fst := by
        rcases h2 with h1 | h1
        · exact absurd h1.symm hk
        · exact h1
      simp [dictSet, hk, ih hkt]

theorem mapfst_dictSet_new (d : ZDict) (k : Str) (v : FileDirNode)
    (h : k ∉ d.map Prod.fst) :
    (dictSet d k v).map Prod.fst = d.map Prod.fst ++ [k] := by
  induction d with
  | nil => simp [dictSet]
  | cons hd t ih =>
    obtain ⟨k', v'⟩ := hd
    have hk : k' ≠ k := by
      intro hh
      exact h (by simp [hh])
    have hkt : k ∉ t.map Prod.fst := fun hh => h (by simp [hh])
    simp [dictSet, hk, ih hkt]

/-! ### Path lemmas -/

theorem joinNE_append_single (l : List Str) (c : Str) :
    joinNE (l ++ [c]) = if l = [] then c else joinNE l ++ '/' :: c := by
  induction l with
  | nil => simp [joinNE]
  | cons p rest ih =>
    cases rest with
    | nil => simp [joinNE]
    | cons q rest' =>
      have : joinNE ((p :: q :: rest') ++ [c])
          = p ++ '/' :: joinNE ((q :: rest') ++ [c]) := rfl
      rw [this, ih]
      simp [joinNE]

theorem pathJoin_append_single (pre : List Str) (c : Str) (hc : c ≠ []) :
    pathJoin (pre ++ [c])
      = if pre.filter (fun p => p ≠ []) = [] then c
        else pathJoin pre ++ '/' :: c := by
  unfold pathJoin
  rw [List.filter_append]
  simp only [List.filter_cons, List.filter_nil]
  rw [if_pos (by simpa using hc)]
  exact joinNE_append_single _ _

theorem pathJoin_length_lt (pre : List Str) (c : Str) (hc : c ≠ []) :
    (pathJoin pre).length < (pathJoin (pre ++ [c])).length := by
  rw [pathJoin_append_single pre c hc]
  by_cases h : pre.filter (fun p => p ≠ []) = []
  · rw [if_pos h]
    unfold pathJoin
    rw [h]
    simp [joinNE]
    exact List.length_pos.mpr hc
  · rw [if_neg h]
    simp

theorem loopChain_length_gt :
    ∀ (rest : List Str) (pre : List Str), (∀ c ∈ rest, c ≠ []) →
      ∀ p ∈ loopChain pre rest, (pathJoin pre).length < p.length := by
  intro rest
  induction rest with
  | nil => intro pre _ p hp; simp [loopChain] at hp
  | cons c rest ih =>
    intro pre hne p hp
    rcases (by simpa [loopChain] using hp : p = pathJoin (pre ++ [c]) ∨
        p ∈ loopChain (pre ++ [c]) rest) with h | h
    · rw [h]
      exact pathJoin_length_lt pre c (hne c (by simp))
    · exact lt_trans (pathJoin_length_lt pre c (hne c (by simp)))
        (ih (pre ++ [c]) (fun x hx => hne x (by simp [hx])) p h)

/-- Characterization of the loop of `create_node_and_ancestors`: starting at
an existing directory node `pathJoin pre`, with every already-existing node
on the remaining chain a directory, the loop succeeds, appends exactly the
missing chain paths to the dictionary in chain (shallowest-first) order,
creates each of them as a directory node carrying the triggering entry's
zipinfo, and preserves the zipinfo and the directory-or-file kind of every
pre-existing node. -/
theorem cnaaLoop_spec (zi : ZipInfo) :
    ∀ (rest : List Str) (d : ZDict) (pre : List Str),
    (∀ c ∈ rest, c ≠ []) →
    (∃ rn, dlookup d (pathJoin pre) = some rn ∧ (rn.children).isSome = true) →
    (∀ p ∈ loopChain pre rest, ∀ n, dlookup d p = some n →
      (n.children).isSome = true) →
    ∃ d', cnaaLoop zi d pre rest = Except.ok d' ∧
      d'.map Prod.fst = d.map Prod.fst
          ++ (loopChain pre rest).filter (fun p => dlookup d p = none) ∧
      (∀ p ∈ loopChain pre rest, dlookup d p = none →
        ∃ ks, dlookup d' p = some ⟨some zi, some ks⟩) ∧
      (∀ q n, dlookup d q = some n → ∃ n', dlookup d' q = some n' ∧
        n'.zipinfo = n.zipinfo ∧ (n'.children).isSome = (n.children).isSome) := by
  intro rest
  induction rest with
  | nil =>
    intro d pre _ _ _
    refine ⟨d, rfl, by simp [loopChain], by simp [loopChain],
      fun q n h => ⟨n, h, rfl, rfl⟩⟩
  | cons c rest ih =>
    intro d pre hne hparent hdirs
    obtain ⟨rn, hrn, hrnc⟩ := hparent
    have hc : c ≠ [] := hne c (by simp)
    have hne' : ∀ x ∈ rest, x ≠ [] := fun x hx => hne x (by simp [hx])
    have hchain : loopChain pre (c :: rest)
        = pathJoin (pre ++ [c]) :: loopChain (pre ++ [c]) rest := rfl
    by_cases hmem : dlookup d (pathJoin (pre ++ [c])) = none
    · -- the node is missing: create it
      have hme_gt : (pathJoin pre).length < (pathJoin (pre ++ [c])).length :=
        pathJoin_length_lt pre c hc
      obtain ⟨kids, hkids⟩ : ∃ kids, rn.children = some kids := by
        cases hrc : rn.children with
        | none => rw [hrc] at hrnc; cases hrnc
        | some kids => exact ⟨kids, rfl⟩
      have hpar_ne : pathJoin pre ≠ pathJoin (pre ++ [c]) := by
        intro hh
        rw [hh] at hme_gt
        exact lt_irrefl _ hme_gt
      set d1 := dictSet d (pathJoin pre) ⟨rn.zipinfo, some (kidsAdd kids c)⟩ with hd1
      set d2 := dictSet d1 (pathJoin (pre ++ [c])) ⟨some zi, some []⟩ with hd2
      have hl_d2_me : dlookup d2 (pathJoin (pre ++ [c]))
          = some ⟨some zi, some []⟩ := dlookup_dictSet_self _ _ _
      -- lookups in d2 at strictly longer chain paths agree with d
      have hl_d2_far : ∀ p ∈ loopChain (pre ++ [c]) rest, dlookup d2 p = dlookup d p := by
        intro p hp
        have h1 : (pathJoin (pre ++ [c])).length < p.length :=
          loopChain_length_gt rest (pre ++ [c]) hne' p hp
        have hne1 : pathJoin (pre ++ [c]) ≠ p := fun hh => by
          rw [hh] at h1; exact lt_irrefl _ h1
        have hne2 : pathJoin pre ≠ p := fun hh => by
          rw [hh] at hme_gt
          exact lt_irrefl _ (lt_trans hme_gt h1)
        rw [hd2, dlookup_dictSet_ne _ _ _ _ hne1, hd1, dlookup_dictSet_ne _ _ _ _ hne2]
      obtain ⟨d', hrun, hkeys, hnew, hpres⟩ := ih d2 (pre ++ [c]) hne'
        ⟨⟨some zi, some []⟩, hl_d2_me, rfl⟩
        (by
          intro p hp n hn
          rw [hl_d2_far p hp] at hn
          exact hdirs p (by rw [hchain]; exact List.mem_cons_of_mem _ hp) n hn)
      refine ⟨d', ?_, ?_, ?_, ?_⟩
      · simp only [cnaaLoop, hmem, hrn, hkids]
        exact hrun
      · -- key order
        have hparent_mem : pathJoin pre ∈ d.map Prod.fst := by
          by_contra hnm
          rw [← dlookup_eq_none_iff] at hnm
          rw [hnm] at hrn
          cases hrn
        have hme_nm : pathJoin (pre ++ [c]) ∉ d1.map Prod.fst := by
          rw [hd1, mapfst_dictSet_mem _ _ _ hparent_mem, ← dlookup_eq_none_iff]
          exact hmem
        have h2 : d2.map Prod.fst = d.map Prod.fst ++ [pathJoin (pre ++ [c])] := by
          rw [hd2, mapfst_dictSet_new _ _ _ hme_nm, hd1,
            mapfst_dictSet_mem _ _ _ hparent_mem]
        rw [hkeys, h2, hchain]
        rw [List.filter_congr (fun p hp => by rw [hl_d2_far p hp])]
        rw [List.filter_cons]
        simp [hmem]
      · -- new nodes are directories carrying zi
        intro p hp hpnone
        rw [hchain] at hp
        rcases List.mem_cons.mp hp with h | h
        · subst h
          obtain ⟨n', hn', hz, hcs⟩ := hpres _ _ hl_d2_me
          obtain ⟨ks, hks⟩ : ∃ ks, n'.children = some ks := by
            cases hcc : n'.children with
            | none => rw [hcc] at hcs; cases hcs
            | some ks => exact ⟨ks, rfl⟩
          refine ⟨ks, ?_⟩
          rw [hn']
          congr 1
          cases n' with
          | mk a b =>
            simp only at hz hks
            rw [hz, hks]
        · have : dlookup d2 p = none := by rw [hl_d2_far p h]; exact hpnone
          exact hnew p h this
      · -- preservation of pre-existing nodes
        intro q n hq
        by_cases hq1 : pathJoin pre = q
        · subst hq1
          rw [hrn] at hq
          cases hq
          have hl : dlookup d2 (pathJoin pre) = some ⟨rn.zipinfo, some (kidsAdd kids c)⟩ := by
            rw [hd2, dlookup_dictSet_ne _ _ _ _ (Ne.symm hpar_ne), hd1]
            exact dlookup_dictSet_self _ _ _
          obtain ⟨n', hn', hz, hcs⟩ := hpres _ _ hl
          exact ⟨n', hn', by simpa using hz, by rw [hcs]; simp [hkids]⟩
        · by_cases hq2 : pathJoin (pre ++ [c]) = q
          · rw [← hq2, hmem] at hq
            cases hq
          · have hl : dlookup d2 q = some n := by
              rw [hd2, dlookup_dictSet_ne _ _ _ _ hq2, hd1,
                dlookup_dictSet_ne _ _ _ _ hq1]
              exact hq
            exact hpres _ _ hl
    · -- the node exists already: skip it
      obtain ⟨mn, hmn⟩ : ∃ mn, dlookup d (pathJoin (pre ++ [c])) = some mn := by
        cases hh : dlookup d (pathJoin (pre ++ [c])) with
        | none => exact absurd hh hmem
        | some mn => exact ⟨mn, rfl⟩
      have hdirMe : (mn.children).isSome = true :=
        hdirs _ (by rw [hchain]; simp) mn hmn
      obtain ⟨d', hrun, hkeys, hnew, hpres⟩ := ih d (pre ++ [c]) hne'
        ⟨mn, hmn, hdirMe⟩
        (fun p hp n hn => hdirs p (by rw [hchain]; exact List.mem_cons_of_mem _ hp) n hn)
      refine ⟨d', ?_, ?_, ?_, hpres⟩
      · simp only [cnaaLoop, hmn]
        exact hrun
      · rw [hkeys, hchain, List.filter_cons]
        simp [hmn]
      · intro p hp hpnone
        rw [hchain] at hp
        rcases List.mem_cons.mp hp with h | h
        · subst h
          rw [hmn] at hpnone
          cases hpnone
        · exact hnew p h hpnone

/-! ### C1: `ls_filter` distinguishes `NotFound` from an empty directory -/

/-- Claim C1: for every tree and pathspec, if the pathspec is not a key of
the tree then `ls_filter` fails with `NoSuchFileDirError`; if it names an
existing directory with zero children and `-d` is not set, the result is the
empty sequence, not a failure.  (Stated for an arbitrary dictionary, which in
particular covers every tree `get_zipinfo` builds.) -/
theorem claim1_notFound_vs_emptyDir (d : ZDict) (p : Str) (args : Args) :
    (dlookup d p = none → lsFilter d p args = Except.error LsError.noSuchFileDir) ∧
    (∀ n, dlookup d p = some n → n.children = some [] → args.directory = false →
        lsFilter d p args = Except.ok []) := by
  constructor
  · intro h
    simp [lsFilter, h]
  · intro n h hc hd
    simp [lsFilter, h, hc, hd, List.mapM.loop, pure, Except.pure]

theorem claim1_witness :
    lsFilter exampleDictE ['x'] ⟨false, false, false⟩
        = Except.error LsError.noSuchFileDir ∧
    lsFilter exampleDictE ['e'] ⟨false, false, false⟩ = Except.ok [] :=
  ⟨(claim1_notFound_vs_emptyDir exampleDictE ['x'] ⟨false, false, false⟩).1 (by decide),
   (claim1_notFound_vs_emptyDir exampleDictE ['e'] ⟨false, false, false⟩).2
     ⟨some ⟨"e/".toList, 0, 0, 0⟩, some []⟩ (by decide) rfl rfl⟩

/-! ### C2: what a later entry at an existing path does -/

/-- Claim C2 is refuted: processing the directory entry `a/` creates a
directory node at path `a` (children mapping present), and the later file
entry `a` — equal path after trailing-slash normalization — replaces it by a
file node (children absent).  The established directory kind flips. -/
theorem claim2_counterexample :
    (getZipinfo args0 [ziDirA]).map
        (fun d => (dlookup d ['a']).map FileDirNode.children)
      = Except.ok (some (some [])) ∧
    (getZipinfo args0 [ziDirA, ziFileA]).map
        (fun d => (dlookup d ['a']).map FileDirNode.children)
      = Except.ok (some none) := by
  exact ⟨by decide, by decide⟩

/-- Claim C2 (amended): a later entry at an existing normalized path
overwrites the node's metadata; a *directory* entry preserves the node's
established kind (its children field is kept unchanged), while a *file*
entry unconditionally makes the node a file (children absent), flipping an
established directory kind. -/
theorem claim2_amended (args : Args) (d : ZDict) (zi : ZipInfo) (pn : FileDirNode)
    (kids : List Str)
    (hmac : ¬ (args.hideMacosx ∧ strStartsWith zi.filename "__MACOSX/".toList))
    (hp : dlookup d (rpartitionSlash (rstripSlash zi.filename)).1 = some pn)
    (hc : pn.children = some kids) :
    (∀ n, zi.isDir = true →
      (rpartitionSlash (rstripSlash zi.filename)).2 ∈ kids →
      dlookup d (rstripSlash zi.filename) = some n →
      stepEntry args d zi
        = Except.ok (dictSet d (rstripSlash zi.filename) ⟨some zi, n.children⟩)) ∧
    (zi.isDir = false →
      ∃ d2, stepEntry args d zi = Except.ok d2 ∧
        dlookup d2 (rstripSlash zi.filename) = some ⟨some zi, none⟩) := by
  constructor
  · intro n hdir hmem hn
    rw [stepEntry, if_neg hmac]
    simp [hp, hc, hdir, hmem, hn]
  · intro hdir
    refine ⟨dictSet (dictSet d (rpartitionSlash (rstripSlash zi.filename)).1
        ⟨pn.zipinfo, some (kidsAdd kids (rpartitionSlash (rstripSlash zi.filename)).2)⟩)
        (rstripSlash zi.filename) ⟨some zi, none⟩, ?_, dlookup_dictSet_self _ _ _⟩
    rw [stepEntry, if_neg hmac]
    simp [hp, hc, hdir]

theorem claim2_witness :
    ∃ d2, stepEntry args0 exampleDictA ziFileA = Except.ok d2 ∧
      dlookup d2 (rstripSlash ziFileA.filename) = some ⟨some ziFileA, none⟩ :=
  (claim2_amended args0 exampleDictA ziFileA ⟨none, some [['a']]⟩ [['a']]
    (by decide) (by decide) rfl).2 rfl

/-! ### C3: synthesized ancestors -/

/-- Claim C3 is refuted in its "no real ArchiveEntry" part: building the tree
from the single file entry `a/b/c.txt` synthesizes directory nodes at `a` and
`a/b`, but both carry that very entry's zipinfo (the code passes the current
entry's zipinfo to `create_node_and_ancestors`, zipls.py:528 and 489), not a
metadata-free placeholder. -/
theorem claim3_counterexample :
    (getZipinfo args0 [ziDeep]).map
        (fun d => (dlookup d ['a']).map FileDirNode.zipinfo)
      = Except.ok (some (some ziDeep)) ∧
    (getZipinfo args0 [ziDeep]).map
        (fun d => (dlookup d "a/b".toList).map FileDirNode.zipinfo)
      = Except.ok (some (some ziDeep)) ∧
    (getZipinfo args0 [ziDeep]).map
        (fun d => (dlookup d ['a']).map FileDirNode.children)
      = Except.ok (some (some ["b".toList])) := by
  exact ⟨by decide, by decide, by decide⟩

/-- `str.split` never returns an empty list of parts. -/
theorem splitSlash_ne_nil (s : Str) : splitSlash s ≠ [] := by
  cases s with
  | nil => simp [splitSlash]
  | cons c rest =>
    unfold splitSlash
    by_cases h : c = '/'
    · simp [h]
    · simp only [h, if_false]
      cases splitSlash rest <;> simp

/-- The ancestor chain of `a/b` is `[a, a/b]`, shallowest first. -/
theorem ancChain_ab : ancChain ("a/b".toList) = ["a".toList, "a/b".toList] := by
  decide

/-- Claim C3 (amended): when an entry's parent path is missing,
`create_node_and_ancestors` succeeds (provided the root exists and every
already-existing ancestor is a directory), appends exactly the missing
ancestors to the dictionary in shallowest-to-deepest order, creates each of
them as a *directory* node that carries the zipinfo of the entry being
processed (not a blank placeholder, contrary to the original claim), and
leaves the metadata and kind of every pre-existing node unchanged. -/
theorem claim3_amended (name : Str) (zi : ZipInfo) (d : ZDict)
    (hclean : [] ∉ splitSlash name)
    (hroot : ∃ rn, dlookup d [] = some rn ∧ (rn.children).isSome = true)
    (hdirs : ∀ p ∈ ancChain name, ∀ n, dlookup d p = some n →
      (n.children).isSome = true) :
    ∃ d', createNodeAndAncestors name zi d = Except.ok d' ∧
      d'.map Prod.fst = d.map Prod.fst
          ++ (ancChain name).filter (fun p => dlookup d p = none) ∧
      (∀ p ∈ ancChain name, dlookup d p = none →
        ∃ ks, dlookup d' p = some ⟨some zi, some ks⟩) ∧
      (∀ q n, dlookup d q = some n → ∃ n', dlookup d' q = some n' ∧
        n'.zipinfo = n.zipinfo ∧ (n'.children).isSome = (n.children).isSome) := by
  obtain ⟨rn, hrn, hrnc⟩ := hroot
  have hne : ∀ c ∈ splitSlash name, c ≠ [] := by
    intro c hmem hceq
    exact hclean (hceq ▸ hmem)
  have hj : pathJoin ([] ++ [([] : Str)]) = ([] : Str) := by decide
  have hj2 : pathJoin [[]] = ([] : Str) := by decide
  have hstep : createNodeAndAncestors name zi d
      = cnaaLoop zi d [[]] (splitSlash name) := by
    unfold createNodeAndAncestors
    cases hsp : splitSlash name with
    | nil => exact absurd hsp (splitSlash_ne_nil name)
    | cons c rest =>
      simp only [cnaaLoop, hj, hj2, hrn]
      rfl
  rw [hstep]
  obtain ⟨d', hrun, hkeys, hnew, hpres⟩ :=
    cnaaLoop_spec zi (splitSlash name) d [[]] hne
      ⟨rn, by rw [hj2]; exact hrn, hrnc⟩
      (fun p hp n hn => hdirs p hp n hn)
  exact ⟨d', hrun, hkeys, hnew, hpres⟩

theorem claim3_witness :
    ∃ d', createNodeAndAncestors ("a/b".toList) ziDeep initDict = Except.ok d' ∧
      d'.map Prod.fst = initDict.map Prod.fst
          ++ (ancChain ("a/b".toList)).filter (fun p => dlookup initDict p = none) ∧
      (∀ p ∈ ancChain ("a/b".toList), dlookup initDict p = none →
        ∃ ks, dlookup d' p = some ⟨some ziDeep, some ks⟩) ∧
      (∀ q n, dlookup initDict q = some n → ∃ n', dlookup d' q = some n' ∧
        n'.zipinfo = n.zipinfo ∧ (n'.children).isSome = (n.children).isSome) :=
  claim3_amended ("a/b".toList) ziDeep initDict (by decide)
    ⟨⟨none, some []⟩, by decide, by decide⟩
    (by
      intro p hp n hn
      rw [ancChain_ab] at hp
      have hpn : dlookup initDict p = none := by
        rcases List.mem_cons.mp hp with h | h
        · rw [h]; decide
        · rw [List.mem_singleton.mp h]; decide
      rw [hpn] at hn
      cases hn)

/-! ### C10: the root carries no ArchiveEntry -/

/-- Claim C10 is refuted as stated: an entry named `/` normalizes to the
empty path, so the builder re-binds the key `""` to a node that carries that
entry's zipinfo; `ls_filter` on the empty pathspec with `-d` then returns
that zipinfo instead of `None`. -/
theorem claim10_counterexample :
    (getZipinfo args0 [ziSlash]).map
        (fun d => (dlookup d []).map FileDirNode.zipinfo)
      = Except.ok (some (some ziSlash)) ∧
    (getZipinfo args0 [ziSlash]).map (fun d => lsFilter d [] ⟨false, true, false⟩)
      = Except.ok (Except.ok [([], some ziSlash)]) := by
  exact ⟨by decide, by decide⟩

/-- `create_node_and_ancestors` never touches the root's zipinfo, and keeps
the root a directory: it only adds children names to it. -/
theorem cnaaLoop_preserves_root (zi : ZipInfo) :
    ∀ (rest : List Str) (d : ZDict) (pre : List Str) (d' : ZDict),
    cnaaLoop zi d pre rest = Except.ok d' →
    (∃ kids, dlookup d [] = some ⟨none, some kids⟩) →
    ∃ kids, dlookup d' [] = some ⟨none, some kids⟩ := by
  intro rest
  induction rest with
  | nil =>
    intro d pre d' h hP
    cases h
    exact hP
  | cons c rest ih =>
    intro d pre d' h hP
    obtain ⟨kids0, hk0⟩ := hP
    cases hme : dlookup d (pathJoin (pre ++ [c])) with
    | some mn =>
      simp only [cnaaLoop, hme] at h
      exact ih d (pre ++ [c]) d' h ⟨kids0, hk0⟩
    | none =>
      have hmene : pathJoin (pre ++ [c]) ≠ [] := by
        intro hh
        rw [hh, hk0] at hme
        cases hme
      cases hpar : dlookup d (pathJoin pre) with
      | none =>
        simp only [cnaaLoop, hme, hpar] at h
        cases h
      | some pn =>
        cases hch : pn.children with
        | none =>
          simp only [cnaaLoop, hme, hpar, hch] at h
          cases h
        | some kids =>
          simp only [cnaaLoop, hme, hpar, hch] at h
          refine ih _ (pre ++ [c]) d' h ?_
          by_cases hpe : pathJoin pre = []
          · rw [hpe, hk0] at hpar
            cases hpar
            refine ⟨kidsAdd kids c, ?_⟩
            rw [dlookup_dictSet_ne _ _ _ _ hmene, hpe]
            simp only at hch
            cases hch
            exact dlookup_dictSet_self _ _ _
          · refine ⟨kids0, ?_⟩
            rw [dlookup_dictSet_ne _ _ _ _ hmene,
              dlookup_dictSet_ne _ _ _ _ hpe]
            exact hk0

/-- Storing a node at a nonempty key leaves the root unchanged. -/
theorem root_preserved_setOther (d1 : ZDict) (k : Str) (v : FileDirNode)
    (hk : k ≠ []) (h : ∃ ks, dlookup d1 [] = some ⟨none, some ks⟩) :
    ∃ ks, dlookup (dictSet d1 k v) [] = some ⟨none, some ks⟩ := by
  obtain ⟨ks, hl⟩ := h
  exact ⟨ks, by rw [dlookup_dictSet_ne _ _ _ _ hk]; exact hl⟩

/-- Replacing a parent node's children list (keeping its zipinfo) preserves
the root's zipinfo-free directory shape. -/
theorem root_preserved_setParent (d1 : ZDict) (p : Str) (pn : FileDirNode)
    (newKids : List Str) (hpar : dlookup d1 p = some pn)
    (h : ∃ ks, dlookup d1 [] = some ⟨none, some ks⟩) :
    ∃ ks, dlookup (dictSet d1 p ⟨pn.zipinfo, some newKids⟩) []
      = some ⟨none, some ks⟩ := by
  obtain ⟨ks, hl⟩ := h
  by_cases hp : p = []
  · subst hp
    have hpn : pn = ⟨none, some ks⟩ := by
      have h2 := hl
      rw [hpar] at h2
      exact Option.some_injective _ h2
    refine ⟨newKids, ?_⟩
    rw [hpn]
    exact dlookup_dictSet_self _ _ _
  · exact ⟨ks, by rw [dlookup_dictSet_ne _ _ _ _ hp]; exact hl⟩

/-- The insert phase of one `get_zipinfo` iteration (zipls.py:531-544)
preserves the root's zipinfo-free directory shape whenever the entry's
normalized path is nonempty. -/
theorem insertPhase_root (zi : ZipInfo) (d1 d' : ZDict) (pn : FileDirNode)
    (htf : rstripSlash zi.filename ≠ [])
    (hroot : ∃ ks, dlookup d1 [] = some ⟨none, some ks⟩)
    (h : (match pn.children with
          | none => Except.error LsError.crash
          | some kids =>
            if zi.isDir then
              if (rpartitionSlash (rstripSlash zi.filename)).2 ∈ kids then
                match dlookup d1 (rstripSlash zi.filename) with
                | some n => Except.ok (dictSet d1 (rstripSlash zi.filename)
                    ⟨some zi, n.children⟩)
                | none => Except.error LsError.crash
              else
                Except.ok (dictSet (dictSet d1
                    (rpartitionSlash (rstripSlash zi.filename)).1
                    ⟨pn.zipinfo, some (kids
                      ++ [(rpartitionSlash (rstripSlash zi.filename)).2])⟩)
                  (rstripSlash zi.filename) ⟨some zi, some []⟩)
            else
              Except.ok (dictSet (dictSet d1
                  (rpartitionSlash (rstripSlash zi.filename)).1
                  ⟨pn.zipinfo, some (kidsAdd kids
                    (rpartitionSlash (rstripSlash zi.filename)).2)⟩)
                (rstripSlash zi.filename) ⟨some zi, none⟩))
        = Except.ok d')
    (hpar : dlookup d1 (rpartitionSlash (rstripSlash zi.filename)).1 = some pn) :
    ∃ ks, dlookup d' [] = some ⟨none, some ks⟩ := by
  cases hch : pn.children with
  | none =>
    simp only [hch] at h
    cases h
  | some kids =>
    simp only [hch] at h
    by_cases hdir : zi.isDir = true
    · rw [if_pos hdir] at h
      by_cases hmem : (rpartitionSlash (rstripSlash zi.filename)).2 ∈ kids
      · rw [if_pos hmem] at h
        cases hn : dlookup d1 (rstripSlash zi.filename) with
        | none => rw [hn] at h; cases h
        | some n =>
          rw [hn] at h
          cases h
          exact root_preserved_setOther _ _ _ htf hroot
      · rw [if_neg hmem] at h
        cases h
        exact root_preserved_setOther _ _ _ htf
          (root_preserved_setParent _ _ _ _ hpar hroot)
    · rw [if_neg hdir] at h
      cases h
      exact root_preserved_setOther _ _ _ htf
        (root_preserved_setParent _ _ _ _ hpar hroot)

/-- One builder step keeps the root a zipinfo-free directory, as long as the
entry's normalized path is nonempty. -/
theorem stepEntry_preserves_root (args : Args) (d : ZDict) (zi : ZipInfo)
    (d' : ZDict) (h : stepEntry args d zi = Except.ok d')
    (htf : rstripSlash zi.filename ≠ [])
    (hP : ∃ kids, dlookup d [] = some ⟨none, some kids⟩) :
    ∃ kids, dlookup d' [] = some ⟨none, some kids⟩ := by
  obtain ⟨kids0, hk0⟩ := hP
  by_cases hmac : args.hideMacosx ∧ strStartsWith zi.filename "__MACOSX/".toList
  · rw [stepEntry, if_pos hmac] at h
    cases h
    exact ⟨kids0, hk0⟩
  · rw [stepEntry, if_neg hmac] at h
    simp only at h
    cases hpar0 : dlookup d (rpartitionSlash (rstripSlash zi.filename)).1 with
    | some pn0 =>
      simp only [hpar0] at h
      exact insertPhase_root zi d d' pn0 htf ⟨kids0, hk0⟩ h hpar0
    | none =>
      cases hcr : createNodeAndAncestors
          (rpartitionSlash (rstripSlash zi.filename)).1 zi d with
      | error e => simp only [hpar0, hcr] at h; cases h
      | ok d1 =>
        simp only [hpar0, hcr] at h
        have hroot1 : ∃ ks, dlookup d1 [] = some ⟨none, some ks⟩ :=
          cnaaLoop_preserves_root zi _ d _ d1 hcr ⟨kids0, hk0⟩
        cases hpar1 : dlookup d1 (rpartitionSlash (rstripSlash zi.filename)).1 with
        | none => simp only [hpar1] at h; cases h
        | some pn =>
          simp only [hpar1] at h
          exact insertPhase_root zi d1 d' pn htf hroot1 h hpar1

/-- Claim C10 (amended): provided no entry's name normalizes to the empty
path, the root of every built tree carries no ArchiveEntry (`zipinfo` is
`None`) and stays a directory, and `ls_filter` on the empty pathspec with
the directory switch returns exactly the pair `("", None)`. -/
theorem claim10_amended (args : Args) (entries : List ZipInfo) (d : ZDict)
    (hne : ∀ e ∈ entries, rstripSlash e.filename ≠ [])
    (hok : getZipinfo args entries = Except.ok d) :
    (∃ kids, dlookup d [] = some ⟨none, some kids⟩) ∧
    (∀ args2 : Args, args2.directory = true →
      lsFilter d [] args2 = Except.ok [([], none)]) := by
  have hroot : ∃ kids, dlookup d [] = some ⟨none, some kids⟩ := by
    have haux : ∀ (es : List ZipInfo) (d0 dr : ZDict),
        (∀ e ∈ es, rstripSlash e.filename ≠ []) →
        (∃ kids, dlookup d0 [] = some ⟨none, some kids⟩) →
        List.foldlM (stepEntry args) d0 es = Except.ok dr →
        ∃ kids, dlookup dr [] = some ⟨none, some kids⟩ := by
      intro es
      induction es with
      | nil =>
        intro d0 dr _ h0 hr
        simp only [List.foldlM] at hr
        cases hr
        exact h0
      | cons e es ih =>
        intro d0 dr hes h0 hr
        rw [List.foldlM_cons] at hr
        cases hse : stepEntry args d0 e with
        | error er => rw [hse] at hr; cases hr
        | ok d1 =>
          rw [hse] at hr
          exact ih d1 dr (fun x hx => hes x (List.mem_cons_of_mem _ hx))
            (stepEntry_preserves_root args d0 e d1 hse (hes e (by simp)) h0) hr
    exact haux entries initDict d hne ⟨[], rfl⟩ hok
  refine ⟨hroot, ?_⟩
  intro args2 h2
  obtain ⟨kids, hk⟩ := hroot
  simp [lsFilter, hk, h2]

theorem claim10_witness :
    (∃ kids, dlookup exampleDictA [] = some ⟨none, some kids⟩) ∧
    lsFilter exampleDictA [] ⟨false, true, false⟩ = Except.ok [([], none)] :=
  ⟨(claim10_amended args0 [ziDirA] exampleDictA (by decide) (by decide)).1,
   (claim10_amended args0 [ziDirA] exampleDictA (by decide) (by decide)).2
     ⟨false, true, false⟩ rfl⟩

/-! ### C4: the anchor decomposition of `glob_recurse` -/

/-- The segment right after a `takeWhile` prefix fails the predicate. -/
theorem get_after_takeWhile {α : Type} (p : α → Bool) :
    ∀ (l : List α) (m : α), l.get? (l.takeWhile p).length = some m → p m = false := by
  intro l
  induction l with
  | nil => intro m h; cases h
  | cons a t ih =>
    intro m h
    by_cases hpa : p a
    · rw [List.takeWhile_cons, if_pos hpa] at h
      exact ih m h
    · rw [List.takeWhile_cons, if_neg hpa] at h
      simp only [List.length_nil, List.get?] at h
      cases h
      exact Bool.not_eq_true _ ▸ (by simpa using hpa)

/-- Claim C4: `glob_recurse` anchors at the longest wildcard-free prefix of
the pathspec's segments (every anchored segment is wildcard-free, and the
next segment, when present, has a wildcard); if the anchor path is absent
the branch yields no matches; with no wildcard segment left the unique match
is the anchor itself; and when a wildcard segment remains but the anchor
node is a file (children absent), there are no matches. -/
theorem claim4_anchor_behaviour (d : ZDict) (path : Str) (fuel : Nat) :
    (∀ s ∈ (splitSlash path).takeWhile (fun s => !(containsGlobChar s)),
        containsGlobChar s = false) ∧
    (∀ m, (splitSlash path).get?
        ((splitSlash path).takeWhile (fun s => !(containsGlobChar s))).length
          = some m → containsGlobChar m = true) ∧
    (dlookup d (anchorOf path).1 = none →
      globRecurse (fuel + 1) path d = Except.ok []) ∧
    (∀ pn, dlookup d (anchorOf path).1 = some pn → (anchorOf path).2.1 = none →
      globRecurse (fuel + 1) path d = Except.ok [(anchorOf path).1]) ∧
    (∀ pn mid, dlookup d (anchorOf path).1 = some pn →
      (anchorOf path).2.1 = some mid → pn.children = none →
      globRecurse (fuel + 1) path d = Except.ok []) := by
  refine ⟨?_, ?_, ?_, ?_, ?_⟩
  · intro s hs
    have := List.mem_takeWhile_imp hs
    simpa using this
  · intro m hm
    have := get_after_takeWhile (fun s => !(containsGlobChar s)) (splitSlash path) m hm
    simpa using this
  · intro h
    simp only [globRecurse, h]
  · intro pn h hmid
    simp only [globRecurse, h, hmid]
  · intro pn mid h hmid hch
    simp only [globRecurse, h, hmid, hch]

theorem claim4_witness :
    globRecurse 3 "zz".toList exampleDictA = Except.ok [] ∧
    globRecurse 3 ['a'] exampleDictA = Except.ok [['a']] ∧
    globRecurse 3 "a/*".toList exampleDictFile = Except.ok [] :=
  ⟨(claim4_anchor_behaviour exampleDictA "zz".toList 2).2.2.1 (by decide),
   (claim4_anchor_behaviour exampleDictA ['a'] 2).2.2.2.1
     ⟨some ziDirA, some []⟩ (by decide) (by decide),
   (claim4_anchor_behaviour exampleDictFile "a/*".toList 2).2.2.2.2
     ⟨some ziFileA, none⟩ ("*".toList) (by decide) (by decide) rfl⟩

/-! ### C5: unmatched globs fall back to the literal pathspec -/

/-- Claim C5: when glob resolution of a pathspec produces zero matches,
`glob_filter` emits the trailing-slash-stripped pathspec itself, so that a
later `ls_filter` lookup (when the path is indeed absent) reports
`NoSuchFileDirError` instead of silently dropping the pathspec. -/
theorem claim5_literal_fallback (d : ZDict) (spec : Str) (fuel : Nat)
    (h : globRecurse fuel (rstripSlash spec) d = Except.ok []) :
    globFilter fuel [spec] d = Except.ok [rstripSlash spec] ∧
    (∀ args : Args, dlookup d (rstripSlash spec) = none →
      lsFilter d (rstripSlash spec) args = Except.error LsError.noSuchFileDir) := by
  constructor
  · simp only [globFilter, List.foldlM_cons, List.foldlM_nil, h]
    rfl
  · intro args hnone
    simp [lsFilter, hnone]

theorem claim5_witness :
    globFilter 3 ["zz/".toList] exampleDictA = Except.ok ["zz".toList] ∧
    lsFilter exampleDictA "zz".toList args0 = Except.error LsError.noSuchFileDir :=
  ⟨(claim5_literal_fallback exampleDictA "zz/".toList 3 (by decide)).1,
   by
    have h2 := (claim5_literal_fallback exampleDictA "zz/".toList 3 (by decide)).2
      args0 (by decide)
    exact h2⟩

/-! ### C7: hidden names are filtered by `ls_filter`, not by the resolver -/

/-- Mapping an always-successful child lookup over a name list returns the
names paired with their zipinfo, in order. -/
theorem mapM_children_names (d : ZDict) (p : Str) :
    ∀ (cs : List Str), (∀ c ∈ cs, (dlookup d (pathJoin [p, c])).isSome = true) →
    ∃ res, (List.mapM (fun c =>
        match dlookup d (pathJoin [p, c]) with
        | some cn => Except.ok (c, cn.zipinfo)
        | none => Except.error LsError.crash) cs
          : Except LsError (List (Str × Option ZipInfo))) = Except.ok res ∧
      res.map Prod.fst = cs := by
  intro cs
  induction cs with
  | nil => exact fun _ => ⟨[], rfl, rfl⟩
  | cons c t ih =>
    intro hall
    have hc : (dlookup d (pathJoin [p, c])).isSome = true := hall c (by simp)
    obtain ⟨cn, hcn⟩ : ∃ cn, dlookup d (pathJoin [p, c]) = some cn := by
      cases hl : dlookup d (pathJoin [p, c]) with
      | none => rw [hl] at hc; cases hc
      | some cn => exact ⟨cn, rfl⟩
    obtain ⟨res, hres, hnames⟩ := ih (fun x hx => hall x (List.mem_cons_of_mem _ hx))
    refine ⟨(c, cn.zipinfo) :: res, ?_, by simp [hnames]⟩
    rw [List.mapM_cons, hcn, hres]
    rfl

/-- Claim C7: the resolver does not hide dot-names — resolving `*` against a
directory with children `a.txt`, `.hidden`, `b` yields exactly those three —
while `ls_filter` with `-a` unset skips exactly the child names that start
with `.`, and with `-a` set skips none. -/
theorem claim7_hidden_filtering :
    globRecurse 2 "*".toList exampleDictHidden
      = Except.ok ["a.txt".toList, ".hidden".toList, "b".toList] ∧
    (∀ (d : ZDict) (p : Str) (args : Args) (node : FileDirNode) (kids : List Str),
      dlookup d p = some node → node.children = some kids →
      args.directory = false →
      (∀ c ∈ kids.filter (fun c => ¬ strStartsWith c ['.'] ∨ args.all),
        (dlookup d (pathJoin [p, c])).isSome = true) →
      ∃ res, lsFilter d p args = Except.ok res ∧
        res.map Prod.fst = kids.filter (fun c => ¬ strStartsWith c ['.'] ∨ args.all) ∧
        (args.all = true → res.map Prod.fst = kids)) := by
  constructor
  · decide
  · intro d p args node kids hnode hch hdir hall
    obtain ⟨res, hres, hnames⟩ := mapM_children_names d p
      (kids.filter (fun c => ¬ strStartsWith c ['.'] ∨ args.all)) hall
    refine ⟨res, ?_, ?_, ?_⟩
    · simp only [lsFilter, hnode, hch, hdir]
      simpa using hres
    · exact hnames
    · intro hall2
      rw [hnames]
      have : ∀ c ∈ kids, decide (¬ strStartsWith c ['.'] ∨ args.all) = true := by
        intro c _
        simp [hall2]
      simp only [List.filter_eq_self.mpr this]

theorem claim7_witness :
    (∃ res, lsFilter exampleDictHidden [] args0 = Except.ok res ∧
      res.map Prod.fst = ["a.txt".toList, ['b']]) ∧
    (∃ res, lsFilter exampleDictHidden [] ⟨true, false, false⟩ = Except.ok res ∧
      res.map Prod.fst = ["a.txt".toList, ".hidden".toList, ['b']]) := by
  constructor
  · obtain ⟨res, h1, h2, h3⟩ := claim7_hidden_filtering.2 exampleDictHidden [] args0
      ⟨none, some ["a.txt".toList, ".hidden".toList, ['b']]⟩
      ["a.txt".toList, ".hidden".toList, ['b']]
      (by decide) rfl rfl (by decide)
    exact ⟨res, h1, by rw [h2]; decide⟩
  · obtain ⟨res, h1, h2, h3⟩ := claim7_hidden_filtering.2 exampleDictHidden []
      ⟨true, false, false⟩
      ⟨none, some ["a.txt".toList, ".hidden".toList, ['b']]⟩
      ["a.txt".toList, ".hidden".toList, ['b']]
      (by decide) rfl rfl (by decide)
    exact ⟨res, h1, by rw [h3 rfl]⟩

/-! ### C9: `glob_recurse` does not terminate on self-matching child names -/

/-- Claim C9 describes the intended behaviour, but the code violates it:
on the tree built from the single file entry `a*b`, resolving the pathspec
`a*b` compiles the child name `a*b` as a pattern, the pattern matches the
child name itself, and the recursion re-enters `glob_recurse` with exactly
the same arguments — Python recurses until `RecursionError`.  In the fuel
model: no amount of fuel suffices. -/
theorem claim9_diverges :
    getZipinfo args0 [ziStarName] = Except.ok exampleDictStarName ∧
    ∀ fuel : Nat, globRecurse fuel ("a*b".toList) exampleDictStarName
      = Except.error GlobError.fuelOut := by
  refine ⟨by decide, ?_⟩
  intro fuel
  induction fuel with
  | zero => rfl
  | succ n ih =>
    have hstep : globRecurse (n + 1) ("a*b".toList) exampleDictStarName
        = ((globRecurse n ("a*b".toList) exampleDictStarName).map
            (fun r => ([] : List Str) ++ r)).bind
          (fun acc => Except.ok acc) := rfl
    rw [hstep, ih]
    rfl

/-! ### C6: the glob matcher versus the specification's semantics -/

theorem subEsc_cons_ne (t : Char) (repl : Str) (c : Char) (rest : Str)
    (h : c ≠ '\\') : subEsc t repl (c :: rest) = c :: subEsc t repl rest := by
  cases rest with
  | nil => rfl
  | cons c2 r2 =>
    rw [subEsc, if_neg]
    intro hh
    exact h hh.1

theorem subEsc_append_no_bs (t : Char) (repl : Str) :
    ∀ (x rest : Str), '\\' ∉ x →
      subEsc t repl (x ++ rest) = x ++ subEsc t repl rest := by
  intro x
  induction x with
  | nil => intro rest _; rfl
  | cons c x2 ih =>
    intro rest hx
    rw [List.cons_append, subEsc_cons_ne t repl c _ (by intro hh; exact hx (by simp [hh])),
      ih rest (by intro hh; exact hx (by simp [hh]))]
    rfl

/-- One substitution pass over a concatenation of per-character images, when
every image is either a two-character escape (of a non-backslash character)
or backslash-free: the pass rewrites exactly the images equal to `\t`. -/
theorem subEsc_flatten_map (t : Char) (repl : Str) (img : Char → Str) :
    ∀ (g : Str),
    (∀ c ∈ g, (∃ x, img c = ['\\', x] ∧ x ≠ '\\') ∨ '\\' ∉ img c) →
    subEsc t repl (List.flatten (g.map img) ++ ['$'])
      = List.flatten (g.map (fun c =>
          if img c = ['\\', t] then repl else img c)) ++ ['$'] := by
  intro g
  induction g with
  | nil => intro _; rfl
  | cons c g2 ih =>
    intro h
    have hc := h c (by simp)
    have hrest := fun x hx => h x (List.mem_cons_of_mem _ hx)
    simp only [List.map_cons, List.flatten_cons, List.append_assoc]
    rcases hc with ⟨x, hx, hxne⟩ | hnb
    · by_cases hxt : x = t
      · subst hxt
        rw [show img c ++ (List.flatten (g2.map img) ++ ['$'])
            = '\\' :: x :: (List.flatten (g2.map img) ++ ['$']) from by rw [hx]; rfl]
        rw [subEsc, if_pos ⟨rfl, rfl⟩, ih hrest, if_pos hx]
      · rw [show img c ++ (List.flatten (g2.map img) ++ ['$'])
            = '\\' :: x :: (List.flatten (g2.map img) ++ ['$']) from by rw [hx]; rfl]
        rw [subEsc, if_neg (by intro hh; exact hxt hh.2)]
        rw [subEsc_cons_ne t repl x _ hxne, ih hrest]
        rw [if_neg (by
          rw [hx]
          intro hh
          injection hh with h1 h2
          injection h2 with h3 h4
          exact hxt h3)]
        rw [hx]
        rfl
    · rw [subEsc_append_no_bs t repl _ _ hnb, ih hrest]
      rw [if_neg (by intro hh; rw [hh] at hnb; exact hnb (by simp))]

/-- Characters escaped by `re.escape` are not alphanumeric. -/
theorem pySpecial_not_alphanum : ∀ c ∈ pySpecialChars, c.isAlphanum = false := by
  decide

/-- On patterns without backslashes or square brackets, the four `re.sub`
passes of `glob_to_re` rewrite the escaped pattern to the concatenation of
the per-character images. -/
theorem globToReStr_clean (g : Str) (hbs : '\\' ∉ g) (hlb : '[' ∉ g)
    (hrb : ']' ∉ g) :
    globToReStr g = '^' :: (List.flatten (g.map globImage) ++ ['$']) := by
  have himg : ∀ c ∈ g, (∃ x, escChar c = ['\\', x] ∧ x ≠ '\\') ∨ '\\' ∉ escChar c := by
    intro c hcmem
    by_cases hs : c ∈ pySpecialChars
    · refine Or.inl ⟨c, by simp [escChar, hs], ?_⟩
      intro hh
      exact hbs (hh ▸ hcmem)
    · refine Or.inr ?_
      simp only [escChar, hs, if_false]
      intro hh
      have h9 : '\\' = c := by simpa using hh
      rw [← h9] at hcmem
      exact hbs hcmem
  by_cases hglob : containsGlobChar g = true
  · rw [globToReStr]
    simp only [hglob, if_true]
    rw [show ('^' :: reEscape g ++ ['$']) = '^' :: (reEscape g ++ ['$']) from rfl]
    rw [reEscape]
    -- pass 1: \* ↦ [^/]*
    rw [subEsc_cons_ne _ _ _ _ (by decide), subEsc_flatten_map _ _ _ g himg]
    set img1 := fun c => if escChar c = ['\\', '*'] then "[^/]*".toList else escChar c
      with himg1
    -- pass 2: \? ↦ [^/]
    have himg1ok : ∀ c ∈ g, (∃ x, img1 c = ['\\', x] ∧ x ≠ '\\') ∨ '\\' ∉ img1 c := by
      intro c hcmem
      rw [himg1]
      by_cases he : escChar c = ['\\', '*']
      · simp only [he, if_true]
        exact Or.inr (by decide)
      · simp only [he, if_false]
        exact himg c hcmem
    rw [subEsc_cons_ne _ _ _ _ (by decide), subEsc_flatten_map _ _ _ g himg1ok]
    set img2 := fun c => if img1 c = ['\\', '?'] then "[^/]".toList else img1 c
      with himg2
    -- pass 3: \[ ↦ [  (never fires: the pattern has no '[')
    have himg2ok : ∀ c ∈ g, (∃ x, img2 c = ['\\', x] ∧ x ≠ '\\') ∨ '\\' ∉ img2 c := by
      intro c hcmem
      rw [himg2]
      by_cases he : img1 c = ['\\', '?']
      · simp only [he, if_true]
        exact Or.inr (by decide)
      · simp only [he, if_false]
        exact himg1ok c hcmem
    rw [subEsc_cons_ne _ _ _ _ (by decide), subEsc_flatten_map _ _ _ g himg2ok]
    set img3 := fun c => if img2 c = ['\\', '['] then ['['] else img2 c with himg3
    have himg3ok : ∀ c ∈ g, (∃ x, img3 c = ['\\', x] ∧ x ≠ '\\') ∨ '\\' ∉ img3 c := by
      intro c hcmem
      rw [himg3]
      by_cases he : img2 c = ['\\', '[']
      · simp only [he, if_true]
        exact Or.inr (by decide)
      · simp only [he, if_false]
        exact himg2ok c hcmem
    rw [subEsc_cons_ne _ _ _ _ (by decide), subEsc_flatten_map _ _ _ g himg3ok]
    congr 1
    congr 1
    refine congrArg List.flatten (List.map_congr_left ?_)
    intro c hcmem
    have hc_ne_bs : c ≠ '\\' := fun hh => hbs (hh ▸ hcmem)
    have hc_ne_lb : c ≠ '[' := fun hh => hlb (hh ▸ hcmem)
    have hc_ne_rb : c ≠ ']' := fun hh => hrb (hh ▸ hcmem)
    rw [himg3, himg2, himg1]
    by_cases hcs : c = '*'
    · subst hcs
      simp [escChar, pySpecialChars, globImage]
    · by_cases hcq : c = '?'
      · subst hcq
        simp [escChar, pySpecialChars, globImage]
      · have h1 : escChar c ≠ ['\\', '*'] := by
          simp only [escChar]
          by_cases hs : c ∈ pySpecialChars
          · simp only [hs, if_true]
            intro hh
            injection hh with ha hb
            injection hb with hb
            exact hcs hb
          · simp only [hs, if_false]
            intro hh
            cases hh
        have h2 : escChar c ≠ ['\\', '?'] := by
          simp only [escChar]
          by_cases hs : c ∈ pySpecialChars
          · simp only [hs, if_true]
            intro hh
            injection hh with ha hb
            injection hb with hb
            exact hcq hb
          · simp only [hs, if_false]
            intro hh
            cases hh
        have h3 : escChar c ≠ ['\\', '['] := by
          simp only [escChar]
          by_cases hs : c ∈ pySpecialChars
          · simp only [hs, if_true]
            intro hh
            injection hh with ha hb
            injection hb with hb
            exact hc_ne_lb hb
          · simp only [hs, if_false]
            intro hh
            cases hh
        have h4 : escChar c ≠ ['\\', ']'] := by
          simp only [escChar]
          by_cases hs : c ∈ pySpecialChars
          · simp only [hs, if_true]
            intro hh
            injection hh with ha hb
            injection hb with hb
            exact hc_ne_rb hb
          · simp only [hs, if_false]
            intro hh
            cases hh
        simp only [h1, if_false, h2, h3, h4, globImage, hcs, hcq]
  · have hg2 : containsGlobChar g = false := by
      cases hcg : containsGlobChar g
      · rfl
      · exact absurd hcg hglob
    have hng : ('*' ∉ g) ∧ ('?' ∉ g) := by
      rw [containsGlobChar] at hg2
      simp only [Bool.or_eq_false_iff] at hg2
      exact ⟨by simpa using hg2.1.1, by simpa using hg2.1.2⟩
    rw [globToReStr, hg2]
    rw [if_neg (by decide)]
    rw [reEscape]
    rw [show ('^' :: List.flatten (g.map escChar) ++ ['$'])
        = '^' :: (List.flatten (g.map escChar) ++ ['$']) from rfl]
    congr 2
    refine congrArg List.flatten (List.map_congr_left ?_)
    intro c hcmem
    have hcs : c ≠ '*' := fun hh => hng.1 (hh ▸ hcmem)
    have hcq : c ≠ '?' := fun hh => hng.2 (hh ▸ hcmem)
    rw [globImage, if_neg hcs, if_neg hcq]

theorem pstep_norm_plain (acc : List RTok) (c : Char) (h1 : c ≠ '^')
    (h2 : c ≠ '$') (h3 : c ≠ '\\') (h4 : c ≠ '[') (h5 : c ≠ '*') :
    pstep ⟨acc, PMode.norm, true⟩ c
      = ⟨RTok.atom (RAtom.lit c) :: acc, PMode.norm, true⟩ := by
  simp [pstep, h1, h2, h3, h4, h5]

theorem pstep_esc (acc : List RTok) (c : Char) (h : c.isAlphanum = false) :
    pstep ⟨acc, PMode.esc, true⟩ c
      = ⟨RTok.atom (RAtom.lit c) :: acc, PMode.norm, true⟩ := by
  simp [pstep, h]

/-- Folding the parser over the escape image of one character pushes the
literal token for that character. -/
theorem foldl_pstep_escChunk (acc : List RTok) (c : Char) (rest : Str) :
    List.foldl pstep ⟨acc, PMode.norm, true⟩ (escChar c ++ rest)
      = List.foldl pstep ⟨RTok.atom (RAtom.lit c) :: acc, PMode.norm, true⟩ rest := by
  by_cases hs : c ∈ pySpecialChars
  · rw [escChar, if_pos hs]
    rw [show ((['\\', c] : Str) ++ rest) = '\\' :: c :: rest from rfl]
    rw [List.foldl_cons, List.foldl_cons]
    rw [show pstep ⟨acc, PMode.norm, true⟩ '\\' = ⟨acc, PMode.esc, true⟩ from rfl]
    rw [pstep_esc acc c (pySpecial_not_alphanum c hs)]
  · rw [escChar, if_neg hs]
    rw [show (([c] : Str) ++ rest) = c :: rest from rfl]
    rw [List.foldl_cons]
    rw [pstep_norm_plain acc c
      (fun hh => hs (by rw [hh]; decide))
      (fun hh => hs (by rw [hh]; decide))
      (fun hh => hs (by rw [hh]; decide))
      (fun hh => hs (by rw [hh]; decide))
      (fun hh => hs (by rw [hh]; decide))]

/-- Folding the parser over a fully escaped pattern pushes one literal token
per pattern character. -/
theorem foldl_pstep_escape :
    ∀ (g : Str) (acc : List RTok) (rest : Str),
    List.foldl pstep ⟨acc, PMode.norm, true⟩ (List.flatten (g.map escChar) ++ rest)
      = List.foldl pstep
          ⟨(g.map (fun c => RTok.atom (RAtom.lit c))).reverse ++ acc, PMode.norm, true⟩
          rest := by
  intro g
  induction g with
  | nil => intro acc rest; rfl
  | cons c g2 ih =>
    intro acc rest
    simp only [List.map_cons, List.flatten_cons, List.append_assoc]
    rw [foldl_pstep_escChunk, ih]
    have : (RTok.atom (RAtom.lit c) :: (g2.map (fun x => RTok.atom (RAtom.lit x)))).reverse ++ acc
        = (g2.map (fun x => RTok.atom (RAtom.lit x))).reverse
          ++ (RTok.atom (RAtom.lit c) :: acc) := by
      simp
    rw [← this]

/-- Folding the parser over the glob image of a clean pattern pushes the
corresponding glob tokens. -/
theorem foldl_pstep_globImage :
    ∀ (g : Str) (acc : List RTok) (rest : Str),
    '\\' ∉ g → '[' ∉ g → ']' ∉ g →
    List.foldl pstep ⟨acc, PMode.norm, true⟩ (List.flatten (g.map globImage) ++ rest)
      = List.foldl pstep ⟨(g.map globTok).reverse ++ acc, PMode.norm, true⟩ rest := by
  intro g
  induction g with
  | nil => intro acc rest _ _ _; rfl
  | cons c g2 ih =>
    intro acc rest hbs hlb hrb
    have hbs2 : '\\' ∉ g2 := fun hh => hbs (List.mem_cons_of_mem _ hh)
    have hlb2 : '[' ∉ g2 := fun hh => hlb (List.mem_cons_of_mem _ hh)
    have hrb2 : ']' ∉ g2 := fun hh => hrb (List.mem_cons_of_mem _ hh)
    simp only [List.map_cons, List.flatten_cons, List.append_assoc]
    by_cases hcs : c = '*'
    · subst hcs
      rw [show globImage '*' = "[^/]*".toList from rfl]
      rw [show ("[^/]*".toList ++ (List.flatten (g2.map globImage) ++ rest))
          = '[' :: '^' :: '/' :: ']' :: '*' :: (List.flatten (g2.map globImage) ++ rest)
          from rfl]
      rw [show ∀ (a : List RTok),
          List.foldl pstep ⟨a, PMode.norm, true⟩
            ('[' :: '^' :: '/' :: ']' :: '*'
              :: (List.flatten (g2.map globImage) ++ rest))
          = List.foldl pstep ⟨RTok.star (RAtom.cls true ['/']) :: a, PMode.norm, true⟩
            (List.flatten (g2.map globImage) ++ rest)
        from fun a => rfl]
      rw [ih _ rest hbs2 hlb2 hrb2]
      have : (globTok '*' :: g2.map globTok).reverse ++ acc
          = (g2.map globTok).reverse ++ (RTok.star (RAtom.cls true ['/']) :: acc) := by
        simp [globTok]
      rw [← this]
    · by_cases hcq : c = '?'
      · subst hcq
        rw [show globImage '?' = "[^/]".toList from rfl]
        rw [show ("[^/]".toList ++ (List.flatten (g2.map globImage) ++ rest))
            = '[' :: '^' :: '/' :: ']' :: (List.flatten (g2.map globImage) ++ rest)
            from rfl]
        rw [show ∀ (a : List RTok),
            List.foldl pstep ⟨a, PMode.norm, true⟩
              ('[' :: '^' :: '/' :: ']' :: (List.flatten (g2.map globImage) ++ rest))
            = List.foldl pstep ⟨RTok.atom (RAtom.cls true ['/']) :: a, PMode.norm, true⟩
              (List.flatten (g2.map globImage) ++ rest)
          from fun a => rfl]
        rw [ih _ rest hbs2 hlb2 hrb2]
        have : (globTok '?' :: g2.map globTok).reverse ++ acc
            = (g2.map globTok).reverse ++ (RTok.atom (RAtom.cls true ['/']) :: acc) := by
          simp [globTok]
        rw [← this]
      · rw [show globImage c = escChar c from by rw [globImage, if_neg hcs, if_neg hcq]]
        rw [foldl_pstep_escChunk, ih _ rest hbs2 hlb2 hrb2]
        have : (globTok c :: g2.map globTok).reverse ++ acc
            = (g2.map globTok).reverse ++ (RTok.atom (RAtom.lit c) :: acc) := by
          simp [globTok, hcs, hcq]
        rw [← this]

/-- The compiled form of a clean glob pattern: a leading anchor, one token
per pattern character, a closing anchor. -/
theorem parseToks_globImage (g : Str) (hbs : '\\' ∉ g) (hlb : '[' ∉ g)
    (hrb : ']' ∉ g) :
    parseToks ('^' :: (List.flatten (g.map globImage) ++ ['$']))
      = some (RTok.caret :: g.map globTok ++ [RTok.dollar]) := by
  rw [parseToks]
  rw [List.foldl_cons]
  rw [show pstep pInit '^' = ⟨[RTok.caret], PMode.norm, true⟩ from rfl]
  rw [foldl_pstep_globImage g [RTok.caret] ['$'] hbs hlb hrb]
  rw [show ∀ (a : List RTok),
      List.foldl pstep ⟨a, PMode.norm, true⟩ ['$']
        = ⟨RTok.dollar :: a, PMode.norm, true⟩ from fun a => rfl]
  simp

/-- The compiled form of a pattern without glob characters: a leading
anchor, one literal token per pattern character, a closing anchor. -/
theorem parseToks_escape (g : Str) :
    parseToks ('^' :: (List.flatten (g.map escChar) ++ ['$']))
      = some (RTok.caret :: g.map (fun c => RTok.atom (RAtom.lit c))
          ++ [RTok.dollar]) := by
  rw [parseToks]
  rw [List.foldl_cons]
  rw [show pstep pInit '^' = ⟨[RTok.caret], PMode.norm, true⟩ from rfl]
  rw [foldl_pstep_escape g [RTok.caret] ['$']]
  rw [show ∀ (a : List RTok),
      List.foldl pstep ⟨a, PMode.norm, true⟩ ['$']
        = ⟨RTok.dollar :: a, PMode.norm, true⟩ from fun a => rfl]
  simp

theorem getD_eq_get_of_lt (s : Str) (p : Nat) (h : p < s.length) :
    s.getD p ' ' = s.get ⟨p, h⟩ := by
  rw [List.getD_eq_get?, List.get?_eq_get h]
  rfl

theorem drop_eq_getD_cons (s : Str) (p : Nat) (h : p < s.length) :
    s.drop p = s.getD p ' ' :: s.drop (p + 1) := by
  rw [getD_eq_get_of_lt s p h]
  exact List.drop_eq_get_cons h

theorem getLast?_getD (s : Str) (p : Nat) (h : p + 1 = s.length) :
    s.getLast? = some (s.getD p ' ') := by
  rw [List.getLast?_eq_get?]
  have h2 : s.length - 1 = p := by omega
  rw [h2, List.getD_eq_get?]
  have hlt : p < s.length := by omega
  rw [List.get?_eq_get hlt]
  rfl

theorem matchToks_dollar (s : Str) (p : Nat) (hp : p ≤ s.length)
    (hnl : s.getLast? ≠ some '\n') :
    matchToks [RTok.dollar] s p = decide (p = s.length) := by
  rw [show matchToks [RTok.dollar] s p
      = (((p == s.length) || ((p + 1 == s.length) && (s.getD p ' ' == '\n'))) && true)
      from rfl]
  by_cases hpe : p = s.length
  · simp [hpe]
  · have h2 : ¬ (p + 1 = s.length ∧ s.getD p ' ' = '\n') := by
      rintro ⟨h3, h4⟩
      exact hnl (by rw [getLast?_getD s p h3, h4])
    have e2 : ((p + 1 == s.length) && (s.getD p ' ' == '\n')) = false := by
      by_cases h3 : p + 1 = s.length
      · by_cases h5 : s.getD p ' ' = '\n'
        · exact absurd ⟨h3, h5⟩ h2
        · have h6 : (s.getD p ' ' == '\n') = false := by simpa using h5
          rw [h6, Bool.and_false]
      · have h6 : (p + 1 == s.length) = false := by simpa using h3
        rw [h6, Bool.false_and]
    have e1 : (p == s.length) = false := by simpa using hpe
    rw [e1, e2]
    simp [hpe]

theorem atomMatch_slashCls (x : Char) :
    atomMatch (RAtom.cls true ['/']) x = (x != '/') := by
  by_cases h : x = '/'
  · subst h
    decide
  · have h1 : (x == '/') = false := by simpa using h
    simp [atomMatch, List.contains, List.elem, bne, h1]

theorem matchToks_star_iff (a : RAtom) (ts : List RTok) (s : Str) (p : Nat)
    (hp : p ≤ s.length) :
    (matchToks (RTok.star a :: ts) s p = true)
      ↔ ∃ k, p + k ≤ s.length
          ∧ (∀ i, i < k → atomMatch a (s.getD (p + i) ' ') = true)
          ∧ matchToks ts s (p + k) = true := by
  rw [show matchToks (RTok.star a :: ts) s p = (List.range (s.length - p + 1)).any
      (fun k => ((List.range k).all (fun i => atomMatch a (s.getD (p + i) ' ')))
        && matchToks ts s (p + k)) from rfl]
  rw [List.any_eq_true]
  constructor
  · rintro ⟨k, hk, hcond⟩
    rw [List.mem_range] at hk
    rw [Bool.and_eq_true, List.all_eq_true] at hcond
    exact ⟨k, by omega, fun i hi => hcond.1 i (List.mem_range.mpr hi), hcond.2⟩
  · rintro ⟨k, hk, hall, hrest⟩
    refine ⟨k, List.mem_range.mpr (by omega), ?_⟩
    rw [Bool.and_eq_true, List.all_eq_true]
    exact ⟨fun i hi => hall i (List.mem_range.mp hi), hrest⟩

theorem specStarLoop_iff (next : Str → Bool) : ∀ (cs : Str),
    specStarLoop next cs = true
      ↔ ∃ k, k ≤ cs.length ∧ (∀ i, i < k → cs.getD i ' ' ≠ '/')
          ∧ next (cs.drop k) = true := by
  intro cs
  induction cs with
  | nil =>
    rw [show specStarLoop next [] = next [] from rfl]
    constructor
    · intro h
      exact ⟨0, by simp, fun i hi => absurd hi (by omega), by simpa using h⟩
    · rintro ⟨k, hk, _, hnext⟩
      have hk0 : k = 0 := by simpa using hk
      subst hk0
      simpa using hnext
  | cons c cs2 ih =>
    rw [show specStarLoop next (c :: cs2)
        = (next (c :: cs2) || ((c != '/') && specStarLoop next cs2)) from rfl]
    simp only [Bool.or_eq_true, Bool.and_eq_true, bne_iff_ne]
    constructor
    · intro h
      rcases h with h | ⟨hne, h⟩
      · exact ⟨0, by simp, fun i hi => absurd hi (by omega), by simpa using h⟩
      · obtain ⟨k, hk, hall, hnext⟩ := ih.mp h
        refine ⟨k + 1, by simpa using hk, ?_, by simpa using hnext⟩
        intro i hi
        cases i with
        | zero => simpa using hne
        | succ j => exact hall j (by omega)
    · rintro ⟨k, hk, hall, hnext⟩
      cases k with
      | zero =>
        left
        simpa using hnext
      | succ j =>
        right
        refine ⟨by simpa using hall 0 (by omega), ?_⟩
        refine ih.mpr ⟨j, by simpa using hk, ?_, by simpa using hnext⟩
        intro i hi
        have h2 := hall (i + 1) (by omega)
        simpa using h2

theorem getD_drop (s : Str) (p i : Nat) :
    (s.drop p).getD i ' ' = s.getD (p + i) ' ' := by
  rw [List.getD_eq_get?, List.getD_eq_get?, List.get?_drop]

theorem specGlobMatch_star (ps cs : Str) :
    specGlobMatch ('*' :: ps) cs = specStarLoop (specGlobMatch ps) cs := rfl

theorem specGlobMatch_qm (ps cs : Str) :
    specGlobMatch ('?' :: ps) cs
      = (match cs with
         | [] => false
         | c :: cs2 => (c != '/') && specGlobMatch ps cs2) := rfl

theorem specGlobMatch_lit (p0 : Char) (ps cs : Str) (h1 : p0 ≠ '*')
    (h2 : p0 ≠ '?') (h3 : p0 ≠ '[') :
    specGlobMatch (p0 :: ps) cs
      = (match cs with
         | [] => false
         | c :: cs2 => (c == p0) && specGlobMatch ps cs2) := by
  have h0 : specGlobMatch (p0 :: ps) cs
      = (if p0 = '*' then specStarLoop (specGlobMatchAux ps.length ps) cs
         else if p0 = '?' then
           (match cs with
            | [] => false
            | c :: cs2 => (c != '/') && specGlobMatchAux ps.length ps cs2)
         else if p0 = '[' then
           (if ']' ∈ ps then
             (match cs with
              | [] => false
              | c :: cs2 =>
                (ps.takeWhile (fun x => x != ']')).contains c
                  && specGlobMatchAux ps.length
                      ((ps.dropWhile (fun x => x != ']')).tail) cs2)
           else
             (match cs with
              | [] => false
              | c :: cs2 => (c == '[') && specGlobMatchAux ps.length ps cs2))
         else
           (match cs with
            | [] => false
            | c :: cs2 => (c == p0) && specGlobMatchAux ps.length ps cs2)) := rfl
  rw [h0, if_neg h1, if_neg h2, if_neg h3]
  rfl

/-- `search` of an anchored regex only has to try position 0. -/
theorem reSearch_caret (T : List RTok) (s : Str) :
    reSearch (RTok.caret :: T) s = matchToks T s 0 := by
  rw [reSearch]
  have hmc : ∀ p, matchToks (RTok.caret :: T) s p = ((p == 0) && matchToks T s p) :=
    fun p => rfl
  cases hm : matchToks T s 0 with
  | true =>
    rw [List.any_eq_true]
    exact ⟨0, by simp, by rw [hmc 0]; simp [hm]⟩
  | false =>
    rw [List.any_eq_false]
    intro x hx
    rw [hmc x]
    by_cases hx0 : x = 0
    · subst hx0
      simp [hm]
    · simp [hx0]

/-- The compiled matcher of a clean glob pattern agrees with the
specification's glob semantics, position for position. -/
theorem matchToks_eq_spec :
    ∀ (g : Str), '[' ∉ g →
    ∀ (s : Str) (p : Nat), p ≤ s.length → s.getLast? ≠ some '\n' →
    matchToks (g.map globTok ++ [RTok.dollar]) s p
      = specGlobMatch g (s.drop p) := by
  intro g
  induction g with
  | nil =>
    intro _ s p hp hnl
    simp only [List.map_nil, List.nil_append]
    rw [matchToks_dollar s p hp hnl]
    rw [show specGlobMatch [] (s.drop p) = (s.drop p).isEmpty from rfl]
    by_cases hpe : p = s.length
    · subst hpe
      rw [List.drop_length]
      simp
    · have hne : s.drop p ≠ [] := by
        intro hh
        have := List.drop_eq_nil_iff.mp hh
        omega
      cases hd : s.drop p with
      | nil => exact absurd hd hne
      | cons a t => simp [hpe]
  | cons c g2 ih =>
    intro hlb s p hp hnl
    have hlb2 : '[' ∉ g2 := fun hh => hlb (List.mem_cons_of_mem _ hh)
    have hcne : c ≠ '[' := fun hh => hlb (by rw [hh]; simp)
    simp only [List.map_cons, List.cons_append]
    by_cases hcs : c = '*'
    · subst hcs
      rw [show globTok '*' = RTok.star (RAtom.cls true ['/']) from rfl]
      rw [specGlobMatch_star]
      apply Bool.coe_iff_coe.mp
      rw [matchToks_star_iff _ _ s p hp, specStarLoop_iff]
      constructor
      · rintro ⟨k, hk, hall, hrest⟩
        refine ⟨k, by rw [List.length_drop]; omega, ?_, ?_⟩
        · intro i hi
          rw [getD_drop]
          have h2 := hall i hi
          rw [atomMatch_slashCls] at h2
          simpa using h2
        · rw [List.drop_drop]
          rw [← ih hlb2 s (p + k) (by omega) hnl]
          exact hrest
      · rintro ⟨k, hk, hall, hrest⟩
        rw [List.length_drop] at hk
        refine ⟨k, by omega, ?_, ?_⟩
        · intro i hi
          rw [atomMatch_slashCls]
          have h2 := hall i hi
          rw [getD_drop] at h2
          simpa using h2
        · rw [ih hlb2 s (p + k) (by omega) hnl]
          rw [List.drop_drop] at hrest
          exact hrest
    · by_cases hcq : c = '?'
      · subst hcq
        rw [specGlobMatch_qm]
        by_cases hlt : p < s.length
        · rw [drop_eq_getD_cons s p hlt]
          show (decide (p < s.length)
              && atomMatch (RAtom.cls true ['/']) (s.getD p ' ')
              && matchToks (g2.map globTok ++ [RTok.dollar]) s (p + 1))
            = ((s.getD p ' ' != '/') && specGlobMatch g2 (s.drop (p + 1)))
          have hd : decide (p < s.length) = true := by simpa using hlt
          rw [hd, atomMatch_slashCls, Bool.true_and]
          rw [ih hlb2 s (p + 1) (by omega) hnl]
        · have hpe : p = s.length := by omega
          rw [show s.drop p = [] from by rw [hpe]; exact List.drop_length s]
          show (decide (p < s.length)
              && atomMatch (RAtom.cls true ['/']) (s.getD p ' ')
              && matchToks (g2.map globTok ++ [RTok.dollar]) s (p + 1)) = false
          have hd : decide (p < s.length) = false := by simpa using hlt
          rw [hd, Bool.false_and, Bool.false_and]
      · rw [specGlobMatch_lit c g2 _ hcs hcq hcne]
        rw [show globTok c = RTok.atom (RAtom.lit c) from by
          rw [globTok, if_neg hcs, if_neg hcq]]
        by_cases hlt : p < s.length
        · rw [drop_eq_getD_cons s p hlt]
          show (decide (p < s.length) && (s.getD p ' ' == c)
              && matchToks (g2.map globTok ++ [RTok.dollar]) s (p + 1))
            = ((s.getD p ' ' == c) && specGlobMatch g2 (s.drop (p + 1)))
          have hd : decide (p < s.length) = true := by simpa using hlt
          rw [hd, Bool.true_and]
          rw [ih hlb2 s (p + 1) (by omega) hnl]
        · have hpe : p = s.length := by omega
          rw [show s.drop p = [] from by rw [hpe]; exact List.drop_length s]
          show (decide (p < s.length) && (s.getD p ' ' == c)
              && matchToks (g2.map globTok ++ [RTok.dollar]) s (p + 1)) = false
          have hd : decide (p < s.length) = false := by simpa using hlt
          rw [hd, Bool.false_and, Bool.false_and]

theorem charBeq_eq_decide (x c : Char) : (x == c) = decide (x = c) := by
  by_cases h : x = c
  · simp [h]
  · have hb : (x == c) = false := by simpa using h
    simp [h, hb]

/-- The compiled matcher of a pattern without glob characters tests string
equality with the remaining candidate. -/
theorem matchToks_lits :
    ∀ (g : Str) (s : Str) (p : Nat), p ≤ s.length → s.getLast? ≠ some '\n' →
    matchToks (g.map (fun c => RTok.atom (RAtom.lit c)) ++ [RTok.dollar]) s p
      = decide (s.drop p = g) := by
  intro g
  induction g with
  | nil =>
    intro s p hp hnl
    simp only [List.map_nil, List.nil_append]
    rw [matchToks_dollar s p hp hnl]
    by_cases hpe : p = s.length
    · subst hpe
      rw [List.drop_length]
      simp
    · have hne : s.drop p ≠ [] := by
        intro hh
        have := List.drop_eq_nil_iff.mp hh
        omega
      simp [hpe, hne]
  | cons c g2 ih =>
    intro s p hp hnl
    simp only [List.map_cons, List.cons_append]
    rw [show matchToks (RTok.atom (RAtom.lit c)
          :: (g2.map (fun x => RTok.atom (RAtom.lit x)) ++ [RTok.dollar])) s p
        = (decide (p < s.length) && (s.getD p ' ' == c)
            && matchToks (g2.map (fun x => RTok.atom (RAtom.lit x))
                ++ [RTok.dollar]) s (p + 1)) from rfl]
    by_cases hlt : p < s.length
    · have hd : decide (p < s.length) = true := by simpa using hlt
      rw [hd, Bool.true_and, ih s (p + 1) (by omega) hnl]
      rw [drop_eq_getD_cons s p hlt]
      have hsplit : decide (s.getD p ' ' :: s.drop (p + 1) = c :: g2)
          = ((s.getD p ' ' == c) && decide (s.drop (p + 1) = g2)) := by
        by_cases hx : s.getD p ' ' = c
        · by_cases hy : s.drop (p + 1) = g2 <;> simp [hx, hy, charBeq_eq_decide]
        · have hb : (s.getD p ' ' == c) = false := by simpa using hx
          simp [hx, hb, charBeq_eq_decide]
      rw [hsplit]
    · have hpe : p = s.length := by omega
      have hd : decide (p < s.length) = false := by simpa using hlt
      rw [hd, Bool.false_and, Bool.false_and]
      rw [show s.drop p = [] from by rw [hpe]; exact List.drop_length s]
      simp

/-- Claim C6 is refuted as stated: the claimed glob semantics
(`specGlobMatch`, written from the specification's words) disagrees with the
compiled matcher.  The pattern `[*]` compiles (via `re.escape` and the four
substitutions) to `^[[^/]*]$`, which accepts the candidate `]` that the
claimed bracket-class semantics rejects; and for the metacharacter-free
pattern `a` the compiled predicate accepts `a\n` (Python `$` also matches
just before a final newline), which is not string equality. -/
theorem claim6_counterexample :
    (globToRe "[*]".toList).isSome = true ∧
    globMatch "[*]".toList "]".toList = true ∧
    specGlobMatch "[*]".toList "]".toList = false ∧
    containsGlobChar ['a'] = false ∧
    globMatch ['a'] "a\n".toList = true ∧
    ("a\n".toList ≠ (['a'] : Str)) := by
  exact ⟨by decide, by decide, by decide, by decide, by decide, by decide⟩

/-- Claim C6 (amended): for segment patterns containing no backslash and no
square bracket, and candidates not ending in a newline, the compiled matcher
accepts exactly the specification's glob semantics (`*` zero or more non-`/`
characters, `?` exactly one, others literal); for patterns in which the code
detects no glob metacharacter the predicate is string equality on such
candidates; and glob resolution of a pathspec with no glob metacharacters in
any segment is a direct tree lookup of the slash-normalized join. -/
theorem claim6_amended :
    (∀ g c : Str, '\\' ∉ g → '[' ∉ g → ']' ∉ g → c.getLast? ≠ some '\n' →
      globMatch g c = specGlobMatch g c) ∧
    (∀ g c : Str, containsGlobChar g = false → c.getLast? ≠ some '\n' →
      globMatch g c = decide (c = g)) ∧
    (∀ (d : ZDict) (path : Str) (fuel : Nat),
      (∀ s ∈ splitSlash path, containsGlobChar s = false) →
      globRecurse (fuel + 1) path d
        = (match dlookup d (pathJoin (splitSlash path)) with
           | some _ => Except.ok [pathJoin (splitSlash path)]
           | none => Except.ok [])) := by
  refine ⟨?_, ?_, ?_⟩
  · intro g c hbs hlb hrb hnl
    rw [globMatch, globToRe, globToReStr_clean g hbs hlb hrb,
      parseToks_globImage g hbs hlb hrb]
    show reSearch (RTok.caret :: (List.map globTok g ++ [RTok.dollar])) c
        = specGlobMatch g c
    rw [reSearch_caret]
    rw [matchToks_eq_spec g hlb c 0 (by omega) hnl]
    rw [List.drop_zero]
  · intro g c hglob hnl
    rw [globMatch, globToRe]
    rw [show globToReStr g = '^' :: (List.flatten (g.map escChar) ++ ['$']) from by
      rw [globToReStr, hglob, if_neg (by decide), reEscape]
      rfl]
    rw [parseToks_escape g]
    show reSearch
        (RTok.caret :: (g.map (fun c => RTok.atom (RAtom.lit c)) ++ [RTok.dollar])) c
      = decide (c = g)
    rw [reSearch_caret, matchToks_lits g c 0 (by omega) hnl, List.drop_zero]
  · intro d path fuel hseg
    have htw : (splitSlash path).takeWhile (fun s => !(containsGlobChar s))
        = splitSlash path :=
      List.takeWhile_eq_self_iff.mpr (fun x hx => by simp [hseg x hx])
    have ha1 : (anchorOf path).1 = pathJoin (splitSlash path) := by
      rw [anchorOf]
      simp only [htw]
      rw [List.take_length]
    have ha2 : (anchorOf path).2.1 = none := by
      rw [anchorOf]
      simp only [htw]
      exact List.get?_eq_none.mpr (le_refl _)
    cases hdl : dlookup d (pathJoin (splitSlash path)) with
    | none =>
      simp only [globRecurse]
      rw [ha1, hdl]
    | some pn =>
      simp only [globRecurse]
      rw [ha1, hdl, ha2]

theorem claim6_witness :
    globMatch "do*s".toList "docs".toList
        = specGlobMatch "do*s".toList "docs".toList ∧
    globMatch "a.b".toList "a.b".toList
        = decide (("a.b".toList : Str) = "a.b".toList) ∧
    globRecurse 3 ['a'] exampleDictA
      = (match dlookup exampleDictA (pathJoin (splitSlash ['a'])) with
         | some _ => Except.ok [pathJoin (splitSlash ['a'])]
         | none => Except.ok []) :=
  ⟨claim6_amended.1 ("do*s".toList) ("docs".toList)
      (by decide) (by decide) (by decide) (by decide),
   claim6_amended.2.1 ("a.b".toList) ("a.b".toList) (by decide) (by decide),
   claim6_amended.2.2 exampleDictA ['a'] 2 (by decide)⟩

/-! ### Path lemmas for the order-independence development -/

theorem splitSlash_no_slash : ∀ (p : Str), ∀ s ∈ splitSlash p, '/' ∉ s := by
  intro p
  induction p with
  | nil =>
    intro s hs
    simp [splitSlash] at hs
    simp [hs]
  | cons c rest ih =>
    intro s hs
    by_cases hc : c = '/'
    · rw [splitSlash, if_pos hc] at hs
      rcases List.mem_cons.mp hs with hs | hs
      · simp [hs]
      · exact ih s hs
    · rw [splitSlash, if_neg hc] at hs
      cases hsp : splitSlash rest with
      | nil => exact absurd hsp (splitSlash_ne_nil rest)
      | cons h t =>
        rw [hsp] at hs
        rcases List.mem_cons.mp hs with hs | hs
        · subst hs
          intro hmem
          rcases List.mem_cons.mp hmem with h1 | h1
          · exact hc h1.symm
          · exact ih h (by rw [hsp]; exact List.mem_cons_self _ _) h1
        · exact ih s (by rw [hsp]; exact List.mem_cons_of_mem _ hs)

theorem joinNE_splitSlash : ∀ (p : Str), joinNE (splitSlash p) = p := by
  intro p
  induction p with
  | nil => rfl
  | cons c rest ih =>
    by_cases hc : c = '/'
    · rw [splitSlash, if_pos hc]
      cases hsp : splitSlash rest with
      | nil => exact absurd hsp (splitSlash_ne_nil rest)
      | cons h t =>
        rw [hsp] at ih
        show [] ++ '/' :: joinNE (h :: t) = c :: rest
        rw [hc, ih]
        rfl
    · rw [splitSlash, if_neg hc]
      cases hsp : splitSlash rest with
      | nil => exact absurd hsp (splitSlash_ne_nil rest)
      | cons h t =>
        rw [hsp] at ih
        cases t with
        | nil =>
          show c :: h = c :: rest
          rw [show joinNE [h] = h from rfl] at ih
          rw [ih]
        | cons u t' =>
          show (c :: h) ++ '/' :: joinNE (u :: t') = c :: rest
          rw [show joinNE (h :: u :: t') = h ++ '/' :: joinNE (u :: t') from rfl]
            at ih
          simp only [List.cons_append]
          rw [ih]

theorem filter_ne_nil_id (xs : List Str) (h : ([] : Str) ∉ xs) :
    xs.filter (fun p => p ≠ []) = xs := by
  apply List.filter_eq_self.mpr
  intro a ha
  simp only [ne_eq, decide_eq_true_eq]
  intro he
  exact h (he ▸ ha)

theorem pathJoin_splitSlash (p : Str) (h : ([] : Str) ∉ splitSlash p) :
    pathJoin (splitSlash p) = p := by
  rw [pathJoin, filter_ne_nil_id _ h, joinNE_splitSlash]

theorem pathJoin_of_clean (xs : List Str) (h : ([] : Str) ∉ xs) :
    pathJoin xs = joinNE xs := by
  rw [pathJoin, filter_ne_nil_id _ h]

theorem splitSlash_of_no_slash : ∀ (x : Str), '/' ∉ x → splitSlash x = [x] := by
  intro x
  induction x with
  | nil => intro _; rfl
  | cons a x ih =>
    intro h
    have ha : a ≠ '/' := by
      intro he
      exact h (by rw [he]; exact List.mem_cons_self _ _)
    rw [splitSlash, if_neg ha, ih (fun hm => h (List.mem_cons_of_mem _ hm))]

theorem splitSlash_append_slash :
    ∀ (x r : Str), '/' ∉ x → splitSlash (x ++ '/' :: r) = x :: splitSlash r := by
  intro x
  induction x with
  | nil =>
    intro r _
    show splitSlash ('/' :: r) = [] :: splitSlash r
    rw [splitSlash, if_pos rfl]
  | cons a x ih =>
    intro r h
    have ha : a ≠ '/' := by
      intro he
      exact h (by rw [he]; exact List.mem_cons_self _ _)
    show splitSlash (a :: (x ++ '/' :: r)) = (a :: x) :: splitSlash r
    rw [splitSlash, if_neg ha, ih r (fun hm => h (List.mem_cons_of_mem _ hm))]

theorem splitSlash_pathJoin :
    ∀ (xs : List Str), xs ≠ [] → ([] : Str) ∉ xs → (∀ x ∈ xs, '/' ∉ x) →
    splitSlash (pathJoin xs) = xs := by
  intro xs
  induction xs with
  | nil => intro h; exact absurd rfl h
  | cons x t ih =>
    intro _ hne hsl
    rw [pathJoin_of_clean _ hne]
    cases t with
    | nil =>
      show splitSlash x = [x]
      exact splitSlash_of_no_slash x (hsl x (List.mem_cons_self _ _))
    | cons y t' =>
      show splitSlash (x ++ '/' :: joinNE (y :: t')) = x :: y :: t'
      rw [splitSlash_append_slash x _ (hsl x (List.mem_cons_self _ _))]
      have hne' : ([] : Str) ∉ (y :: t') := fun hm => hne (List.mem_cons_of_mem _ hm)
      have := ih (by simp) hne' (fun z hz => hsl z (List.mem_cons_of_mem _ hz))
      rw [pathJoin_of_clean _ hne'] at this
      rw [this]

theorem pathJoin_ne_nil (xs : List Str) (h0 : xs ≠ []) (h : ([] : Str) ∉ xs) :
    pathJoin xs ≠ [] := by
  rw [pathJoin_of_clean _ h]
  cases xs with
  | nil => exact absurd rfl h0
  | cons x t =>
    cases t with
    | nil =>
      show x ≠ []
      intro he
      exact h (by rw [← he]; exact List.mem_cons_self _ _)
    | cons y t' =>
      show x ++ '/' :: joinNE (y :: t') ≠ []
      simp

theorem pathJoin_inj (xs ys : List Str)
    (hx0 : ([] : Str) ∉ xs) (hx1 : ∀ x ∈ xs, '/' ∉ x)
    (hy0 : ([] : Str) ∉ ys) (hy1 : ∀ y ∈ ys, '/' ∉ y)
    (h : pathJoin xs = pathJoin ys) : xs = ys := by
  cases hxs : xs with
  | nil =>
    cases hys : ys with
    | nil => rfl
    | cons y t =>
      exfalso
      apply pathJoin_ne_nil ys (by rw [hys]; simp) hy0
      rw [← h, hxs]
      rfl
  | cons x t =>
    cases hys : ys with
    | nil =>
      exfalso
      apply pathJoin_ne_nil xs (by rw [hxs]; simp) hx0
      rw [h, hys]
      rfl
    | cons y s =>
      rw [← hxs, ← hys]
      rw [← splitSlash_pathJoin xs (by rw [hxs]; simp) hx0 hx1,
        ← splitSlash_pathJoin ys (by rw [hys]; simp) hy0 hy1, h]

theorem pathJoin_take_inj (xs : List Str)
    (h0 : ([] : Str) ∉ xs) (h1 : ∀ x ∈ xs, '/' ∉ x) (k j : Nat)
    (hk : k ≤ xs.length) (hj : j ≤ xs.length)
    (h : pathJoin (xs.take k) = pathJoin (xs.take j)) : k = j := by
  have hcl : ∀ m, ([] : Str) ∉ xs.take m ∧ ∀ x ∈ xs.take m, '/' ∉ x := by
    intro m
    exact ⟨fun hm => h0 (List.mem_of_mem_take hm),
      fun x hx => h1 x (List.mem_of_mem_take hx)⟩
  have := pathJoin_inj _ _ (hcl k).1 (hcl k).2 (hcl j).1 (hcl j).2 h
  have hlen := congrArg List.length this
  rw [List.length_take, List.length_take] at hlen
  omega

theorem takeWhile_all_append (p : Char → Bool) :
    ∀ (A : Str) (c : Char) (B : Str), (∀ a ∈ A, p a = true) → p c = false →
    (A ++ c :: B).takeWhile p = A ∧ (A ++ c :: B).dropWhile p = c :: B := by
  intro A
  induction A with
  | nil =>
    intro c B _ hc
    constructor
    · show List.takeWhile p (c :: B) = []
      rw [List.takeWhile_cons, hc]
      simp
    · show List.dropWhile p (c :: B) = c :: B
      rw [List.dropWhile_cons, hc]
      simp
  | cons a A ih =>
    intro c B hA hc
    have ha : p a = true := hA a (List.mem_cons_self _ _)
    have := ih c B (fun x hx => hA x (List.mem_cons_of_mem _ hx)) hc
    constructor
    · show List.takeWhile p (a :: (A ++ c :: B)) = a :: A
      rw [List.takeWhile_cons, ha]
      simp only [this.1]
      simp
    · show List.dropWhile p (a :: (A ++ c :: B)) = c :: B
      rw [List.dropWhile_cons, ha, this.2]
      simp

theorem rpartition_no_slash (x : Str) (h : '/' ∉ x) :
    rpartitionSlash x = ([], x) := by
  rw [rpartitionSlash]
  have h1 : x.reverse.takeWhile (fun c => decide (c ≠ '/')) = x.reverse := by
    apply List.takeWhile_eq_self_iff.mpr
    intro a ha
    simp only [decide_eq_true_eq, ne_eq]
    intro he
    exact h (he ▸ (List.mem_reverse.mp ha))
  have h2 : x.reverse.dropWhile (fun c => decide (c ≠ '/')) = [] := by
    apply List.dropWhile_eq_nil_iff.mpr
    intro a ha
    simp only [decide_eq_true_eq, ne_eq]
    intro he
    exact h (he ▸ (List.mem_reverse.mp ha))
  simp only [h1, h2, List.reverse_reverse]

theorem rpartition_append (a b : Str) (h : '/' ∉ b) :
    rpartitionSlash (a ++ '/' :: b) = (a, b) := by
  rw [rpartitionSlash]
  have hrev : (a ++ '/' :: b).reverse = b.reverse ++ '/' :: a.reverse := by
    simp
  have hall : ∀ x ∈ b.reverse, (fun c => decide (c ≠ '/')) x = true := by
    intro x hx
    simp only [decide_eq_true_eq, ne_eq]
    intro he
    exact h (he ▸ (List.mem_reverse.mp hx))
  have hc : (fun c => decide (c ≠ '/')) '/' = false := by simp
  have := takeWhile_all_append (fun c => decide (c ≠ '/')) b.reverse '/' a.reverse
    hall hc
  simp only [hrev, this.1, this.2, List.reverse_reverse]

theorem rpartition_pathJoin (xs : List Str)
    (h0 : xs ≠ []) (h1 : ([] : Str) ∉ xs) (h2 : ∀ x ∈ xs, '/' ∉ x) :
    rpartitionSlash (pathJoin xs) = (pathJoin xs.dropLast, xs.getLastD []) := by
  rcases List.eq_nil_or_concat xs with h | ⟨ys, x, rfl⟩
  · exact absurd h h0
  · simp only [List.concat_eq_append] at h0 h1 h2 ⊢
    rw [List.dropLast_concat, List.getLastD_concat]
    have hx : x ≠ [] := by
      intro he
      exact h1 (by rw [← he] at *; exact List.mem_append_right _ (by simp))
    rw [pathJoin_append_single ys x hx]
    by_cases hys : ys.filter (fun p => p ≠ []) = []
    · rw [if_pos hys]
      have hys' : ys = [] := by
        by_contra hne
        rcases List.exists_mem_of_ne_nil ys hne with ⟨y, hy⟩
        have hy' : y ≠ [] := by
          intro he
          exact h1 (List.mem_append_left _ (he ▸ hy))
        have : y ∈ ys.filter (fun p => p ≠ []) :=
          List.mem_filter.mpr ⟨hy, by simpa using hy'⟩
        rw [hys] at this
        simp at this
      rw [hys']
      exact rpartition_no_slash x (h2 x (List.mem_append_right _ (by simp)))
    · rw [if_neg hys]
      exact rpartition_append _ _ (h2 x (List.mem_append_right _ (by simp)))

theorem getLastD_concat_ne (xs : List Str) (h0 : xs ≠ []) :
    xs.getLastD [] = xs.getD (xs.length - 1) [] := by
  rcases List.eq_nil_or_concat xs with h | ⟨ys, x, rfl⟩
  · exact absurd h h0
  · simp only [List.concat_eq_append] at h0 ⊢
    rw [List.getLastD_concat]
    have : (ys ++ [x]).length - 1 = ys.length := by simp
    rw [this, List.getD]
    rw [List.get?_concat_length]
    rfl

theorem getLastD_ne_nil (xs : List Str) (h0 : xs ≠ []) (h1 : ([] : Str) ∉ xs) :
    xs.getLastD [] ≠ [] := by
  rcases List.eq_nil_or_concat xs with h | ⟨ys, x, rfl⟩
  · exact absurd h h0
  · simp only [List.concat_eq_append] at h0 h1 ⊢
    rw [List.getLastD_concat]
    intro he
    exact h1 (by rw [← he]; exact List.mem_append_right _ (by simp))

/-! ### Membership characterizations for the builder invariant -/

theorem segsOf_ne_nil (e : ZipInfo) : segsOf e ≠ [] := splitSlash_ne_nil _

theorem segsOf_no_slash (e : ZipInfo) : ∀ s ∈ segsOf e, '/' ∉ s :=
  splitSlash_no_slash _

theorem pathJoin_segsOf (e : ZipInfo) (h : ([] : Str) ∉ segsOf e) :
    pathJoin (segsOf e) = nPath e :=
  pathJoin_splitSlash _ h

theorem keyP_cons (e : ZipInfo) (P : List ZipInfo) (q : Str) :
    KeyP (e :: P) q ↔ KeyP P q ∨
      ∃ k, 0 < k ∧ k ≤ (segsOf e).length ∧ pathJoin ((segsOf e).take k) = q := by
  constructor
  · rintro ⟨x, hx, hk⟩
    rcases List.mem_cons.mp hx with h | h
    · exact Or.inr (h ▸ hk)
    · exact Or.inl ⟨x, h, hk⟩
  · rintro (⟨x, hx, hk⟩ | hk)
    · exact ⟨x, List.mem_cons_of_mem _ hx, hk⟩
    · exact ⟨e, List.mem_cons_self _ _, hk⟩

theorem childRel_cons (e : ZipInfo) (P : List ZipInfo) (q c : Str) :
    ChildRel (e :: P) q c ↔ ChildRel P q c ∨
      ∃ k, k < (segsOf e).length ∧ pathJoin ((segsOf e).take k) = q ∧
        (segsOf e).getD k [] = c := by
  constructor
  · rintro ⟨x, hx, hk⟩
    rcases List.mem_cons.mp hx with h | h
    · exact Or.inr (h ▸ hk)
    · exact Or.inl ⟨x, h, hk⟩
  · rintro (⟨x, hx, hk⟩ | hk)
    · exact ⟨x, List.mem_cons_of_mem _ hx, hk⟩
    · exact ⟨e, List.mem_cons_self _ _, hk⟩

theorem atP_cons (e : ZipInfo) (P : List ZipInfo) (q : Str) (x : ZipInfo) :
    AtP (e :: P) q x ↔ AtP P q x ∨ (x = e ∧ nPath e = q) := by
  constructor
  · rintro ⟨hx, hp⟩
    rcases List.mem_cons.mp hx with h | h
    · exact Or.inr ⟨h, h ▸ hp⟩
    · exact Or.inl ⟨h, hp⟩
  · rintro (⟨hx, hp⟩ | ⟨hx, hp⟩)
    · exact ⟨List.mem_cons_of_mem _ hx, hp⟩
    · exact ⟨by rw [hx]; exact List.mem_cons_self _ _, by rw [hx]; exact hp⟩

theorem keyP_congr (P P' : List ZipInfo) (h : ∀ x, x ∈ P ↔ x ∈ P') (q : Str) :
    KeyP P q ↔ KeyP P' q := by
  constructor <;> rintro ⟨x, hx, hk⟩
  · exact ⟨x, (h x).mp hx, hk⟩
  · exact ⟨x, (h x).mpr hx, hk⟩

theorem childRel_congr (P P' : List ZipInfo) (h : ∀ x, x ∈ P ↔ x ∈ P')
    (q c : Str) : ChildRel P q c ↔ ChildRel P' q c := by
  constructor <;> rintro ⟨x, hx, hk⟩
  · exact ⟨x, (h x).mp hx, hk⟩
  · exact ⟨x, (h x).mpr hx, hk⟩

theorem atP_congr (P P' : List ZipInfo) (h : ∀ x, x ∈ P ↔ x ∈ P')
    (q : Str) (e : ZipInfo) : AtP P q e ↔ AtP P' q e := by
  constructor <;> rintro ⟨hx, hp⟩
  · exact ⟨(h e).mp hx, hp⟩
  · exact ⟨(h e).mpr hx, hp⟩

theorem append_take_shift (pre : List Str) (c : Str) (rest : List Str)
    (i : Nat) : pre ++ (c :: rest).take (i + 1) = (pre ++ [c]) ++ rest.take i := by
  simp [List.take_succ_cons]

theorem mem_loopChain :
    ∀ (rest pre : List Str) (q : Str),
    q ∈ loopChain pre rest ↔
      ∃ i, i < rest.length ∧ q = pathJoin (pre ++ rest.take (i + 1)) := by
  intro rest
  induction rest with
  | nil => intro pre q; simp [loopChain]
  | cons c rest ih =>
    intro pre q
    show q ∈ pathJoin (pre ++ [c]) :: loopChain (pre ++ [c]) rest ↔ _
    rw [List.mem_cons, ih (pre ++ [c]) q]
    constructor
    · rintro (h | ⟨i, hi, hq⟩)
      · exact ⟨0, by simp, by simpa using h⟩
      · refine ⟨i + 1, by simp; omega, ?_⟩
        rw [hq, append_take_shift]
    · rintro ⟨i, hi, hq⟩
      cases i with
      | zero => exact Or.inl (by simpa using hq)
      | succ i =>
        refine Or.inr ⟨i, by simp at hi; omega, ?_⟩
        rw [hq, append_take_shift]

theorem chainEdge_iff (d : ZDict) :
    ∀ (rest pre : List Str) (q x : Str),
    ChainEdge d pre rest q x ↔
      ∃ i, i < rest.length ∧ q = pathJoin (pre ++ rest.take i) ∧
        x = rest.getD i [] ∧
        dlookup d (pathJoin (pre ++ rest.take (i + 1))) = none := by
  intro rest
  induction rest with
  | nil => intro pre q x; simp [ChainEdge]
  | cons c rest ih =>
    intro pre q x
    show ((q = pathJoin pre ∧ x = c ∧ dlookup d (pathJoin (pre ++ [c])) = none)
        ∨ ChainEdge d (pre ++ [c]) rest q x) ↔ _
    rw [ih (pre ++ [c]) q x]
    constructor
    · rintro (⟨h1, h2, h3⟩ | ⟨i, hi, h1, h2, h3⟩)
      · refine ⟨0, by simp, by simpa using h1, by simpa using h2, ?_⟩
        simpa using h3
      · refine ⟨i + 1, by simp; omega, ?_, by simpa using h2, ?_⟩
        · rw [h1, append_take_shift]
        · rw [append_take_shift]
          exact h3
    · rintro ⟨i, hi, h1, h2, h3⟩
      cases i with
      | zero =>
        exact Or.inl ⟨by simpa using h1, by simpa using h2, by simpa using h3⟩
      | succ i =>
        refine Or.inr ⟨i, by simp at hi; omega, ?_, by simpa using h2, ?_⟩
        · rw [h1, append_take_shift]
        · rw [← append_take_shift]
          exact h3

theorem chainEdge_congr (da db : ZDict) :
    ∀ (rest pre : List Str),
    (∀ p ∈ loopChain pre rest, dlookup da p = dlookup db p) →
    ∀ q x, (ChainEdge da pre rest q x ↔ ChainEdge db pre rest q x) := by
  intro rest
  induction rest with
  | nil => intro pre _ q x; simp [ChainEdge]
  | cons c rest ih =>
    intro pre h q x
    have hlc : loopChain pre (c :: rest)
        = pathJoin (pre ++ [c]) :: loopChain (pre ++ [c]) rest := rfl
    rw [hlc] at h
    have hhead := h _ (List.mem_cons_self _ _)
    have htail := ih (pre ++ [c]) (fun p hp => h p (List.mem_cons_of_mem _ hp))
    show ((q = pathJoin pre ∧ x = c ∧ dlookup da (pathJoin (pre ++ [c])) = none)
        ∨ ChainEdge da (pre ++ [c]) rest q x) ↔
      ((q = pathJoin pre ∧ x = c ∧ dlookup db (pathJoin (pre ++ [c])) = none)
        ∨ ChainEdge db (pre ++ [c]) rest q x)
    rw [hhead, htail q x]

theorem keyP_nil_false (P : List ZipInfo)
    (hP : ∀ x ∈ P, ([] : Str) ∉ segsOf x) : ¬ KeyP P [] := by
  rintro ⟨x, hx, k, hk0, hkl, hkj⟩
  have hne : (segsOf x).take k ≠ [] := by
    intro he
    rcases List.take_eq_nil_iff.mp he with h | h
    · omega
    · exact segsOf_ne_nil x h
  exact pathJoin_ne_nil _ hne
    (fun hm => hP x hx (List.mem_of_mem_take hm)) hkj

theorem keyP_align (P : List ZipInfo)
    (hP : ∀ x ∈ P, ([] : Str) ∉ segsOf x) (ys : List Str)
    (hys1 : ([] : Str) ∉ ys) (hys2 : ∀ y ∈ ys, '/' ∉ y)
    (hq : KeyP P (pathJoin ys)) :
    ∃ x, x ∈ P ∧ ∃ k, 0 < k ∧ k ≤ (segsOf x).length ∧ (segsOf x).take k = ys := by
  rcases hq with ⟨x, hx, k, hk0, hkl, hkj⟩
  refine ⟨x, hx, k, hk0, hkl, ?_⟩
  exact pathJoin_inj _ _
    (fun hm => hP x hx (List.mem_of_mem_take hm))
    (fun s hs => segsOf_no_slash x s (List.mem_of_mem_take hs))
    hys1 hys2 hkj

theorem dropLast_append_getLastD (xs : List Str) (h : xs ≠ []) :
    xs.dropLast ++ [xs.getLastD []] = xs := by
  rcases List.eq_nil_or_concat xs with rfl | ⟨ys, x, rfl⟩
  · exact absurd rfl h
  · simp only [List.concat_eq_append]
    rw [List.dropLast_concat, List.getLastD_concat]

theorem dropLast_eq_take_pred (xs : List Str) :
    xs.dropLast = xs.take (xs.length - 1) := by
  rcases List.eq_nil_or_concat xs with rfl | ⟨ys, x, rfl⟩
  · rfl
  · simp only [List.concat_eq_append]
    rw [List.dropLast_concat]
    have : (ys ++ [x]).length - 1 = ys.length := by simp
    rw [this, List.take_left]

theorem take_succ_getD (xs : List Str) (k : Nat) (hk : k < xs.length) :
    xs.take (k + 1) = xs.take k ++ [xs.getD k []] := by
  rw [List.take_succ]
  congr 1
  rw [List.getElem?_eq_getElem hk]
  rw [List.getD, List.get?_eq_getElem?, List.getElem?_eq_getElem hk]
  rfl

theorem mem_kidsAdd (ks : List Str) (c x : Str) :
    x ∈ kidsAdd ks c ↔ x ∈ ks ∨ x = c := by
  rw [kidsAdd]
  by_cases h : c ∈ ks
  · rw [if_pos h]
    constructor
    · exact Or.inl
    · rintro (hx | hx)
      · exact hx
      · exact hx ▸ h
  · rw [if_neg h]
    simp

theorem pathJoin_append_le (pre : List Str) :
    ∀ (xs : List Str), (∀ x ∈ xs, x ≠ []) →
    (pathJoin pre).length ≤ (pathJoin (pre ++ xs)).length := by
  intro xs
  induction xs generalizing pre with
  | nil => intro _; simp
  | cons x t ih =>
    intro h
    have h1 : (pathJoin pre).length < (pathJoin (pre ++ [x])).length :=
      pathJoin_length_lt pre x (h x (List.mem_cons_self _ _))
    have h2 := ih (pre ++ [x]) (fun y hy => h y (List.mem_cons_of_mem _ hy))
    calc (pathJoin pre).length ≤ (pathJoin (pre ++ [x])).length := le_of_lt h1
    _ ≤ (pathJoin ((pre ++ [x]) ++ t)).length := h2
    _ = (pathJoin (pre ++ x :: t)).length := by rw [List.append_assoc]; rfl

/-- The exact effect of one `create_node_and_ancestors` walk on the
dictionary: provided the node at the starting prefix is a directory and
every already-present node along the chain is a directory, the loop
succeeds; nodes off the chain are untouched, the chain positions become
exactly the new keys, an existing node keeps its zipinfo while a created
node receives the walking entry's zipinfo, and children change exactly by
the `ChainEdge` relation. -/
theorem cnaa_effect (zi : ZipInfo) :
    ∀ (rest pre : List Str) (d : ZDict),
    (∀ c ∈ rest, c ≠ []) →
    (∃ rn, dlookup d (pathJoin pre) = some rn ∧ (rn.children).isSome = true) →
    (∀ p ∈ loopChain pre rest, ∀ n, dlookup d p = some n →
        (n.children).isSome = true) →
    ∃ d', cnaaLoop zi d pre rest = Except.ok d' ∧
      (∀ q, q ≠ pathJoin pre → q ∉ loopChain pre rest →
          dlookup d' q = dlookup d q) ∧
      (∀ q, (dlookup d' q).isSome = true ↔
          ((dlookup d q).isSome = true ∨ q ∈ loopChain pre rest)) ∧
      (∀ q n', dlookup d' q = some n' → ∀ n, dlookup d q = some n →
          n'.zipinfo = n.zipinfo) ∧
      (∀ q n', dlookup d' q = some n' → dlookup d q = none →
          n'.zipinfo = some zi) ∧
      (∀ q n', dlookup d' q = some n' → ∀ cs', n'.children = some cs' → ∀ x,
          (x ∈ cs' ↔
            ((∃ n cs, dlookup d q = some n ∧ n.children = some cs ∧ x ∈ cs)
              ∨ ChainEdge d pre rest q x))) ∧
      (∀ q n', dlookup d' q = some n' → n'.children = none →
          ∃ n, dlookup d q = some n ∧ n.children = none) := by
  intro rest
  induction rest with
  | nil =>
    intro pre d _ _ _
    refine ⟨d, rfl, ?_, ?_, ?_, ?_, ?_, ?_⟩
    · intro q _ _; rfl
    · intro q; simp [loopChain]
    · intro q n' h n h'
      rw [h] at h'
      injection h' with h''
      rw [h'']
    · intro q n' h h'
      rw [h] at h'
      exact absurd h' (by simp)
    · intro q n' h cs' hcs x
      constructor
      · intro hx
        exact Or.inl ⟨n', cs', h, hcs, hx⟩
      · rintro (⟨n, cs, hn, hncs, hx⟩ | he)
        · rw [h] at hn
          injection hn with hn
          rw [hn] at hcs
          rw [hncs] at hcs
          injection hcs with hcs
          rw [hcs] at hx
          exact hx
        · exact absurd he (by simp [ChainEdge])
    · intro q n' h hn
      exact ⟨n', h, hn⟩
  | cons c rest ih =>
    intro pre d hres hpn hdirs
    have hc : c ≠ [] := hres c (List.mem_cons_self _ _)
    have hlc : loopChain pre (c :: rest)
        = pathJoin (pre ++ [c]) :: loopChain (pre ++ [c]) rest := rfl
    have hmene : pathJoin (pre ++ [c]) ≠ pathJoin pre := by
      intro he
      have := pathJoin_length_lt pre c hc
      rw [he] at this
      omega
    have htail_len : ∀ p ∈ loopChain (pre ++ [c]) rest,
        (pathJoin (pre ++ [c])).length < p.length :=
      loopChain_length_gt rest (pre ++ [c])
        (fun x hx => hres x (List.mem_cons_of_mem _ hx))
    have hme_tail : pathJoin (pre ++ [c]) ∉ loopChain (pre ++ [c]) rest := by
      intro hm
      have := htail_len _ hm
      omega
    have hpre_tail : pathJoin pre ∉ loopChain (pre ++ [c]) rest := by
      intro hm
      have h1 := htail_len _ hm
      have h2 := pathJoin_length_lt pre c hc
      omega
    cases hme : dlookup d (pathJoin (pre ++ [c])) with
    | some mn =>
      have hstep : cnaaLoop zi d pre (c :: rest)
          = cnaaLoop zi d (pre ++ [c]) rest := by
        simp only [cnaaLoop, hme]
      have hpn' : ∃ rn, dlookup d (pathJoin (pre ++ [c])) = some rn ∧
          (rn.children).isSome = true :=
        ⟨mn, hme, hdirs _ (by rw [hlc]; exact List.mem_cons_self _ _) mn hme⟩
      have hdirs' : ∀ p ∈ loopChain (pre ++ [c]) rest, ∀ n,
          dlookup d p = some n → (n.children).isSome = true := by
        intro p hp n hn
        exact hdirs p (by rw [hlc]; exact List.mem_cons_of_mem _ hp) n hn
      rcases ih (pre ++ [c]) d
          (fun x hx => hres x (List.mem_cons_of_mem _ hx)) hpn' hdirs' with
        ⟨d', hok, e1, e2, e3, e4, e5, e6⟩
      refine ⟨d', by rw [hstep]; exact hok, ?_, ?_, e3, e4, ?_, e6⟩
      · intro q hq hqm
        rw [hlc] at hqm
        exact e1 q (fun he => hqm (he ▸ List.mem_cons_self _ _))
          (fun hm => hqm (List.mem_cons_of_mem _ hm))
      · intro q
        rw [hlc, List.mem_cons, e2 q]
        constructor
        · rintro (h | h)
          · exact Or.inl h
          · exact Or.inr (Or.inr h)
        · rintro (h | h | h)
          · exact Or.inl h
          · rw [h, hme]; exact Or.inl (by simp)
          · exact Or.inr h
      · intro q n' hq cs' hcs x
        rw [e5 q n' hq cs' hcs x]
        have hce : ChainEdge d pre (c :: rest) q x ↔
            ChainEdge d (pre ++ [c]) rest q x := by
          show ((q = pathJoin pre ∧ x = c ∧
              dlookup d (pathJoin (pre ++ [c])) = none)
            ∨ ChainEdge d (pre ++ [c]) rest q x) ↔ _
          rw [hme]
          simp
        rw [hce]
    | none =>
      rcases hpn with ⟨pn, hpn0, hpnc⟩
      rcases Option.isSome_iff_exists.mp hpnc with ⟨kids, hpc⟩
      set d1 := dictSet d (pathJoin pre) ⟨pn.zipinfo, some (kidsAdd kids c)⟩
        with hd1
      set d2 := dictSet d1 (pathJoin (pre ++ [c])) ⟨some zi, some []⟩ with hd2
      have hstep : cnaaLoop zi d pre (c :: rest)
          = cnaaLoop zi d2 (pre ++ [c]) rest := by
        simp only [cnaaLoop, hme, hpn0, hpc]
      have l2me : dlookup d2 (pathJoin (pre ++ [c])) = some ⟨some zi, some []⟩ :=
        dlookup_dictSet_self _ _ _
      have l2pre : dlookup d2 (pathJoin pre)
          = some ⟨pn.zipinfo, some (kidsAdd kids c)⟩ := by
        rw [hd2, dlookup_dictSet_ne _ _ _ _ hmene, hd1, dlookup_dictSet_self]
      have l2other : ∀ q, q ≠ pathJoin (pre ++ [c]) → q ≠ pathJoin pre →
          dlookup d2 q = dlookup d q := by
        intro q h1 h2
        rw [hd2, dlookup_dictSet_ne _ _ _ _ (Ne.symm h1), hd1,
          dlookup_dictSet_ne _ _ _ _ (Ne.symm h2)]
      have hpn' : ∃ rn, dlookup d2 (pathJoin (pre ++ [c])) = some rn ∧
          (rn.children).isSome = true := ⟨_, l2me, by simp⟩
      have hdirs' : ∀ p ∈ loopChain (pre ++ [c]) rest, ∀ n,
          dlookup d2 p = some n → (n.children).isSome = true := by
        intro p hp n hn
        have hp1 : p ≠ pathJoin (pre ++ [c]) := by
          intro he
          exact hme_tail (he ▸ hp)
        have hp2 : p ≠ pathJoin pre := by
          intro he
          exact hpre_tail (he ▸ hp)
        rw [l2other p hp1 hp2] at hn
        exact hdirs p (by rw [hlc]; exact List.mem_cons_of_mem _ hp) n hn
      rcases ih (pre ++ [c]) d2
          (fun x hx => hres x (List.mem_cons_of_mem _ hx)) hpn' hdirs' with
        ⟨d', hok, e1, e2, e3, e4, e5, e6⟩
      have hcongr : ∀ q x, ChainEdge d2 (pre ++ [c]) rest q x ↔
          ChainEdge d (pre ++ [c]) rest q x := by
        apply chainEdge_congr
        intro p hp
        have hp1 : p ≠ pathJoin (pre ++ [c]) := fun he => hme_tail (he ▸ hp)
        have hp2 : p ≠ pathJoin pre := fun he => hpre_tail (he ▸ hp)
        exact l2other p hp1 hp2
      refine ⟨d', by rw [hstep]; exact hok, ?_, ?_, ?_, ?_, ?_, ?_⟩
      · -- untouched lookups
        intro q hq hqm
        rw [hlc] at hqm
        have hq1 : q ≠ pathJoin (pre ++ [c]) :=
          fun he => hqm (he ▸ List.mem_cons_self _ _)
        have hq2 : q ∉ loopChain (pre ++ [c]) rest :=
          fun hm => hqm (List.mem_cons_of_mem _ hm)
        rw [e1 q hq1 hq2, l2other q hq1 hq]
      · -- presence
        intro q
        rw [hlc, List.mem_cons, e2 q]
        by_cases hq1 : q = pathJoin (pre ++ [c])
        · subst hq1
          rw [l2me]
          simp
        · by_cases hq2 : q = pathJoin pre
          · subst hq2
            rw [l2pre, hpn0]
            simp
          · rw [l2other q hq1 hq2]
            constructor
            · rintro (h | h)
              · exact Or.inl h
              · exact Or.inr (Or.inr h)
            · rintro (h | h | h)
              · exact Or.inl h
              · exact absurd h hq1
              · exact Or.inr h
      · -- zipinfo of nodes present in d
        intro q n' hq n hn
        by_cases hq1 : q = pathJoin (pre ++ [c])
        · subst hq1
          rw [hme] at hn
          exact absurd hn (by simp)
        · by_cases hq2 : q = pathJoin pre
          · subst hq2
            have h5 := e3 _ n' hq _ l2pre
            rw [hpn0] at hn
            injection hn with hn
            rw [← hn]
            exact h5
          · exact e3 q n' hq n (by rw [l2other q hq1 hq2]; exact hn)
      · -- zipinfo of created nodes
        intro q n' hq hn
        by_cases hq1 : q = pathJoin (pre ++ [c])
        · subst hq1
          exact e3 _ n' hq _ l2me
        · by_cases hq2 : q = pathJoin pre
          · subst hq2
            rw [hpn0] at hn
            exact absurd hn (by simp)
          · exact e4 q n' hq (by rw [l2other q hq1 hq2]; exact hn)
      · -- children
        intro q n' hq cs' hcs x
        rw [e5 q n' hq cs' hcs x, hcongr q x]
        have hhead : ChainEdge d pre (c :: rest) q x ↔
            ((q = pathJoin pre ∧ x = c)
              ∨ ChainEdge d (pre ++ [c]) rest q x) := by
          show ((q = pathJoin pre ∧ x = c ∧
              dlookup d (pathJoin (pre ++ [c])) = none)
            ∨ ChainEdge d (pre ++ [c]) rest q x) ↔ _
          rw [hme]
          simp
        rw [hhead]
        by_cases hq1 : q = pathJoin (pre ++ [c])
        · subst hq1
          simp [l2me, hme, hmene]
        · by_cases hq2 : q = pathJoin pre
          · subst hq2
            rw [l2pre, hpn0]
            constructor
            · rintro (⟨n, cs, hn, hcs2, hx⟩ | hce)
              · injection hn with hn
                rw [← hn] at hcs2
                have hcs3 : some (kidsAdd kids c) = some cs := hcs2
                injection hcs3 with hcs3
                rw [← hcs3, mem_kidsAdd] at hx
                rcases hx with hx | hx
                · exact Or.inl ⟨pn, kids, rfl, hpc, hx⟩
                · exact Or.inr (Or.inl ⟨rfl, hx⟩)
              · exact Or.inr (Or.inr hce)
            · rintro (⟨n, cs, hn, hcs2, hx⟩ | ⟨_, hx⟩ | hce)
              · injection hn with hn
                rw [← hn] at hcs2
                rw [hpc] at hcs2
                injection hcs2 with hcs2
                refine Or.inl ⟨⟨pn.zipinfo, some (kidsAdd kids c)⟩,
                  kidsAdd kids c, rfl, rfl, ?_⟩
                rw [mem_kidsAdd]
                rw [← hcs2] at hx
                exact Or.inl hx
              · refine Or.inl ⟨⟨pn.zipinfo, some (kidsAdd kids c)⟩,
                  kidsAdd kids c, rfl, rfl, ?_⟩
                rw [mem_kidsAdd]
                exact Or.inr hx
              · exact Or.inr hce
          · rw [l2other q hq1 hq2]
            constructor
            · rintro (hex | hce)
              · exact Or.inl hex
              · exact Or.inr (Or.inr hce)
            · rintro (hex | ⟨hq, _⟩ | hce)
              · exact Or.inl hex
              · exact absurd hq hq2
              · exact Or.inr hce
      · -- files stay files
        intro q n' hq hn
        by_cases hq1 : q = pathJoin (pre ++ [c])
        · subst hq1
          rcases e6 _ n' hq hn with ⟨m, hm, hmc⟩
          rw [l2me] at hm
          injection hm with hm
          rw [← hm] at hmc
          exact absurd hmc (by simp)
        · by_cases hq2 : q = pathJoin pre
          · subst hq2
            rcases e6 _ n' hq hn with ⟨m, hm, hmc⟩
            rw [l2pre] at hm
            injection hm with hm
            rw [← hm] at hmc
            exact absurd hmc (by simp)
          · rcases e6 q n' hq hn with ⟨m, hm, hmc⟩
            rw [l2other q hq1 hq2] at hm
            exact ⟨m, hm, hmc⟩
theorem take_prefix_of_le (xs : List Str) (k m : Nat) (h : k ≤ m) :
    (xs.take m).take k = xs.take k := by
  rw [List.take_take, Nat.min_eq_left h]

theorem getD_take_lt (xs : List Str) (k j : Nat) (hj : j < k) :
    (xs.take k).getD j [] = xs.getD j [] := by
  rw [List.getD, List.getD, List.get?_take hj]

theorem take_append_left (l1 l2 : List Str) (k : Nat) (h : k ≤ l1.length) :
    (l1 ++ l2).take k = l1.take k := by
  rw [List.take_append_eq_append_take]
  have h0 : k - l1.length = 0 := by omega
  rw [h0]
  simp

theorem getD_append_left (l1 l2 : List Str) (j : Nat) (h : j < l1.length) :
    (l1 ++ l2).getD j [] = l1.getD j [] := by
  rw [List.getD, List.getD, List.get?_append h]

theorem keyP_take_align (P : List ZipInfo)
    (hPc : ∀ x ∈ P, ([] : Str) ∉ segsOf x) (e : ZipInfo)
    (hec : ([] : Str) ∉ segsOf e) (m : Nat)
    (hm : m ≤ (segsOf e).length)
    (hkp : KeyP P (pathJoin ((segsOf e).take m))) :
    ∃ x, x ∈ P ∧ m ≤ (segsOf x).length ∧
      (segsOf x).take m = (segsOf e).take m := by
  rcases keyP_align P hPc ((segsOf e).take m)
      (fun hmem => hec (List.mem_of_mem_take hmem))
      (fun y hy => segsOf_no_slash e y (List.mem_of_mem_take hy)) hkp with
    ⟨x, hx, k, hk0, hkl, hkeq⟩
  have hklen := congrArg List.length hkeq
  rw [List.length_take, List.length_take] at hklen
  have hk : k = m := by omega
  exact ⟨x, hx, by omega, hk ▸ hkeq⟩

theorem childRel_of_align (P : List ZipInfo) (x : ZipInfo) (hx : x ∈ P)
    (e : ZipInfo) (m j : Nat) (hm : m ≤ (segsOf x).length)
    (halign : (segsOf x).take m = (segsOf e).take m)
    (hj : j < m) :
    ChildRel P (pathJoin ((segsOf e).take j)) ((segsOf e).getD j []) := by
  refine ⟨x, hx, j, by omega, ?_, ?_⟩
  · rw [← take_prefix_of_le (segsOf x) j m (le_of_lt hj), halign,
      take_prefix_of_le _ j m (le_of_lt hj)]
  · rw [← getD_take_lt (segsOf x) m j hj, halign, getD_take_lt _ m j hj]

theorem childRel_below (P : List ZipInfo)
    (hPc : ∀ x ∈ P, ([] : Str) ∉ segsOf x) (e : ZipInfo)
    (hec : ([] : Str) ∉ segsOf e) (m j : Nat)
    (hm : m ≤ (segsOf e).length) (hj : j < m)
    (hkp : KeyP P (pathJoin ((segsOf e).take m))) :
    ChildRel P (pathJoin ((segsOf e).take j)) ((segsOf e).getD j []) := by
  rcases keyP_take_align P hPc e hec m hm hkp with ⟨x, hx, hxl, hal⟩
  exact childRel_of_align P x hx e m j hxl hal hj

theorem keyP_succ_of_childRel (P : List ZipInfo)
    (hPc : ∀ x ∈ P, ([] : Str) ∉ segsOf x) (e : ZipInfo)
    (hec : ([] : Str) ∉ segsOf e) (m : Nat) (hm : m < (segsOf e).length)
    (hcr : ChildRel P (pathJoin ((segsOf e).take m)) ((segsOf e).getD m [])) :
    KeyP P (pathJoin ((segsOf e).take (m + 1))) := by
  rcases hcr with ⟨x, hx, k, hklt, hkpath, hkget⟩
  have heq : (segsOf x).take k = (segsOf e).take m :=
    pathJoin_inj _ _
      (fun hmem => hPc x hx (List.mem_of_mem_take hmem))
      (fun y hy => segsOf_no_slash x y (List.mem_of_mem_take hy))
      (fun hmem => hec (List.mem_of_mem_take hmem))
      (fun y hy => segsOf_no_slash e y (List.mem_of_mem_take hy)) hkpath
  have hklen := congrArg List.length heq
  rw [List.length_take, List.length_take] at hklen
  have hk : k = m := by omega
  subst hk
  have hsucc : (segsOf x).take (k + 1) = (segsOf e).take (k + 1) := by
    rw [take_succ_getD _ _ hklt, take_succ_getD _ _ hm, heq, hkget]
  exact ⟨x, hx, k + 1, by omega, by omega, by rw [hsucc]⟩

theorem old_children_iff (d : ZDict) (q : Str) (n : FileDirNode)
    (cs : List Str) (hn : dlookup d q = some n) (hcs : n.children = some cs)
    (x : Str) :
    (∃ m ds, dlookup d q = some m ∧ m.children = some ds ∧ x ∈ ds) ↔ x ∈ cs := by
  constructor
  · rintro ⟨m, ds, hm, hds, hx⟩
    rw [hn] at hm
    injection hm with hm
    rw [← hm] at hds
    rw [hcs] at hds
    injection hds with hds
    rw [← hds] at hx
    exact hx
  · intro hx
    exact ⟨n, cs, hn, hcs, hx⟩

theorem old_children_none (d : ZDict) (q : Str) (hn : dlookup d q = none)
    (x : Str) :
    ¬ (∃ m ds, dlookup d q = some m ∧ m.children = some ds ∧ x ∈ ds) := by
  rintro ⟨m, ds, hm, _, _⟩
  rw [hn] at hm
  exact absurd hm (by simp)

theorem old_children_file (d : ZDict) (q : Str) (n : FileDirNode)
    (hn : dlookup d q = some n) (hc : n.children = none) (x : Str) :
    ¬ (∃ m ds, dlookup d q = some m ∧ m.children = some ds ∧ x ∈ ds) := by
  rintro ⟨m, ds, hm, hds, _⟩
  rw [hn] at hm
  injection hm with hm
  rw [← hm] at hds
  rw [hc] at hds
  exact absurd hds (by simp)

theorem childRel_keyP (P : List ZipInfo) (q c : Str) (hq : q ≠ ([] : Str))
    (h : ChildRel P q c) : KeyP P q := by
  rcases h with ⟨x, hx, k, hk, hkq, _⟩
  rcases Nat.eq_zero_or_pos k with rfl | hk0
  · exfalso
    have h0 : ([] : Str) = q := by
      rw [← hkq, List.take_zero]
      rfl
    exact hq h0.symm
  · exact ⟨x, hx, k, hk0, le_of_lt hk, hkq⟩

theorem keyP_of_atP (P : List ZipInfo) (q : Str) (x : ZipInfo)
    (hx : AtP P q x) (hxc : ([] : Str) ∉ segsOf x) : KeyP P q := by
  refine ⟨x, hx.1, (segsOf x).length,
    List.length_pos.mpr (segsOf_ne_nil x), le_refl _, ?_⟩
  rw [List.take_length, pathJoin_segsOf x hxc, hx.2]

theorem keyP_take_mono (P : List ZipInfo)
    (hPc : ∀ x ∈ P, ([] : Str) ∉ segsOf x) (e : ZipInfo)
    (hec : ([] : Str) ∉ segsOf e) (i j : Nat) (hj0 : 0 < j) (hij : j ≤ i)
    (hi : i ≤ (segsOf e).length)
    (h : KeyP P (pathJoin ((segsOf e).take i))) :
    KeyP P (pathJoin ((segsOf e).take j)) := by
  rcases keyP_take_align P hPc e hec i hi h with ⟨x, hx, hxl, hal⟩
  refine ⟨x, hx, j, hj0, by omega, ?_⟩
  rw [← take_prefix_of_le (segsOf x) j i hij, hal, take_prefix_of_le _ j i hij]

/-- Re-establishing the builder invariant after the final two writes of one
`get_zipinfo` iteration.  `d1` is the dictionary after the parent of the new
entry `e` has been ensured (hypotheses `hG1`-`hG6` describe `d1` relative to
the pre-step dictionary `d`), `pn1`/`kids1` the parent node, and `ch` the
children value the step writes at the entry's own path. -/
theorem buildInv_insert (P : List ZipInfo) (d d1 : ZDict) (e : ZipInfo)
    (pn1 : FileDirNode) (kids1 : List Str) (ch : Option (List Str))
    (hInv : BuildInv P d)
    (hPc : ∀ x ∈ P, ([] : Str) ∉ segsOf x)
    (hec : ([] : Str) ∉ segsOf e)
    (hdist : ∀ x ∈ P, nPath x ≠ nPath e)
    (hnf : ∀ x ∈ P, x.isDir = false → ∀ k, 0 < k → k < (segsOf e).length →
        nPath x ≠ pathJoin ((segsOf e).take k))
    (hG1 : dlookup d1 (pathJoin ((segsOf e).take ((segsOf e).length - 1)))
        = some pn1)
    (hG1c : pn1.children = some kids1)
    (hG2 : ∀ q, (dlookup d1 q).isSome = true ↔
        ((dlookup d q).isSome = true ∨
          ∃ i, 0 < i ∧ i < (segsOf e).length ∧
            q = pathJoin ((segsOf e).take i)))
    (hG3 : ∀ q n1, dlookup d1 q = some n1 →
        ((∀ n, dlookup d q = some n → n1.zipinfo = n.zipinfo) ∧
         (dlookup d q = none → n1.zipinfo = some e)))
    (hG4 : ∀ q n1 cs1, dlookup d1 q = some n1 → n1.children = some cs1 →
        ∀ x, x ∈ cs1 ↔
          ((∃ n cs, dlookup d q = some n ∧ n.children = some cs ∧ x ∈ cs) ∨
           (∃ i, i < (segsOf e).length - 1 ∧
             q = pathJoin ((segsOf e).take i) ∧
             x = (segsOf e).getD i [] ∧
             dlookup d (pathJoin ((segsOf e).take (i + 1))) = none)))
    (hG5 : ∀ q n1, dlookup d1 q = some n1 → n1.children = none →
        ∃ n, dlookup d q = some n ∧ n.children = none)
    (hG6 : ∀ q, q ≠ ([] : Str) →
        (∀ i, 0 < i → i < (segsOf e).length →
          q ≠ pathJoin ((segsOf e).take i)) →
        dlookup d1 q = dlookup d q)
    (hch1 : ch = none ↔ e.isDir = false)
    (hch2 : ∀ cs, ch = some cs → ∀ x, x ∈ cs ↔ ChildRel P (nPath e) x) :
    BuildInv (e :: P)
      (dictSet
        (dictSet d1 (pathJoin ((segsOf e).take ((segsOf e).length - 1)))
          ⟨pn1.zipinfo,
            some (kidsAdd kids1 ((segsOf e).getD ((segsOf e).length - 1) []))⟩)
        (nPath e) ⟨some e, ch⟩) := by
  have hLpos : 0 < (segsOf e).length :=
    List.length_pos.mpr (segsOf_ne_nil e)
  have hclean_take : ∀ i, ([] : Str) ∉ (segsOf e).take i :=
    fun i hm => hec (List.mem_of_mem_take hm)
  have hslash_take : ∀ i, ∀ y ∈ (segsOf e).take i, '/' ∉ y :=
    fun i y hy => segsOf_no_slash e y (List.mem_of_mem_take hy)
  have hp_eq : pathJoin ((segsOf e).take (segsOf e).length) = nPath e := by
    rw [List.take_length, pathJoin_segsOf e hec]
  have hpne : nPath e ≠ [] := by
    rw [← hp_eq]
    apply pathJoin_ne_nil
    · rw [List.take_length]; exact segsOf_ne_nil e
    · exact hclean_take _
  have hprefix_ne_nil : ∀ i, 0 < i → pathJoin ((segsOf e).take i) ≠ [] := by
    intro i hi
    apply pathJoin_ne_nil
    · intro he
      rcases List.take_eq_nil_iff.mp he with h | h
      · omega
      · exact segsOf_ne_nil e h
    · exact hclean_take _
  have inj_take : ∀ i j, i ≤ (segsOf e).length → j ≤ (segsOf e).length →
      pathJoin ((segsOf e).take i) = pathJoin ((segsOf e).take j) → i = j :=
    fun i j hi hj h =>
      pathJoin_take_inj (segsOf e) hec (segsOf_no_slash e) i j hi hj h
  have hpar_ne_p : pathJoin ((segsOf e).take ((segsOf e).length - 1))
      ≠ nPath e := by
    intro he
    rw [← hp_eq] at he
    have := inj_take ((segsOf e).length - 1) (segsOf e).length
      (by omega) (le_refl _) he
    omega
  have hprefix_ne_p : ∀ i, i < (segsOf e).length →
      pathJoin ((segsOf e).take i) ≠ nPath e := by
    intro i hi he
    rw [← hp_eq] at he
    have := inj_take i (segsOf e).length (by omega) (le_refl _) he
    omega
  -- the new entry's own contribution to ChildRel / KeyP
  have contrib_iff : ∀ q c,
      (∃ k, k < (segsOf e).length ∧ pathJoin ((segsOf e).take k) = q ∧
        (segsOf e).getD k [] = c) ↔
      (∃ k, k < (segsOf e).length ∧ pathJoin ((segsOf e).take k) = q ∧
        (segsOf e).getD k [] = c) := fun _ _ => Iff.rfl
  -- lookups in the final dictionary
  have hfin_p : dlookup
      (dictSet
        (dictSet d1 (pathJoin ((segsOf e).take ((segsOf e).length - 1)))
          ⟨pn1.zipinfo,
            some (kidsAdd kids1 ((segsOf e).getD ((segsOf e).length - 1) []))⟩)
        (nPath e) ⟨some e, ch⟩) (nPath e) = some ⟨some e, ch⟩ :=
    dlookup_dictSet_self _ _ _
  have hfin_par : dlookup
      (dictSet
        (dictSet d1 (pathJoin ((segsOf e).take ((segsOf e).length - 1)))
          ⟨pn1.zipinfo,
            some (kidsAdd kids1 ((segsOf e).getD ((segsOf e).length - 1) []))⟩)
        (nPath e) ⟨some e, ch⟩)
      (pathJoin ((segsOf e).take ((segsOf e).length - 1)))
      = some ⟨pn1.zipinfo,
          some (kidsAdd kids1 ((segsOf e).getD ((segsOf e).length - 1) []))⟩ := by
    rw [dlookup_dictSet_ne _ _ _ _ (fun h => hpar_ne_p h.symm),
      dlookup_dictSet_self]
  have hfin_other : ∀ q, q ≠ nPath e →
      q ≠ pathJoin ((segsOf e).take ((segsOf e).length - 1)) →
      dlookup
        (dictSet
          (dictSet d1 (pathJoin ((segsOf e).take ((segsOf e).length - 1)))
            ⟨pn1.zipinfo,
              some (kidsAdd kids1 ((segsOf e).getD ((segsOf e).length - 1) []))⟩)
          (nPath e) ⟨some e, ch⟩) q = dlookup d1 q := by
    intro q h1 h2
    rw [dlookup_dictSet_ne _ _ _ _ (Ne.symm h1),
      dlookup_dictSet_ne _ _ _ _ (Ne.symm h2)]
  -- a present first prefix yields the root edge already
  have hroot_edge : (dlookup d (pathJoin ((segsOf e).take 1))).isSome = true →
      ChildRel P [] ((segsOf e).getD 0 []) := by
    intro hpre
    have hkp : KeyP P (pathJoin ((segsOf e).take 1)) :=
      ((hInv.keyset _ (hprefix_ne_nil 1 (by omega))).mp hpre)
    have := childRel_below P hPc e hec 1 0 (by omega) (by omega) hkp
    simpa using this
  refine ⟨?_, ?_, ?_, ?_, ?_⟩
  · -- the root clause
    rcases hInv.root with ⟨rk, hrk, hrkiff⟩
    by_cases hL1 : (segsOf e).length = 1
    · have hparnil : pathJoin ((segsOf e).take ((segsOf e).length - 1))
          = ([] : Str) := by
        rw [hL1]
        rfl
      have hd1root : dlookup d1 ([] : Str) = some pn1 := by
        rw [← hparnil]
        exact hG1
      have hzip : pn1.zipinfo = none := by
        have h3 := (hG3 [] pn1 hd1root).1 _ hrk
        simpa using h3
      refine ⟨kidsAdd kids1 ((segsOf e).getD ((segsOf e).length - 1) []),
        ?_, ?_⟩
      · rw [hparnil]
        rw [dlookup_dictSet_ne _ _ _ _ hpne, dlookup_dictSet_self, hzip]
      · intro c
        rw [mem_kidsAdd]
        have hk1 := hG4 [] pn1 kids1 hd1root hG1c c
        have hold := old_children_iff d [] ⟨none, some rk⟩ rk hrk rfl c
        have hnoedge : ¬ (∃ i, i < (segsOf e).length - 1 ∧
            ([] : Str) = pathJoin ((segsOf e).take i) ∧
            c = (segsOf e).getD i [] ∧
            dlookup d (pathJoin ((segsOf e).take (i + 1))) = none) := by
          rintro ⟨i, hi, _, _, _⟩
          omega
        rw [childRel_cons]
        constructor
        · rintro (hc | hc)
          · rcases hk1.mp hc with hcc | hcc
            · exact Or.inl ((hrkiff c).mp (hold.mp hcc))
            · exact absurd hcc hnoedge
          · refine Or.inr ⟨0, by omega, by rw [List.take_zero]; rfl, ?_⟩
            rw [hL1, Nat.sub_self] at hc
            exact hc.symm
        · rintro (hc | ⟨k, hk, hkq, hkc⟩)
          · exact Or.inl (hk1.mpr (Or.inl (hold.mpr ((hrkiff c).mpr hc))))
          · have hk0 : k = 0 := by
              by_contra hne
              exact hprefix_ne_nil k (by omega) hkq
            subst hk0
            refine Or.inr ?_
            rw [hL1, Nat.sub_self]
            exact hkc.symm
    · -- length at least two: the root is untouched by the final writes
      have hL2 : 2 ≤ (segsOf e).length := by omega
      have hparne : pathJoin ((segsOf e).take ((segsOf e).length - 1))
          ≠ ([] : Str) := hprefix_ne_nil _ (by omega)
      have hother := hfin_other [] (Ne.symm hpne) (Ne.symm hparne)
      have hpres : (dlookup d1 ([] : Str)).isSome = true := by
        rw [hG2]
        rw [hrk]
        exact Or.inl (by simp)
      rcases Option.isSome_iff_exists.mp hpres with ⟨n1, hn1⟩
      have hzip : n1.zipinfo = none := by
        have h3 := (hG3 [] n1 hn1).1 _ hrk
        simpa using h3
      have hchsome : ∃ rk1, n1.children = some rk1 := by
        cases hchn : n1.children with
        | none =>
          rcases hG5 [] n1 hn1 hchn with ⟨m, hm, hmc⟩
          rw [hrk] at hm
          injection hm with hm
          rw [← hm] at hmc
          exact absurd hmc (by simp)
        | some rk1 => exact ⟨rk1, rfl⟩
      rcases hchsome with ⟨rk1, hrk1⟩
      have hn1eq : n1 = ⟨none, some rk1⟩ := by
        obtain ⟨z1, c1⟩ := n1
        simp only at hzip hrk1
        rw [hzip, hrk1]
      refine ⟨rk1, ?_, ?_⟩
      · rw [hother, hn1, hn1eq]
      · intro c
        have hk1 := hG4 [] n1 rk1 hn1 hrk1 c
        have hold := old_children_iff d [] ⟨none, some rk⟩ rk hrk rfl c
        rw [childRel_cons]
        have hedge : (∃ i, i < (segsOf e).length - 1 ∧
            ([] : Str) = pathJoin ((segsOf e).take i) ∧
            c = (segsOf e).getD i [] ∧
            dlookup d (pathJoin ((segsOf e).take (i + 1))) = none) ↔
            (c = (segsOf e).getD 0 [] ∧
              dlookup d (pathJoin ((segsOf e).take 1)) = none) := by
          constructor
          · rintro ⟨i, hi, hiq, hic, hil⟩
            have hi0 : i = 0 := by
              by_contra hne
              exact hprefix_ne_nil i (by omega) hiq.symm
            subst hi0
            exact ⟨hic, hil⟩
          · rintro ⟨hic, hil⟩
            exact ⟨0, by omega, by rw [List.take_zero]; rfl, hic, hil⟩
        have hcontrib : (∃ k, k < (segsOf e).length ∧
            pathJoin ((segsOf e).take k) = ([] : Str) ∧
            (segsOf e).getD k [] = c) ↔ c = (segsOf e).getD 0 [] := by
          constructor
          · rintro ⟨k, hk, hkq, hkc⟩
            have hk0 : k = 0 := by
              by_contra hne
              exact hprefix_ne_nil k (by omega) hkq
            subst hk0
            exact hkc.symm
          · intro hc
            exact ⟨0, by omega, by rw [List.take_zero]; rfl, hc.symm⟩
        rw [hk1, hold, hedge, hcontrib]
        cases hpre1 : dlookup d (pathJoin ((segsOf e).take 1)) with
        | some pm =>
          constructor
          · rintro (hc | ⟨_, habs⟩)
            · exact Or.inl ((hrkiff c).mp hc)
            · exact absurd habs (by simp)
          · rintro (hc | hc)
            · exact Or.inl ((hrkiff c).mpr hc)
            · subst hc
              exact Or.inl ((hrkiff _).mpr
                (hroot_edge (by rw [hpre1]; simp)))
        | none =>
          constructor
          · rintro (hc | ⟨hc, _⟩)
            · exact Or.inl ((hrkiff c).mp hc)
            · exact Or.inr hc
          · rintro (hc | hc)
            · exact Or.inl ((hrkiff c).mpr hc)
            · exact Or.inr ⟨hc, rfl⟩
  · -- the keyset clause
    intro q hq
    rw [keyP_cons]
    by_cases hqp : q = nPath e
    · subst hqp
      rw [hfin_p]
      constructor
      · intro _
        exact Or.inr ⟨(segsOf e).length, hLpos, le_refl _, hp_eq⟩
      · intro _
        rfl
    · by_cases hqpar : q = pathJoin ((segsOf e).take ((segsOf e).length - 1))
      · subst hqpar
        rw [hfin_par]
        constructor
        · intro _
          refine Or.inr ⟨(segsOf e).length - 1, ?_, by omega, rfl⟩
          by_contra h0
          have hL1 : (segsOf e).length = 1 := by omega
          apply hq
          rw [hL1]
          rfl
        · intro _
          rfl
      · rw [hfin_other q hqp hqpar, hG2 q, hInv.keyset q hq]
        constructor
        · rintro (hk | ⟨i, hi0, hiL, hiq⟩)
          · exact Or.inl hk
          · exact Or.inr ⟨i, hi0, by omega, hiq.symm⟩
        · rintro (hk | ⟨k, hk0, hkL, hkq⟩)
          · exact Or.inl hk
          · by_cases hkL' : k = (segsOf e).length
            · exfalso
              apply hqp
              rw [← hkq, hkL']
              exact hp_eq
            · exact Or.inr ⟨k, hk0, by omega, hkq.symm⟩
  · -- the zipinfo clause
    intro q n x hq hn hatp
    rw [atP_cons] at hatp
    by_cases hqp : q = nPath e
    · subst hqp
      rw [hfin_p] at hn
      injection hn with hn
      rcases hatp with ⟨hx, hxp⟩ | ⟨hx, _⟩
      · exact absurd hxp (hdist x hx)
      · subst hx
        rw [← hn]
    · by_cases hqpar : q = pathJoin ((segsOf e).take ((segsOf e).length - 1))
      · subst hqpar
        rw [hfin_par] at hn
        injection hn with hn
        rcases hatp with ⟨hx, hxp⟩ | ⟨hx, hxe⟩
        · have hkp : KeyP P (pathJoin ((segsOf e).take ((segsOf e).length - 1)))
              := keyP_of_atP P _ x ⟨hx, hxp⟩ (hPc x hx)
          rcases Option.isSome_iff_exists.mp
              ((hInv.keyset _ hq).mpr hkp) with ⟨m, hm⟩
          have hz1 := hInv.zinfo _ m x hq hm ⟨hx, hxp⟩
          have hz2 := (hG3 _ pn1 hG1).1 m hm
          rw [← hn]
          show pn1.zipinfo = some x
          rw [hz2, hz1]
        · exact absurd hxe.symm hpar_ne_p
      · rw [hfin_other q hqp hqpar] at hn
        rcases hatp with ⟨hx, hxp⟩ | ⟨hx, hxe⟩
        · have hkp : KeyP P q := keyP_of_atP P q x ⟨hx, hxp⟩ (hPc x hx)
          rcases Option.isSome_iff_exists.mp
              ((hInv.keyset q hq).mpr hkp) with ⟨m, hm⟩
          have hz1 := hInv.zinfo q m x hq hm ⟨hx, hxp⟩
          have hz2 := (hG3 q n hn).1 m hm
          rw [hz2, hz1]
        · exact absurd hxe.symm hqp
  · -- the file-kind clause
    intro q n hq hn
    by_cases hqp : q = nPath e
    · subst hqp
      rw [hfin_p] at hn
      injection hn with hn
      rw [← hn]
      constructor
      · intro hchn
        exact ⟨e, ⟨List.mem_cons_self _ _, rfl⟩, hch1.mp hchn⟩
      · rintro ⟨x, hax, hxf⟩
        rw [atP_cons] at hax
        rcases hax with ⟨hx, hxp⟩ | ⟨hx, _⟩
        · exact absurd hxp (hdist x hx)
        · subst hx
          exact hch1.mpr hxf
    · by_cases hqpar : q = pathJoin ((segsOf e).take ((segsOf e).length - 1))
      · subst hqpar
        rw [hfin_par] at hn
        injection hn with hn
        rw [← hn]
        constructor
        · intro habs
          exact absurd habs (by simp)
        · rintro ⟨x, hax, hxf⟩
          rw [atP_cons] at hax
          rcases hax with ⟨hx, hxp⟩ | ⟨hx, hxe⟩
          · exfalso
            have hL2 : 0 < (segsOf e).length - 1 := by
              by_contra h0
              have hL1 : (segsOf e).length = 1 := by omega
              apply hq
              rw [hL1]
              rfl
            exact hnf x hx hxf ((segsOf e).length - 1) hL2 (by omega) hxp
          · exact absurd hxe.symm hpar_ne_p
      · rw [hfin_other q hqp hqpar] at hn
        constructor
        · intro hnone
          rcases hG5 q n hn hnone with ⟨m, hm, hmc⟩
          rcases (hInv.fileK q m hq hm).mp hmc with ⟨x, hax, hxf⟩
          exact ⟨x, (atP_cons e P q x).mpr (Or.inl hax), hxf⟩
        · rintro ⟨x, hax, hxf⟩
          rw [atP_cons] at hax
          rcases hax with ⟨hx, hxp⟩ | ⟨hx, hxe⟩
          · by_cases hpref : ∃ i, 0 < i ∧ i < (segsOf e).length ∧
                q = pathJoin ((segsOf e).take i)
            · rcases hpref with ⟨i, hi0, hiL, hiq⟩
              rw [hiq] at hxp
              exact absurd hxp (hnf x hx hxf i hi0 hiL)
            · have hpref' : ∀ i, 0 < i → i < (segsOf e).length →
                  q ≠ pathJoin ((segsOf e).take i) :=
                fun i h1 h2 he => hpref ⟨i, h1, h2, he⟩
              rw [hG6 q hq hpref'] at hn
              exact (hInv.fileK q n hq hn).mpr ⟨x, ⟨hx, hxp⟩, hxf⟩
          · exact absurd hxe.symm hqp
  · -- the children clause
    intro q n cs hq hn hcs c
    rw [childRel_cons]
    by_cases hqp : q = nPath e
    · subst hqp
      rw [hfin_p] at hn
      injection hn with hn
      have hch : ch = some cs := by
        rw [← hn] at hcs
        exact hcs
      rw [hch2 cs hch c]
      constructor
      · intro h
        exact Or.inl h
      · rintro (h | ⟨k, hk, hkq, hkc⟩)
        · exact h
        · exact absurd hkq (hprefix_ne_p k hk)
    · by_cases hqpar : q = pathJoin ((segsOf e).take ((segsOf e).length - 1))
      · subst hqpar
        rw [hfin_par] at hn
        injection hn with hn
        have hL2 : 0 < (segsOf e).length - 1 := by
          by_contra h0
          have hL1 : (segsOf e).length = 1 := by omega
          apply hq
          rw [hL1]
          rfl
        have hcs' : some (kidsAdd kids1 ((segsOf e).getD ((segsOf e).length - 1) []))
            = some cs := by
          rw [← hn] at hcs
          exact hcs
        injection hcs' with hcs'
        rw [← hcs', mem_kidsAdd]
        have hk4 := hG4 _ pn1 kids1 hG1 hG1c c
        have hnoedge : ¬ (∃ i, i < (segsOf e).length - 1 ∧
            pathJoin ((segsOf e).take ((segsOf e).length - 1))
              = pathJoin ((segsOf e).take i) ∧
            c = (segsOf e).getD i [] ∧
            dlookup d (pathJoin ((segsOf e).take (i + 1))) = none) := by
          rintro ⟨i, hi, hiq, _, _⟩
          have := inj_take ((segsOf e).length - 1) i (by omega) (by omega) hiq
          omega
        have hcontrib : (∃ k, k < (segsOf e).length ∧
            pathJoin ((segsOf e).take k)
              = pathJoin ((segsOf e).take ((segsOf e).length - 1)) ∧
            (segsOf e).getD k [] = c) ↔
            c = (segsOf e).getD ((segsOf e).length - 1) [] := by
          constructor
          · rintro ⟨k, hk, hkq, hkc⟩
            have hki := inj_take k ((segsOf e).length - 1) (by omega)
              (by omega) hkq
            subst hki
            exact hkc.symm
          · intro h
            exact ⟨(segsOf e).length - 1, by omega, rfl, h.symm⟩
        have hkids1 : c ∈ kids1 ↔
            ChildRel P (pathJoin ((segsOf e).take ((segsOf e).length - 1))) c := by
          rw [hk4]
          constructor
          · rintro (⟨m, ds, hm, hds, hcm⟩ | hedge)
            · exact (hInv.kids _ m ds hq hm hds c).mp hcm
            · exact absurd hedge hnoedge
          · intro hcr
            have hkp := childRel_keyP P _ c hq hcr
            rcases Option.isSome_iff_exists.mp
                ((hInv.keyset _ hq).mpr hkp) with ⟨m, hm⟩
            cases hds : m.children with
            | none =>
              exfalso
              rcases (hInv.fileK _ m hq hm).mp hds with ⟨x, hax, hxf⟩
              exact hnf x hax.1 hxf ((segsOf e).length - 1) hL2 (by omega) hax.2
            | some ds =>
              exact Or.inl ⟨m, ds, hm, hds,
                (hInv.kids _ m ds hq hm hds c).mpr hcr⟩
        constructor
        · rintro (hc | hc)
          · exact Or.inl (hkids1.mp hc)
          · exact Or.inr (hcontrib.mpr hc)
        · rintro (hc | hc)
          · exact Or.inl (hkids1.mpr hc)
          · exact Or.inr (hcontrib.mp hc)
      · rw [hfin_other q hqp hqpar] at hn
        by_cases hpref : ∃ i, 0 < i ∧ i < (segsOf e).length ∧
            q = pathJoin ((segsOf e).take i)
        · rcases hpref with ⟨i, hi0, hiL, hiq⟩
          subst hiq
          have hiL1 : i < (segsOf e).length - 1 := by
            rcases Nat.lt_or_ge i ((segsOf e).length - 1) with h | h
            · exact h
            · exfalso
              apply hqpar
              have : i = (segsOf e).length - 1 := by omega
              rw [this]
          have hk4 := hG4 _ n cs hn hcs c
          have hedge : (∃ i', i' < (segsOf e).length - 1 ∧
              pathJoin ((segsOf e).take i) = pathJoin ((segsOf e).take i') ∧
              c = (segsOf e).getD i' [] ∧
              dlookup d (pathJoin ((segsOf e).take (i' + 1))) = none) ↔
              (c = (segsOf e).getD i [] ∧
                dlookup d (pathJoin ((segsOf e).take (i + 1))) = none) := by
            constructor
            · rintro ⟨i', hi', hq', hc', hl'⟩
              have hii : i = i' := inj_take i i' (by omega) (by omega) hq'
              subst hii
              exact ⟨hc', hl'⟩
            · rintro ⟨hc', hl'⟩
              exact ⟨i, hiL1, rfl, hc', hl'⟩
          have hcontrib : (∃ k, k < (segsOf e).length ∧
              pathJoin ((segsOf e).take k) = pathJoin ((segsOf e).take i) ∧
              (segsOf e).getD k [] = c) ↔ c = (segsOf e).getD i [] := by
            constructor
            · rintro ⟨k, hk, hkq, hkc⟩
              have hki := inj_take k i (by omega) (by omega) hkq
              subst hki
              exact hkc.symm
            · intro h
              exact ⟨i, by omega, rfl, h.symm⟩
          rw [hk4, hedge]
          rcases Option.eq_none_or_eq_some
              (dlookup d (pathJoin ((segsOf e).take i))) with hdq | ⟨m, hdq⟩
          · have hnextnone : dlookup d (pathJoin ((segsOf e).take (i + 1)))
                = none := by
              rcases Option.eq_none_or_eq_some
                  (dlookup d (pathJoin ((segsOf e).take (i + 1)))) with
                hnext | ⟨nx, hnext⟩
              · exact hnext
              · exfalso
                have hnextkp : KeyP P (pathJoin ((segsOf e).take (i + 1))) :=
                  (hInv.keyset _ (hprefix_ne_nil (i + 1) (by omega))).mp
                    (by rw [hnext]; rfl)
                have hikp := keyP_take_mono P hPc e hec (i + 1) i hi0
                  (by omega) (by omega) hnextkp
                have hpres := (hInv.keyset _ (hprefix_ne_nil i hi0)).mpr hikp
                rw [hdq] at hpres
                exact absurd hpres (by simp)
            have hnocr : ¬ ChildRel P (pathJoin ((segsOf e).take i)) c := by
              intro hcr
              have hkp := childRel_keyP P _ c (hprefix_ne_nil i hi0) hcr
              have hpres := (hInv.keyset _ (hprefix_ne_nil i hi0)).mpr hkp
              rw [hdq] at hpres
              exact absurd hpres (by simp)
            constructor
            · rintro (habs | ⟨hcc, _⟩)
              · exact absurd habs (old_children_none d _ hdq c)
              · exact Or.inr (hcontrib.mpr hcc)
            · rintro (hcr | hcc)
              · exact absurd hcr hnocr
              · exact Or.inr ⟨hcontrib.mp hcc, hnextnone⟩
          · rcases Option.eq_none_or_eq_some m.children with hmc | ⟨ds, hmc⟩
            · exfalso
              rcases (hInv.fileK _ m hq hdq).mp hmc with ⟨x, hax, hxf⟩
              exact hnf x hax.1 hxf i hi0 hiL hax.2
            · have hold := old_children_iff d _ m ds hdq hmc c
              have hkids := hInv.kids _ m ds hq hdq hmc c
              rcases Option.eq_none_or_eq_some
                  (dlookup d (pathJoin ((segsOf e).take (i + 1)))) with
                hnext | ⟨nx, hnext⟩
              · constructor
                · rintro (hcm | ⟨hcc, _⟩)
                  · exact Or.inl (hkids.mp (hold.mp hcm))
                  · exact Or.inr (hcontrib.mpr hcc)
                · rintro (hcr | hcc)
                  · exact Or.inl (hold.mpr (hkids.mpr hcr))
                  · exact Or.inr ⟨hcontrib.mp hcc, hnext⟩
              · have hnextkp : KeyP P (pathJoin ((segsOf e).take (i + 1))) :=
                  (hInv.keyset _ (hprefix_ne_nil (i + 1) (by omega))).mp
                    (by rw [hnext]; rfl)
                have hcr0 : ChildRel P (pathJoin ((segsOf e).take i))
                    ((segsOf e).getD i []) :=
                  childRel_below P hPc e hec (i + 1) i (by omega) (by omega)
                    hnextkp
                constructor
                · rintro (hcm | ⟨_, habs⟩)
                  · exact Or.inl (hkids.mp (hold.mp hcm))
                  · rw [hnext] at habs
                    exact absurd habs (by simp)
                · rintro (hcr | hcc)
                  · exact Or.inl (hold.mpr (hkids.mpr hcr))
                  · have hc' := hcontrib.mp hcc
                    subst hc'
                    exact Or.inl (hold.mpr (hkids.mpr hcr0))
        · have hpref' : ∀ i, 0 < i → i < (segsOf e).length →
              q ≠ pathJoin ((segsOf e).take i) :=
            fun i h1 h2 he => hpref ⟨i, h1, h2, he⟩
          rw [hG6 q hq hpref'] at hn
          rw [hInv.kids q n cs hq hn hcs c]
          constructor
          · intro h
            exact Or.inl h
          · rintro (h | ⟨k, hk, hkq, hkc⟩)
            · exact h
            · exfalso
              rcases Nat.eq_zero_or_pos k with rfl | hk0
              · apply hq
                rw [← hkq, List.take_zero]
                rfl
              · exact hpref' k hk0 hk hkq.symm

theorem dictSet_self_eq (d : ZDict) (k : Str) (v : FileDirNode)
    (h : dlookup d k = some v) : dictSet d k v = d := by
  induction d with
  | nil => simp [dlookup] at h
  | cons hd t ih =>
    obtain ⟨k0, v0⟩ := hd
    by_cases hk : k0 = k
    · subst hk
      rw [dlookup, if_pos rfl] at h
      injection h with h
      rw [dictSet, if_pos rfl, h]
    · rw [dlookup, if_neg hk] at h
      rw [dictSet, if_neg hk, ih h]

theorem pathJoin_cons_nil (xs : List Str) :
    pathJoin (([] : Str) :: xs) = pathJoin xs := by
  rw [pathJoin, pathJoin, List.filter_cons]
  simp

/-- One `get_zipinfo` iteration preserves the builder invariant: processing
an entry with a clean nonempty path, whose path no processed entry shares,
and no proper prefix of whose path carries a processed *file* entry,
succeeds and extends the invariant by that entry. -/
theorem stepEntry_inv (P : List ZipInfo) (d : ZDict) (e : ZipInfo)
    (hInv : BuildInv P d)
    (hPc : ∀ x ∈ P, ([] : Str) ∉ segsOf x)
    (hec : ([] : Str) ∉ segsOf e)
    (hdist : ∀ x ∈ P, nPath x ≠ nPath e)
    (hnf : ∀ x ∈ P, x.isDir = false → ∀ k, 0 < k → k < (segsOf e).length →
        nPath x ≠ pathJoin ((segsOf e).take k)) :
    ∃ d', stepEntry args0 d e = Except.ok d' ∧ BuildInv (e :: P) d' := by
  have hLpos : 0 < (segsOf e).length :=
    List.length_pos.mpr (segsOf_ne_nil e)
  have hclean_take : ∀ i, ([] : Str) ∉ (segsOf e).take i :=
    fun i hm => hec (List.mem_of_mem_take hm)
  have hslash_take : ∀ i, ∀ y ∈ (segsOf e).take i, '/' ∉ y :=
    fun i y hy => segsOf_no_slash e y (List.mem_of_mem_take hy)
  have hp_eq : pathJoin ((segsOf e).take (segsOf e).length) = nPath e := by
    rw [List.take_length, pathJoin_segsOf e hec]
  have hpne : nPath e ≠ [] := by
    rw [← hp_eq]
    apply pathJoin_ne_nil
    · rw [List.take_length]; exact segsOf_ne_nil e
    · exact hclean_take _
  have hprefix_ne_nil : ∀ i, 0 < i → pathJoin ((segsOf e).take i) ≠ [] := by
    intro i hi
    apply pathJoin_ne_nil
    · intro he
      rcases List.take_eq_nil_iff.mp he with h | h
      · omega
      · exact segsOf_ne_nil e h
    · exact hclean_take _
  have inj_take : ∀ i j, i ≤ (segsOf e).length → j ≤ (segsOf e).length →
      pathJoin ((segsOf e).take i) = pathJoin ((segsOf e).take j) → i = j :=
    fun i j hi hj h =>
      pathJoin_take_inj (segsOf e) hec (segsOf_no_slash e) i j hi hj h
  have hrp : rpartitionSlash (rstripSlash e.filename)
      = (pathJoin ((segsOf e).take ((segsOf e).length - 1)),
         (segsOf e).getD ((segsOf e).length - 1) []) := by
    have h0 := rpartition_pathJoin (segsOf e) (segsOf_ne_nil e) hec
      (segsOf_no_slash e)
    rw [pathJoin_segsOf e hec] at h0
    rw [dropLast_eq_take_pred, getLastD_concat_ne _ (segsOf_ne_nil e)] at h0
    exact h0
  rcases hInv.root with ⟨rk, hrk, hrkiff⟩
  rcases Option.eq_none_or_eq_some
      (dlookup d (pathJoin ((segsOf e).take ((segsOf e).length - 1)))) with
    hpd | ⟨pn, hpd⟩
  · -- the parent is absent: create_node_and_ancestors runs
    have hparne : pathJoin ((segsOf e).take ((segsOf e).length - 1))
        ≠ ([] : Str) := by
      intro he
      rw [he, hrk] at hpd
      exact absurd hpd (by simp)
    have hL2 : 2 ≤ (segsOf e).length := by
      by_contra h0
      have hL1 : (segsOf e).length = 1 := by omega
      apply hparne
      rw [hL1]
      rfl
    have htake_ne : (segsOf e).take ((segsOf e).length - 1) ≠ [] := by
      intro he
      rcases List.take_eq_nil_iff.mp he with h | h
      · omega
      · exact segsOf_ne_nil e h
    have hsplit : splitSlash
        (pathJoin ((segsOf e).take ((segsOf e).length - 1)))
        = (segsOf e).take ((segsOf e).length - 1) :=
      splitSlash_pathJoin _ htake_ne (hclean_take _) (hslash_take _)
    have hrestlen : ((segsOf e).take ((segsOf e).length - 1)).length
        = (segsOf e).length - 1 := by
      rw [List.length_take]
      omega
    have cv2 : ∀ i, i ≤ (segsOf e).length - 1 →
        pathJoin ([([] : Str)]
          ++ ((segsOf e).take ((segsOf e).length - 1)).take i)
        = pathJoin ((segsOf e).take i) := by
      intro i hi
      have h1 : ([([] : Str)]
          ++ ((segsOf e).take ((segsOf e).length - 1)).take i)
          = ([] : Str) :: ((segsOf e).take ((segsOf e).length - 1)).take i :=
        rfl
      rw [h1, pathJoin_cons_nil, take_prefix_of_le _ i _ hi]
    have hres : ∀ c ∈ (segsOf e).take ((segsOf e).length - 1), c ≠ [] :=
      fun c hc he => hclean_take _ (he ▸ hc)
    have memchain : ∀ q,
        q ∈ loopChain [([] : Str)] ((segsOf e).take ((segsOf e).length - 1))
        ↔ ∃ i, 0 < i ∧ i < (segsOf e).length ∧
            q = pathJoin ((segsOf e).take i) := by
      intro q
      rw [mem_loopChain]
      constructor
      · rintro ⟨i, hi, hq⟩
        rw [hrestlen] at hi
        refine ⟨i + 1, by omega, by omega, ?_⟩
        rw [hq, cv2 (i + 1) (by omega)]
      · rintro ⟨i, hi0, hiL, hq⟩
        refine ⟨i - 1, by omega, ?_⟩
        rw [hq, cv2 ((i - 1) + 1) (by omega)]
        congr 2
        omega
    have hdirsome : ∀ i, 0 < i → i < (segsOf e).length →
        ∀ n, dlookup d (pathJoin ((segsOf e).take i)) = some n →
        (n.children).isSome = true := by
      intro i hi0 hiL n hn
      rcases Option.eq_none_or_eq_some n.children with hnone | ⟨cs, hcs⟩
      · exfalso
        rcases (hInv.fileK _ n (hprefix_ne_nil i hi0) hn).mp hnone with
          ⟨x, hax, hxf⟩
        exact hnf x hax.1 hxf i hi0 hiL hax.2
      · rw [hcs]
        rfl
    have hroot0 : dlookup d (pathJoin ([([] : Str)] : List Str))
        = some ⟨none, some rk⟩ := by
      rw [show pathJoin ([([] : Str)] : List Str) = ([] : Str) from rfl]
      exact hrk
    rcases cnaa_effect e ((segsOf e).take ((segsOf e).length - 1))
        [([] : Str)] d hres
        ⟨⟨none, some rk⟩, hroot0, by simp⟩
        (by
          intro p hp n hn
          rcases (memchain p).mp hp with ⟨i, hi0, hiL, hq⟩
          rw [hq] at hn
          exact hdirsome i hi0 hiL n hn) with
      ⟨d1, hok, e1, e2, e3, e4, e5, e6⟩
    have hcnaa : createNodeAndAncestors
        (pathJoin ((segsOf e).take ((segsOf e).length - 1))) e d
        = Except.ok d1 := by
      rw [createNodeAndAncestors, hsplit]
      have hskip : cnaaLoop e d []
          (([] : Str) :: (segsOf e).take ((segsOf e).length - 1))
          = cnaaLoop e d [([] : Str)]
              ((segsOf e).take ((segsOf e).length - 1)) := by
        simp only [cnaaLoop, List.nil_append, hroot0]
      rw [hskip, hok]
    -- the parent node in d1
    have hparmem : pathJoin ((segsOf e).take ((segsOf e).length - 1))
        ∈ loopChain [([] : Str)] ((segsOf e).take ((segsOf e).length - 1)) :=
      (memchain _).mpr ⟨(segsOf e).length - 1, by omega, by omega, rfl⟩
    have hparpres := (e2 (pathJoin ((segsOf e).take ((segsOf e).length - 1)))).mpr
      (Or.inr hparmem)
    rcases Option.isSome_iff_exists.mp hparpres with ⟨pn1, hpn1⟩
    have hpn1c : ∃ kids1, pn1.children = some kids1 := by
      rcases Option.eq_none_or_eq_some pn1.children with hnone | ⟨kids1, h⟩
      · exfalso
        rcases e6 _ pn1 hpn1 hnone with ⟨m, hm, _⟩
        rw [hpd] at hm
        exact absurd hm (by simp)
      · exact ⟨kids1, h⟩
    rcases hpn1c with ⟨kids1, hpn1c⟩
    -- translate the effect facts into the G-format of buildInv_insert
    have edgecv : ∀ q x,
        ChainEdge d [([] : Str)] ((segsOf e).take ((segsOf e).length - 1)) q x
        ↔ ∃ i, i < (segsOf e).length - 1 ∧
            q = pathJoin ((segsOf e).take i) ∧
            x = (segsOf e).getD i [] ∧
            dlookup d (pathJoin ((segsOf e).take (i + 1))) = none := by
      intro q x
      rw [chainEdge_iff]
      constructor
      · rintro ⟨i, hi, h1, h2, h3⟩
        rw [hrestlen] at hi
        refine ⟨i, hi, ?_, ?_, ?_⟩
        · rw [h1, cv2 i (by omega)]
        · rw [h2, getD_take_lt _ _ _ hi]
        · rw [← cv2 (i + 1) (by omega)]
          exact h3
      · rintro ⟨i, hi, h1, h2, h3⟩
        rw [hrestlen]
        refine ⟨i, hi, ?_, ?_, ?_⟩
        · rw [h1, cv2 i (by omega)]
        · rw [h2, getD_take_lt _ _ _ hi]
        · rw [cv2 (i + 1) (by omega)]
          exact h3
    have hG2 : ∀ q, (dlookup d1 q).isSome = true ↔
        ((dlookup d q).isSome = true ∨
          ∃ i, 0 < i ∧ i < (segsOf e).length ∧
            q = pathJoin ((segsOf e).take i)) := by
      intro q
      rw [e2 q, memchain q]
    have hG3 : ∀ q n1, dlookup d1 q = some n1 →
        ((∀ n, dlookup d q = some n → n1.zipinfo = n.zipinfo) ∧
         (dlookup d q = none → n1.zipinfo = some e)) :=
      fun q n1 h => ⟨fun n hn => e3 q n1 h n hn, fun hnone => e4 q n1 h hnone⟩
    have hG4 : ∀ q n1 cs1, dlookup d1 q = some n1 → n1.children = some cs1 →
        ∀ x, x ∈ cs1 ↔
          ((∃ n cs, dlookup d q = some n ∧ n.children = some cs ∧ x ∈ cs) ∨
           (∃ i, i < (segsOf e).length - 1 ∧
             q = pathJoin ((segsOf e).take i) ∧
             x = (segsOf e).getD i [] ∧
             dlookup d (pathJoin ((segsOf e).take (i + 1))) = none)) := by
      intro q n1 cs1 h hcs x
      rw [e5 q n1 h cs1 hcs x, edgecv q x]
    have hG6 : ∀ q, q ≠ ([] : Str) →
        (∀ i, 0 < i → i < (segsOf e).length →
          q ≠ pathJoin ((segsOf e).take i)) →
        dlookup d1 q = dlookup d q := by
      intro q hq hqpre
      apply e1
      · intro he
        apply hq
        rw [he]
        rfl
      · intro hm
        rcases (memchain q).mp hm with ⟨i, hi0, hiL, hq'⟩
        exact hqpre i hi0 hiL hq'
    -- the entry's own node is absent from d
    have hpabsent : dlookup d (nPath e) = none := by
      rcases Option.eq_none_or_eq_some (dlookup d (nPath e)) with h | ⟨m, hm⟩
      · exact h
      · exfalso
        have hkp : KeyP P (nPath e) :=
          (hInv.keyset _ hpne).mp (by rw [hm]; rfl)
        rw [← hp_eq] at hkp
        have := keyP_take_mono P hPc e hec (segsOf e).length
          ((segsOf e).length - 1) (by omega) (by omega) (le_refl _) hkp
        have hpres := (hInv.keyset _ hparne).mpr this
        rw [hpd] at hpres
        exact absurd hpres (by simp)
    have hnocrp : ∀ x, ¬ ChildRel P (nPath e) x := by
      intro x hcr
      have hkp := childRel_keyP P _ x hpne hcr
      have hpres := (hInv.keyset _ hpne).mpr hkp
      rw [hpabsent] at hpres
      exact absurd hpres (by simp)
    -- the just-created parent has no children yet
    have hmem : (segsOf e).getD ((segsOf e).length - 1) [] ∉ kids1 := by
      intro hm
      rcases (hG4 _ pn1 kids1 hpn1 hpn1c _).mp hm with
        ⟨m, cs, hmm, _, _⟩ | ⟨i, hi, hiq, _, _⟩
      · rw [hpd] at hmm
        exact absurd hmm (by simp)
      · have := inj_take ((segsOf e).length - 1) i (by omega) (by omega) hiq
        omega
    have hpdr : dlookup d (rpartitionSlash (rstripSlash e.filename)).1
        = none := by
      rw [hrp]
      exact hpd
    have hcnaar : createNodeAndAncestors
        (rpartitionSlash (rstripSlash e.filename)).1 e d = Except.ok d1 := by
      rw [hrp]
      exact hcnaa
    have hpd1r : dlookup d1 (rpartitionSlash (rstripSlash e.filename)).1
        = some pn1 := by
      rw [hrp]
      exact hpn1
    have hmemr : (rpartitionSlash (rstripSlash e.filename)).2 ∉ kids1 := by
      rw [hrp]
      exact hmem
    cases hdir : e.isDir with
    | true =>
      have hstep : stepEntry args0 d e = Except.ok
          (dictSet (dictSet d1 (rpartitionSlash (rstripSlash e.filename)).1
            ⟨pn1.zipinfo,
              some (kids1 ++ [(rpartitionSlash (rstripSlash e.filename)).2])⟩)
            (rstripSlash e.filename) ⟨some e, some []⟩) := by
        simp only [stepEntry, args0, Bool.false_eq_true, false_and, if_false,
          hpdr, hcnaar, hpd1r, hpn1c, hdir, if_true]
        rw [if_neg hmemr]
      rw [hrp] at hstep
      have hka : kidsAdd kids1 ((segsOf e).getD ((segsOf e).length - 1) [])
          = kids1 ++ [(segsOf e).getD ((segsOf e).length - 1) []] := by
        rw [kidsAdd, if_neg hmem]
      rw [← hka] at hstep
      refine ⟨_, hstep, ?_⟩
      exact buildInv_insert P d d1 e pn1 kids1 (some []) hInv hPc hec hdist hnf
        hpn1 hpn1c hG2 hG3 hG4 (fun q n1 h hn => e6 q n1 h hn) hG6
        (by simp [hdir])
        (fun cs h x => by
          injection h with h
          rw [← h]
          constructor
          · intro hx
            exact absurd hx (by simp)
          · intro hcr
            exact absurd hcr (hnocrp x))
    | false =>
      have hstep : stepEntry args0 d e = Except.ok
          (dictSet (dictSet d1 (rpartitionSlash (rstripSlash e.filename)).1
            ⟨pn1.zipinfo,
              some (kidsAdd kids1 (rpartitionSlash (rstripSlash e.filename)).2)⟩)
            (rstripSlash e.filename) ⟨some e, none⟩) := by
        simp only [stepEntry, args0, Bool.false_eq_true, false_and, if_false,
          hpdr, hcnaar, hpd1r, hpn1c, hdir]
      rw [hrp] at hstep
      refine ⟨_, hstep, ?_⟩
      exact buildInv_insert P d d1 e pn1 kids1 none hInv hPc hec hdist hnf
        hpn1 hpn1c hG2 hG3 hG4 (fun q n1 h hn => e6 q n1 h hn) hG6
        (by simp [hdir])
        (fun cs h x => absurd h (by simp))
  · -- the parent already exists
    have hkids : ∃ kids, pn.children = some kids := by
      by_cases hparnil : pathJoin ((segsOf e).take ((segsOf e).length - 1))
          = ([] : Str)
      · rw [hparnil, hrk] at hpd
        injection hpd with hpd
        rw [← hpd]
        exact ⟨rk, rfl⟩
      · rcases Option.eq_none_or_eq_some pn.children with hnone | ⟨kids, h⟩
        · exfalso
          have hL2 : 2 ≤ (segsOf e).length := by
            by_contra h0
            have hL1 : (segsOf e).length = 1 := by omega
            apply hparnil
            rw [hL1]
            rfl
          rcases (hInv.fileK _ pn hparnil hpd).mp hnone with ⟨x, hax, hxf⟩
          exact hnf x hax.1 hxf ((segsOf e).length - 1) (by omega) (by omega)
            hax.2
        · exact ⟨kids, h⟩
    rcases hkids with ⟨kids, hpnc⟩
    -- all proper prefixes of the entry path are already present
    have hpref_present : ∀ i, 0 < i → i < (segsOf e).length →
        (dlookup d (pathJoin ((segsOf e).take i))).isSome = true := by
      intro i hi0 hiL
      have hL2 : 2 ≤ (segsOf e).length := by omega
      have hparne : pathJoin ((segsOf e).take ((segsOf e).length - 1))
          ≠ ([] : Str) := hprefix_ne_nil _ (by omega)
      have hparkp : KeyP P (pathJoin ((segsOf e).take ((segsOf e).length - 1)))
          := (hInv.keyset _ hparne).mp (by rw [hpd]; rfl)
      have hik := keyP_take_mono P hPc e hec ((segsOf e).length - 1) i hi0
        (by omega) (by omega) hparkp
      exact (hInv.keyset _ (hprefix_ne_nil i hi0)).mpr hik
    have hG2 : ∀ q, (dlookup d q).isSome = true ↔
        ((dlookup d q).isSome = true ∨
          ∃ i, 0 < i ∧ i < (segsOf e).length ∧
            q = pathJoin ((segsOf e).take i)) := by
      intro q
      constructor
      · exact Or.inl
      · rintro (h | ⟨i, hi0, hiL, hq⟩)
        · exact h
        · rw [hq]
          exact hpref_present i hi0 hiL
    have hG3 : ∀ q n1, dlookup d q = some n1 →
        ((∀ n, dlookup d q = some n → n1.zipinfo = n.zipinfo) ∧
         (dlookup d q = none → n1.zipinfo = some e)) := by
      intro q n1 h
      constructor
      · intro n hn
        rw [h] at hn
        injection hn with hn
        rw [hn]
      · intro hnone
        rw [h] at hnone
        exact absurd hnone (by simp)
    have hG4 : ∀ q n1 cs1, dlookup d q = some n1 → n1.children = some cs1 →
        ∀ x, x ∈ cs1 ↔
          ((∃ n cs, dlookup d q = some n ∧ n.children = some cs ∧ x ∈ cs) ∨
           (∃ i, i < (segsOf e).length - 1 ∧
             q = pathJoin ((segsOf e).take i) ∧
             x = (segsOf e).getD i [] ∧
             dlookup d (pathJoin ((segsOf e).take (i + 1))) = none)) := by
      intro q n1 cs1 h hcs x
      constructor
      · intro hx
        exact Or.inl ⟨n1, cs1, h, hcs, hx⟩
      · rintro (hold | ⟨i, hi, hiq, hix, hinone⟩)
        · exact (old_children_iff d q n1 cs1 h hcs x).mp hold
        · exfalso
          have := hpref_present (i + 1) (by omega) (by omega)
          rw [hinone] at this
          exact absurd this (by simp)
    have hG5 : ∀ q n1, dlookup d q = some n1 → n1.children = none →
        ∃ n, dlookup d q = some n ∧ n.children = none :=
      fun q n1 h hn => ⟨n1, h, hn⟩
    have hG6 : ∀ q, q ≠ ([] : Str) →
        (∀ i, 0 < i → i < (segsOf e).length →
          q ≠ pathJoin ((segsOf e).take i)) →
        dlookup d q = dlookup d q := fun _ _ _ => rfl
    have hparent_kids_iff : ∀ c, c ∈ kids ↔
        ChildRel P (pathJoin ((segsOf e).take ((segsOf e).length - 1))) c := by
      by_cases hparnil : pathJoin ((segsOf e).take ((segsOf e).length - 1))
          = ([] : Str)
      · intro c
        rw [hparnil]
        rw [hparnil, hrk] at hpd
        injection hpd with hpd
        have hkr : some rk = some kids := by
          rw [← hpnc, ← hpd]
        injection hkr with hkr
        rw [← hkr]
        exact hrkiff c
      · intro c
        exact hInv.kids _ pn kids hparnil hpd hpnc c
    have hpdr : dlookup d (rpartitionSlash (rstripSlash e.filename)).1
        = some pn := by
      rw [hrp]
      exact hpd
    cases hdir : e.isDir with
    | false =>
      have hstep : stepEntry args0 d e = Except.ok
          (dictSet (dictSet d (rpartitionSlash (rstripSlash e.filename)).1
            ⟨pn.zipinfo,
              some (kidsAdd kids (rpartitionSlash (rstripSlash e.filename)).2)⟩)
            (rstripSlash e.filename) ⟨some e, none⟩) := by
        simp only [stepEntry, args0, Bool.false_eq_true, false_and, if_false,
          hpdr, hpnc, hdir]
      rw [hrp] at hstep
      refine ⟨_, hstep, ?_⟩
      exact buildInv_insert P d d e pn kids none hInv hPc hec hdist hnf
        hpd hpnc hG2 hG3 hG4 hG5 hG6
        (by simp [hdir])
        (fun cs h x => absurd h (by simp))
    | true =>
      by_cases hmem : (rpartitionSlash (rstripSlash e.filename)).2 ∈ kids
      · -- the leaf is already a child: the node at the entry path exists
        have hmem' : (segsOf e).getD ((segsOf e).length - 1) [] ∈ kids := by
          rw [hrp] at hmem
          exact hmem
        have hcr : ChildRel P
            (pathJoin ((segsOf e).take ((segsOf e).length - 1)))
            ((segsOf e).getD ((segsOf e).length - 1) []) :=
          (hparent_kids_iff _).mp hmem'
        have hkp : KeyP P (nPath e) := by
          have := keyP_succ_of_childRel P hPc e hec ((segsOf e).length - 1)
            (by omega) hcr
          have heq : (segsOf e).length - 1 + 1 = (segsOf e).length := by omega
          rw [heq, hp_eq] at this
          exact this
        rcases Option.isSome_iff_exists.mp
            ((hInv.keyset _ hpne).mpr hkp) with ⟨n, hn⟩
        have hnr : dlookup d (rstripSlash e.filename) = some n := hn
        have hstep : stepEntry args0 d e = Except.ok
            (dictSet d (rstripSlash e.filename) ⟨some e, n.children⟩) := by
          simp only [stepEntry, args0, Bool.false_eq_true, false_and, if_false,
            hpdr, hpnc, hdir, if_true, hnr]
          rw [if_pos hmem]
        -- rewrite into the unified two-write shape
        have hka : kidsAdd kids ((segsOf e).getD ((segsOf e).length - 1) [])
            = kids := by
          rw [kidsAdd, if_pos hmem']
        have hnode : (⟨pn.zipinfo, some kids⟩ : FileDirNode) = pn := by
          rw [← hpnc]
        have hd1eq : dictSet d
            (pathJoin ((segsOf e).take ((segsOf e).length - 1)))
            ⟨pn.zipinfo,
              some (kidsAdd kids ((segsOf e).getD ((segsOf e).length - 1) []))⟩
            = d := by
          rw [hka, hnode]
          exact dictSet_self_eq d _ pn hpd
        rw [show (dictSet d (rstripSlash e.filename) ⟨some e, n.children⟩)
            = (dictSet (dictSet d
                (pathJoin ((segsOf e).take ((segsOf e).length - 1)))
                ⟨pn.zipinfo, some (kidsAdd kids
                  ((segsOf e).getD ((segsOf e).length - 1) []))⟩)
              (rstripSlash e.filename) ⟨some e, n.children⟩) from by
            rw [hd1eq]] at hstep
        refine ⟨_, hstep, ?_⟩
        exact buildInv_insert P d d e pn kids n.children hInv hPc hec hdist hnf
          hpd hpnc hG2 hG3 hG4 hG5 hG6
          (by
            constructor
            · intro hn0
              exfalso
              rcases (hInv.fileK _ n hpne hn).mp hn0 with ⟨x, hax, hxf⟩
              exact hdist x hax.1 hax.2
            · intro h
              rw [hdir] at h
              exact absurd h (by simp))
          (fun cs h x => hInv.kids _ n cs hpne hn h x)
      · -- the leaf is new under the parent
        have hmem' : (segsOf e).getD ((segsOf e).length - 1) [] ∉ kids := by
          rw [hrp] at hmem
          exact hmem
        have hstep : stepEntry args0 d e = Except.ok
            (dictSet (dictSet d (rpartitionSlash (rstripSlash e.filename)).1
              ⟨pn.zipinfo,
                some (kids ++ [(rpartitionSlash (rstripSlash e.filename)).2])⟩)
              (rstripSlash e.filename) ⟨some e, some []⟩) := by
          simp only [stepEntry, args0, Bool.false_eq_true, false_and, if_false,
            hpdr, hpnc, hdir, if_true]
          rw [if_neg hmem]
        rw [hrp] at hstep
        have hka : kidsAdd kids ((segsOf e).getD ((segsOf e).length - 1) [])
            = kids ++ [(segsOf e).getD ((segsOf e).length - 1) []] := by
          rw [kidsAdd, if_neg hmem']
        rw [← hka] at hstep
        have hnocrp : ∀ x, ¬ ChildRel P (nPath e) x := by
          intro x hcr
          have hkp := childRel_keyP P _ x hpne hcr
          rcases keyP_take_align P hPc e hec (segsOf e).length (le_refl _)
              (by rw [hp_eq]; exact hkp) with ⟨y, hy, hyl, hal⟩
          have hcr2 : ChildRel P
              (pathJoin ((segsOf e).take ((segsOf e).length - 1)))
              ((segsOf e).getD ((segsOf e).length - 1) []) :=
            childRel_of_align P y hy e (segsOf e).length
              ((segsOf e).length - 1) hyl hal (by omega)
          exact hmem' ((hparent_kids_iff _).mpr hcr2)
        refine ⟨_, hstep, ?_⟩
        exact buildInv_insert P d d e pn kids (some []) hInv hPc hec hdist hnf
          hpd hpnc hG2 hG3 hG4 hG5 hG6
          (by simp [hdir])
          (fun cs h x => by
            injection h with h
            rw [← h]
            constructor
            · intro hx
              exact absurd hx (by simp)
            · intro hcr
              exact absurd hcr (hnocrp x))

theorem buildInv_init : BuildInv [] initDict := by
  refine ⟨⟨[], rfl, ?_⟩, ?_, ?_, ?_, ?_⟩
  · intro c
    constructor
    · intro h
      exact absurd h (by simp)
    · rintro ⟨x, hx, _⟩
      exact absurd hx (by simp)
  · intro q hq
    have hn : dlookup initDict q = none := by
      rw [show initDict = [(([] : Str), (⟨none, some []⟩ : FileDirNode))]
        from rfl]
      rw [dlookup, if_neg (fun h => hq h.symm)]
      rfl
    rw [hn]
    constructor
    · intro h
      exact absurd h (by simp)
    · rintro ⟨x, hx, _⟩
      exact absurd hx (by simp)
  · rintro q n x hq hn ⟨hx, _⟩
    exact absurd hx (by simp)
  · intro q n hq hn
    have hnone : dlookup initDict q = none := by
      rw [show initDict = [(([] : Str), (⟨none, some []⟩ : FileDirNode))]
        from rfl]
      rw [dlookup, if_neg (fun h => hq h.symm)]
      rfl
    rw [hnone] at hn
    exact absurd hn (by simp)
  · intro q n cs hq hn
    have hnone : dlookup initDict q = none := by
      rw [show initDict = [(([] : Str), (⟨none, some []⟩ : FileDirNode))]
        from rfl]
      rw [dlookup, if_neg (fun h => hq h.symm)]
      rfl
    rw [hnone] at hn
    exact absurd hn (by simp)

theorem buildInv_congr (P P' : List ZipInfo) (d : ZDict)
    (h : ∀ x, x ∈ P ↔ x ∈ P') (hInv : BuildInv P d) : BuildInv P' d := by
  refine ⟨?_, ?_, ?_, ?_, ?_⟩
  · rcases hInv.root with ⟨rk, hrk, hiff⟩
    exact ⟨rk, hrk, fun c => (hiff c).trans (childRel_congr P P' h [] c)⟩
  · intro q hq
    exact (hInv.keyset q hq).trans (keyP_congr P P' h q)
  · intro q n x hq hn hat
    exact hInv.zinfo q n x hq hn ((atP_congr P P' h q x).mpr hat)
  · intro q n hq hn
    refine (hInv.fileK q n hq hn).trans ?_
    constructor
    · rintro ⟨x, hax, hxf⟩
      exact ⟨x, (atP_congr P P' h q x).mp hax, hxf⟩
    · rintro ⟨x, hax, hxf⟩
      exact ⟨x, (atP_congr P P' h q x).mpr hax, hxf⟩
  · intro q n cs hq hn hcs c
    exact (hInv.kids q n cs hq hn hcs c).trans (childRel_congr P P' h q c)

theorem getZipinfo_inv :
    ∀ (l P : List ZipInfo) (d : ZDict),
    BuildInv P d →
    (∀ x ∈ P, ([] : Str) ∉ segsOf x) →
    (∀ x ∈ l, ([] : Str) ∉ segsOf x) →
    (∀ a ∈ P, ∀ b ∈ l, nPath a ≠ nPath b) →
    l.Pairwise (fun a b => nPath a ≠ nPath b) →
    (∀ a b : ZipInfo, (a ∈ P ∨ a ∈ l) → (b ∈ P ∨ b ∈ l) → a.isDir = false →
      ∀ k, 0 < k → k < (segsOf b).length →
        nPath a ≠ pathJoin ((segsOf b).take k)) →
    ∃ d', List.foldlM (stepEntry args0) d l = Except.ok d' ∧
      BuildInv (P ++ l) d' := by
  intro l
  induction l with
  | nil =>
    intro P d hInv _ _ _ _ _
    exact ⟨d, rfl, by simpa using hInv⟩
  | cons e t ih =>
    intro P d hInv hPc hlc hdist hpair hnf
    rcases stepEntry_inv P d e hInv hPc (hlc e (List.mem_cons_self _ _))
        (fun x hx => hdist x hx e (List.mem_cons_self _ _))
        (fun x hx hxf k hk0 hkL =>
          hnf x e (Or.inl hx) (Or.inr (List.mem_cons_self _ _)) hxf k hk0 hkL)
      with ⟨d1, hstep, hInv1⟩
    have hePc : ∀ x ∈ (e :: P), ([] : Str) ∉ segsOf x := by
      intro x hx
      rcases List.mem_cons.mp hx with rfl | hx
      · exact hlc x (List.mem_cons_self _ _)
      · exact hPc x hx
    have hdist' : ∀ a ∈ (e :: P), ∀ b ∈ t, nPath a ≠ nPath b := by
      intro a ha b hb
      rcases List.mem_cons.mp ha with rfl | ha
      · exact (List.pairwise_cons.mp hpair).1 b hb
      · exact hdist a ha b (List.mem_cons_of_mem _ hb)
    have hnf' : ∀ a b : ZipInfo, (a ∈ (e :: P) ∨ a ∈ t) →
        (b ∈ (e :: P) ∨ b ∈ t) → a.isDir = false →
        ∀ k, 0 < k → k < (segsOf b).length →
          nPath a ≠ pathJoin ((segsOf b).take k) := by
      intro a b ha hb
      have hma : a ∈ P ∨ a ∈ (e :: t) := by
        rcases ha with ha | ha
        · rcases List.mem_cons.mp ha with rfl | ha
          · exact Or.inr (List.mem_cons_self _ _)
          · exact Or.inl ha
        · exact Or.inr (List.mem_cons_of_mem _ ha)
      have hmb : b ∈ P ∨ b ∈ (e :: t) := by
        rcases hb with hb | hb
        · rcases List.mem_cons.mp hb with rfl | hb
          · exact Or.inr (List.mem_cons_self _ _)
          · exact Or.inl hb
        · exact Or.inr (List.mem_cons_of_mem _ hb)
      exact hnf a b hma hmb
    rcases ih (e :: P) d1 hInv1 hePc
        (fun x hx => hlc x (List.mem_cons_of_mem _ hx))
        hdist' (List.pairwise_cons.mp hpair).2 hnf' with ⟨d', hfold, hInv'⟩
    refine ⟨d', ?_, ?_⟩
    · show List.foldlM (stepEntry args0) d (e :: t) = Except.ok d'
      rw [List.foldlM_cons, hstep]
      exact hfold
    · apply buildInv_congr ((e :: P) ++ t) (P ++ (e :: t)) d' ?_ hInv'
      intro x
      simp only [List.mem_append, List.mem_cons]
      tauto

theorem pairwise_nPath_unique (l : List ZipInfo)
    (h : l.Pairwise (fun a b => nPath a ≠ nPath b)) :
    ∀ a, a ∈ l → ∀ b, b ∈ l → nPath a = nPath b → a = b := by
  induction l with
  | nil =>
    intro a ha
    exact absurd ha (by simp)
  | cons x t ih =>
    intro a ha b hb hab
    rcases List.pairwise_cons.mp h with ⟨hx, ht⟩
    rcases List.mem_cons.mp ha with ha1 | ha1
    · rcases List.mem_cons.mp hb with hb1 | hb1
      · rw [ha1, hb1]
      · exfalso
        apply hx b hb1
        rw [← ha1]
        exact hab
    · rcases List.mem_cons.mp hb with hb1 | hb1
      · exfalso
        apply hx a ha1
        rw [← hb1]
        exact hab.symm
      · exact ih ht a ha1 b hb1 hab

/-- Two dictionaries satisfying the builder invariant for the same entry
set are isomorphic, provided every proper ancestor of an entry path is
itself a directory entry's path (so all metadata is pinned). -/
theorem buildInv_unique (E : List ZipInfo) (d d' : ZDict)
    (hInv : BuildInv E d) (hInv' : BuildInv E d')
    (hEc : ∀ x ∈ E, ([] : Str) ∉ segsOf x)
    (hanc : ∀ b ∈ E, ∀ k, 0 < k → k < (segsOf b).length →
        ∃ a, a ∈ E ∧ nPath a = pathJoin ((segsOf b).take k) ∧ a.isDir = true) :
    treeIso d d' := by
  have hat : ∀ q, q ≠ ([] : Str) → KeyP E q → ∃ a, AtP E q a := by
    rintro q hq ⟨x, hx, k, hk0, hkl, hkj⟩
    rcases Nat.lt_or_ge k (segsOf x).length with hlt | hge
    · rcases hanc x hx k hk0 hlt with ⟨a, ha, hap, _⟩
      exact ⟨a, ha, by rw [hap, hkj]⟩
    · have hkeq : k = (segsOf x).length := by omega
      refine ⟨x, hx, ?_⟩
      rw [← hkj, hkeq, List.take_length, pathJoin_segsOf x (hEc x hx)]
  constructor
  · intro q
    by_cases hq : q = ([] : Str)
    · subst hq
      rcases hInv.root with ⟨rk, hrk, _⟩
      rcases hInv'.root with ⟨rk', hrk', _⟩
      rw [hrk, hrk']
      rfl
    · exact Bool.coe_iff_coe.mp
        ((hInv.keyset q hq).trans (hInv'.keyset q hq).symm)
  · intro q n n' hn hn'
    by_cases hq : q = ([] : Str)
    · subst hq
      rcases hInv.root with ⟨rk, hrk, hiff⟩
      rcases hInv'.root with ⟨rk', hrk', hiff'⟩
      rw [hrk] at hn
      injection hn with hn
      rw [hrk'] at hn'
      injection hn' with hn'
      refine ⟨?_, ?_, ?_⟩
      · rw [← hn, ← hn']
      · rw [← hn, ← hn']
        simp
      · intro cs cs' hcs hcs' c
        rw [← hn] at hcs
        have hcs2 : some rk = some cs := hcs
        injection hcs2 with hcs2
        rw [← hn'] at hcs'
        have hcs2' : some rk' = some cs' := hcs'
        injection hcs2' with hcs2'
        rw [← hcs2, ← hcs2']
        exact (hiff c).trans (hiff' c).symm
    · have hkp : KeyP E q := (hInv.keyset q hq).mp (by rw [hn]; rfl)
      rcases hat q hq hkp with ⟨a, ha⟩
      refine ⟨?_, ?_, ?_⟩
      · rw [hInv.zinfo q n a hq hn ha, hInv'.zinfo q n' a hq hn' ha]
      · exact (hInv.fileK q n hq hn).trans (hInv'.fileK q n' hq hn').symm
      · intro cs cs' hcs hcs' c
        exact (hInv.kids q n cs hq hn hcs c).trans
          (hInv'.kids q n' cs' hq hn' hcs' c).symm

/-- Claim C8 is refuted as stated: the two duplicate-free entry lists
`[a/x, a/y]` and `[a/y, a/x]` are permutations of each other, yet the trees
they build differ at the synthesized directory node `a`, which carries the
metadata of whichever entry was processed first (and its children keys in a
different order). -/
theorem claim8_counterexample :
    List.Pairwise (fun a b => nPath a ≠ nPath b) [ziAX, ziAY] ∧
    List.Perm [ziAX, ziAY] [ziAY, ziAX] ∧
    ((getZipinfo args0 [ziAX, ziAY]).toOption.bind
        (fun d => dlookup d ['a'])
      ≠ (getZipinfo args0 [ziAY, ziAX]).toOption.bind
        (fun d => dlookup d ['a'])) := by
  exact ⟨by decide, by decide, by decide⟩

/-- Claim C8 (amended): building the tree is order-independent on
duplicate-free entry lists with clean slash-structure (no empty path
segments) in which every proper ancestor of an entry path is itself the
path of a directory entry of the list: a permutation yields an isomorphic
tree — the same paths, and at each path the same directory/file kind, the
same set of children names, and the same attached metadata. -/
theorem claim8_amended (es es' : List ZipInfo)
    (hperm : es.Perm es')
    (hclean : ∀ x ∈ es, ([] : Str) ∉ segsOf x)
    (hdup : es.Pairwise (fun a b => nPath a ≠ nPath b))
    (hanc : ∀ b ∈ es, ∀ k, 0 < k → k < (segsOf b).length →
        ∃ a, a ∈ es ∧ nPath a = pathJoin ((segsOf b).take k) ∧
          a.isDir = true) :
    ∃ d d', getZipinfo args0 es = Except.ok d ∧
      getZipinfo args0 es' = Except.ok d' ∧ treeIso d d' := by
  have hsym : Symmetric (fun a b : ZipInfo => nPath a ≠ nPath b) :=
    fun a b h he => h he.symm
  have hmem : ∀ x, x ∈ es ↔ x ∈ es' := fun x => hperm.mem_iff
  have huniq : ∀ a, a ∈ es → ∀ b, b ∈ es → nPath a = nPath b → a = b :=
    pairwise_nPath_unique es hdup
  have hanc' : ∀ b ∈ es', ∀ k, 0 < k → k < (segsOf b).length →
      ∃ a, a ∈ es' ∧ nPath a = pathJoin ((segsOf b).take k) ∧
        a.isDir = true := by
    intro b hb k hk0 hkl
    rcases hanc b ((hmem b).mpr hb) k hk0 hkl with ⟨a, ha, h1, h2⟩
    exact ⟨a, (hmem a).mp ha, h1, h2⟩
  have hnf : ∀ a b : ZipInfo, (a ∈ ([] : List ZipInfo) ∨ a ∈ es) →
      (b ∈ ([] : List ZipInfo) ∨ b ∈ es) → a.isDir = false →
      ∀ k, 0 < k → k < (segsOf b).length →
        nPath a ≠ pathJoin ((segsOf b).take k) := by
    intro a b ha hb haf k hk0 hkl he
    rcases ha with ha | ha
    · exact absurd ha (by simp)
    rcases hb with hb | hb
    · exact absurd hb (by simp)
    rcases hanc b hb k hk0 hkl with ⟨c, hc, hcp, hcd⟩
    have hac : a = c := huniq a ha c hc (by rw [he, hcp])
    rw [hac, hcd] at haf
    exact absurd haf (by simp)
  have hnf' : ∀ a b : ZipInfo, (a ∈ ([] : List ZipInfo) ∨ a ∈ es') →
      (b ∈ ([] : List ZipInfo) ∨ b ∈ es') → a.isDir = false →
      ∀ k, 0 < k → k < (segsOf b).length →
        nPath a ≠ pathJoin ((segsOf b).take k) := by
    intro a b ha hb haf k hk0 hkl he
    rcases ha with ha | ha
    · exact absurd ha (by simp)
    rcases hb with hb | hb
    · exact absurd hb (by simp)
    rcases hanc' b hb k hk0 hkl with ⟨c, hc, hcp, hcd⟩
    have hac : a = c := huniq a ((hmem a).mpr ha) c ((hmem c).mpr hc)
      (by rw [he, hcp])
    rw [hac, hcd] at haf
    exact absurd haf (by simp)
  have hclean' : ∀ x ∈ es', ([] : Str) ∉ segsOf x :=
    fun x hx => hclean x ((hmem x).mpr hx)
  have hdup' : es'.Pairwise (fun a b => nPath a ≠ nPath b) :=
    (hperm.pairwise_iff (fun {x y} h => hsym h)).mp hdup
  rcases getZipinfo_inv es [] initDict buildInv_init (by simp) hclean
      (by simp) hdup hnf with ⟨d, hok, hInv⟩
  rcases getZipinfo_inv es' [] initDict buildInv_init (by simp) hclean'
      (by simp) hdup' hnf' with ⟨d', hok', hInv'⟩
  refine ⟨d, d', hok, hok', ?_⟩
  have hInvE : BuildInv es d := by simpa using hInv
  have hInvE' : BuildInv es d' :=
    buildInv_congr es' es d' (fun x => (hmem x).symm) (by simpa using hInv')
  exact buildInv_unique es d d' hInvE hInvE' hclean hanc

theorem claim8_witness :
    ∃ d d', getZipinfo args0 [ziDirA, ziAX] = Except.ok d ∧
      getZipinfo args0 [ziAX, ziDirA] = Except.ok d' ∧ treeIso d d' :=
  claim8_amended [ziDirA, ziAX] [ziAX, ziDirA] (by decide) (by decide)
    (by decide)
    (by
      intro b hb k hk0 hkl
      rcases List.mem_cons.mp hb with rfl | hb
      · exfalso
        have hL : (segsOf ziDirA).length = 1 := by decide
        omega
      · rcases List.mem_cons.mp hb with rfl | hb
        · have hL : (segsOf ziAX).length = 2 := by decide
          have hk1 : k = 1 := by omega
          subst hk1
          exact ⟨ziDirA, List.mem_cons_self _ _, by decide, by decide⟩
        · exact absurd hb (by simp))

end Zipls
